import Mathlib

/-!
# Bencode codec of `RyanChen-cn/torrent`

A shallow embedding of `bencode/bencode.go` (the value model, `encode`, `decode`, `marshal`,
`unmarshal` and the `Marshal` / `Unmarshal` facade) together with the parts of the Go runtime and
standard library the code relies on (`strconv.ParseInt`, `strconv.Atoi`, `bytes.IndexByte`,
`fmt.Sprintf` with `%d`, map iteration, `reflect`).

Conventions of the embedding:

* a byte is a natural number (its value), a byte buffer or a Go `string` is a `List Nat`;
* Go `int` is the 64-bit signed integer; arithmetic that can leave that range is wrapped
  explicitly with `wrap64`;
* a Go map is represented by the list of its entries in ascending key order, so that two maps
  with the same entries are the same term; the order in which a `range` statement visits the
  entries is not a property of the map: the runtime chooses it anew at every `range`
  statement it executes, so a function that ranges over the maps of a value tree is given one
  `RangeOrder` for every node of the tree (`RangeOrders`);
* a run-time panic is an outcome of its own (`Outcome.panic`), distinct from a returned error;
* `decode` calls itself once for every level of nesting of its input, a byte buffer in which
  a level of nesting costs one byte; the number of nested calls the goroutine stack has room
  for is a parameter of `decode`, and a call for which no room is left ends the process
  (`Outcome.stackOverflow`).
-/

namespace Bencode

/-! ## Bytes -/

/-- The bytes of an ASCII literal. -/
def ascii (s : String) : List Nat := s.toList.map Char.toNat

/-- Go's `<` on strings: bytewise lexicographic comparison. -/
def bytesLt : List Nat → List Nat → Bool
  | [], [] => false
  | [], _ :: _ => true
  | _ :: _, [] => false
  | a :: as, b :: bs => decide (a < b) || (decide (a = b) && bytesLt as bs)

/-- `bytes.IndexByte(b, c)`: the index of the first `c` in `b`, `none` for Go's `-1`. -/
def IndexByte : List Nat → Nat → Option Nat
  | [], _ => none
  | b :: bs, c => if b = c then some 0 else (IndexByte bs c).map (· + 1)

/-- The Go slice expression `data[lo:hi]` for `lo ≤ hi ≤ len(data)`. -/
def slice (data : List Nat) (lo hi : Nat) : List Nat := (data.drop lo).take (hi - lo)

/-! ## Go maps with string keys -/

/-- The map assignment `m[k] = v` on the sorted entry list of `m`. -/
def mapInsert {α : Type} (k : List Nat) (v : α) : List (List Nat × α) → List (List Nat × α)
  | [] => [(k, v)]
  | (k', v') :: rest =>
    if k = k' then (k, v) :: rest
    else if bytesLt k k' then (k, v) :: (k', v') :: rest
    else (k', v') :: mapInsert k v rest

/-- The index expression `m[k]` with its presence flag. -/
def mapLookup {α : Type} (k : List Nat) : List (List Nat × α) → Option α
  | [] => none
  | (k', v') :: rest => if k = k' then some v' else mapLookup k rest

/-- The keys of a map, in storage order. -/
def mapKeys {α : Type} (m : List (List Nat × α)) : List (List Nat) := m.map Prod.fst

/-- The entry list is the representation of a map: keys strictly ascending. -/
def mapSorted {α : Type} : List (List Nat × α) → Bool
  | [] => true
  | [_] => true
  | (k, _) :: (k', v') :: rest => bytesLt k k' && mapSorted ((k', v') :: rest)

/-- The order in which one `range` statement visits the keys of a map: the runtime is given the
keys and answers with the order of the visit. -/
abbrev RangeOrder := List (List Nat) → List (List Nat)

/-- A `RangeOrder` the Go runtime can produce: every key is visited exactly once. -/
def ValidOrder (ord : RangeOrder) : Prop := ∀ ks : List (List Nat), ks.Nodup → (ord ks).Perm ks

/-- The entries of `m` in the order `for k, v := range m` visits them. -/
def rangeOver {α : Type} (ord : RangeOrder) (m : List (List Nat × α)) : List (List Nat × α) :=
  (ord (mapKeys m)).filterMap (fun k => (mapLookup k m).map (fun v => (k, v)))

/-- One step from a node of a value tree to one of its children: the position of an element in
a list (sequence, record) or the key of an entry of a dictionary (map). -/
inductive Step where
  | index (i : Nat)
  | key (k : List Nat)
deriving DecidableEq, Repr

/-- The orders of all the `range` statements one call of `encode`, `marshal` or `unmarshal`
executes. Each of these functions walks a value tree and executes at most one `range`
statement at a node; the runtime chooses the order of each of them on its own, so the choice
is a function of the path from the root of the walk to the node. -/
abbrev RangeOrders := List Step → RangeOrder

/-- The orders of the ranges inside the child reached by the step `s`. -/
def below (o : RangeOrders) (s : Step) : RangeOrders := fun p => o (s :: p)

/-- Orders the Go runtime can produce: at every node every key is visited exactly once. -/
def ValidOrders (o : RangeOrders) : Prop := ∀ p : List Step, ValidOrder (o p)

/-- The same order at every `range` statement. -/
def everywhere (ord : RangeOrder) : RangeOrders := fun _ => ord

/-! ## Machine integers -/

/-- Reduction of an integer to the 64-bit signed range (two's complement wrap-around). -/
def wrap64 (x : Int) : Int := (x + 2 ^ 63) % 2 ^ 64 - 2 ^ 63

/-- Reduction of an integer to the `bits`-bit signed range. -/
def wrapBits (bits : Nat) (x : Int) : Int := (x + 2 ^ (bits - 1)) % 2 ^ bits - 2 ^ (bits - 1)

/-- Membership in the 64-bit signed range. -/
def inInt64 (x : Int) : Bool := decide (-(2 : Int) ^ 63 ≤ x) && decide (x < (2 : Int) ^ 63)

/-! ## `fmt.Sprintf("%d", _)` -/

/-- The decimal digits of `n`, most significant first, as ASCII bytes (`fuel` bounds the
number of digits). -/
def natDigits : Nat → Nat → List Nat
  | 0, _ => []
  | fuel + 1, n => if n < 10 then [48 + n] else natDigits fuel (n / 10) ++ [48 + n % 10]

/-- The verb `%d` applied to a non-negative integer. -/
def decimalNat (n : Nat) : List Nat := natDigits (n + 1) n

/-- The verb `%d` applied to a signed integer: `-` for negatives, no `+`, no leading zeros. -/
def decimalInt (v : Int) : List Nat :=
  if v < 0 then 45 :: decimalNat v.natAbs else decimalNat v.natAbs

/-! ## `strconv` -/

/-- The two errors of `strconv`: `ErrSyntax` and `ErrRange`. -/
inductive NumError where
  | syntaxErr
  | rangeErr
deriving DecidableEq, Repr

/-- The digit loop of `strconv.ParseUint(s, 10, 64)`: `n` is the value read so far. The
cutoff is `maxUint64/10 + 1`, the sum `n*10 + d` is computed modulo `2^64`. -/
def parseUintLoop : List Nat → Nat → Except NumError Nat
  | [], n => .ok n
  | c :: cs, n =>
    if 48 ≤ c ∧ c ≤ 57 then
      let d := c - 48
      if n ≥ (2 ^ 64 - 1) / 10 + 1 then .error .rangeErr
      else
        let n10 := n * 10
        let n1 := (n10 + d) % 2 ^ 64
        if n1 < n10 ∨ n1 > 2 ^ 64 - 1 then .error .rangeErr
        else parseUintLoop cs n1
    else .error .syntaxErr

/-- The function `strconv.ParseUint(s, 10, 64)`. -/
def ParseUint (s : List Nat) : Except NumError Nat :=
  if s = [] then .error .syntaxErr else parseUintLoop s 0

/-- The function `strconv.ParseInt(s, 10, 64)`: an optional sign `+` or `-`, then
`ParseUint`; a syntax error is returned as it is, a range error of `ParseUint` leaves
`un = maxUint64` and is reported again by the range check on the signed value. -/
def ParseInt (s : List Nat) : Except NumError Int :=
  match s with
  | [] => .error .syntaxErr
  | c :: rest =>
    let neg := decide (c = 45)
    let s1 := if c = 43 then rest else if c = 45 then rest else s
    match (match ParseUint s1 with
           | .error .syntaxErr => (none : Option Nat)
           | .error .rangeErr => some (2 ^ 64 - 1)
           | .ok un => some un) with
    | none => .error .syntaxErr
    | some un =>
      if neg = false ∧ un ≥ 2 ^ 63 then .error .rangeErr
      else if neg = true ∧ un > 2 ^ 63 then .error .rangeErr
      else .ok (if neg then -(un : Int) else (un : Int))

/-- The function `strconv.Atoi(s)`, which is `ParseInt(s, 10, 0)` with `int` of 64 bits (its
fast path for short inputs accepts the same strings with the same results). -/
def Atoi (s : List Nat) : Except NumError Int := ParseInt s

/-! ## The value model -/

/-- The type `BValue` restricted to its four bencode variants `BString`, `BInt`, `BList` and
`BDict` (`map[string]BValue`, as the list of its entries in ascending key order). -/
inductive BValue where
  | BString (s : List Nat)
  | BInt (v : Int)
  | BList (l : List BValue)
  | BDict (m : List (List Nat × BValue))
deriving Repr

/-- The errors returned by the codec. -/
inductive Err where
  | noMoreData
  | invalidIntegerEncoding
  | listNotTerminated
  | dictNotTerminated
  | invalidDictionaryKey
  | invalidStringEncoding
  | stringLengthExceedsData
  | num (e : NumError)
  | mapKeysMustBeStrings
  | unsupportedType
  | typeMismatch
deriving DecidableEq, Repr

/-- What a call does: it returns a result, returns an error, panics, exhausts the goroutine
stack (a fatal error of the runtime, which no `recover` catches), or (in the embedding only)
runs out of recursion fuel. -/
inductive Outcome (α : Type) where
  | ok (a : α)
  | error (e : Err)
  | panic
  | outOfFuel
  | stackOverflow
deriving Repr

/-! ## `encode` -/

mutual
/-- The method `BencodeSerializer.encode` on the four variants; `o` holds the orders of the
`range` statements of the call: `o []` is the order in which the `range` over this `BDict`
visits its keys, the call on the element at position `i` of a list runs under
`below o (.index i)`, the call on the value of the key `k` under `below o (.key k)`. On these
variants no error is returned. -/
def encode (o : RangeOrders) : BValue → List Nat
  | .BString s => decimalNat s.length ++ [58] ++ s
  | .BInt v => [105] ++ decimalInt v ++ [101]
  | .BList l => [108] ++ encodeList o 0 l ++ [101]
  | .BDict m =>
    [100] ++ (rangeOver (o []) (encodeEntries o m)).foldr (fun kv acc => kv.2 ++ acc) [] ++ [101]
/-- The loop of the `BList` case from position `i` on: the encodings of the elements, in
order. -/
def encodeList (o : RangeOrders) (i : Nat) : List BValue → List Nat
  | [] => []
  | v :: vs => encode (below o (.index i)) v ++ encodeList o (i + 1) vs
/-- The body of the loop of the `BDict` case at every entry: what it writes for the key `k`,
`encode(BString(k))` followed by `encode(value)`. -/
def encodeEntries (o : RangeOrders) : List (List Nat × BValue) → List (List Nat × List Nat)
  | [] => []
  | (k, v) :: rest =>
    (k, (decimalNat k.length ++ [58] ++ k) ++ encode (below o (.key k)) v) :: encodeEntries o rest
end

/-! ## `decode` -/

/-- The `'i'` case of `decode`: scan to the next `e`, parse what stands between with
`strconv.ParseInt`, leave the cursor after the `e`. -/
def decodeInt (data : List Nat) (pos : Nat) : Outcome (BValue × Nat) :=
  let pos1 := pos + 1
  match IndexByte (data.drop pos1) 101 with
  | none => .error .invalidIntegerEncoding
  | some e =>
    let stop := e + pos1
    match ParseInt (slice data pos1 stop) with
    | .error err => .error (.num err)
    | .ok val => .ok (.BInt val, stop + 1)

/-- The `default` case of `decode`: scan to the next `:`, parse the prefix with
`strconv.Atoi`, compute `start` and `end` as Go `int`s, compare `end` with `len(s.data)` and
slice `s.data[start:end]`, which panics when `end < start`. -/
def decodeString (data : List Nat) (pos : Nat) : Outcome (BValue × Nat) :=
  match IndexByte (data.drop pos) 58 with
  | none => .error .invalidStringEncoding
  | some c =>
    let colon := c + pos
    match Atoi (slice data pos colon) with
    | .error err => .error (.num err)
    | .ok length =>
      let start : Int := (colon : Int) + 1
      let stop : Int := wrap64 (start + length)
      if stop > (data.length : Int) then .error .stringLengthExceedsData
      else if start ≤ stop then
        .ok (.BString (slice data start.toNat stop.toNat), stop.toNat)
      else .panic

mutual
/-- The method `BencodeSerializer.decode` with the buffer `data` and the cursor `pos` passed
explicitly; a successful call returns the value and the new cursor. The first argument `stk`
is the number of nested calls of `decode` the goroutine stack has room for below this call:
the method calls itself once for every element, key and value, each such call needs one more
frame, and when there is no room for it the process ends with a stack overflow. The second
argument is the recursion fuel. -/
def decode : Nat → Nat → List Nat → Nat → Outcome (BValue × Nat)
  | _, 0, _, _ => .outOfFuel
  | stk, fuel + 1, data, pos =>
    if pos ≥ data.length then .error .noMoreData
    else
      match data.getD pos 0 with
      | 105 => decodeInt data pos
      | 108 => decodeListLoop stk fuel data (pos + 1) []
      | 100 => decodeDictLoop stk fuel data (pos + 1) []
      | _ => decodeString data pos
termination_by structural _ fuel => fuel
/-- The loop of the `'l'` case and what follows it; `list` holds the elements appended so
far. -/
def decodeListLoop : Nat → Nat → List Nat → Nat → List BValue → Outcome (BValue × Nat)
  | _, 0, _, _, _ => .outOfFuel
  | stk, fuel + 1, data, pos, list =>
    if pos < data.length ∧ data.getD pos 0 ≠ 101 then
      match stk with
      | 0 => .stackOverflow
      | room + 1 =>
        match decode room fuel data pos with
        | .ok (elem, pos') => decodeListLoop (room + 1) fuel data pos' (list ++ [elem])
        | .error e => .error e
        | .panic => .panic
        | .outOfFuel => .outOfFuel
        | .stackOverflow => .stackOverflow
    else if pos ≥ data.length then .error .listNotTerminated
    else .ok (.BList list, pos + 1)
termination_by structural _ fuel => fuel
/-- The loop of the `'d'` case and what follows it; `dict` holds the entries assigned so
far. -/
def decodeDictLoop : Nat → Nat → List Nat → Nat → List (List Nat × BValue) →
    Outcome (BValue × Nat)
  | _, 0, _, _, _ => .outOfFuel
  | stk, fuel + 1, data, pos, dict =>
    if pos < data.length ∧ data.getD pos 0 ≠ 101 then
      match stk with
      | 0 => .stackOverflow
      | room + 1 =>
        match decode room fuel data pos with
        | .ok (.BString keyStr, pos') =>
          (match decode room fuel data pos' with
           | .ok (value, pos'') =>
             decodeDictLoop (room + 1) fuel data pos'' (mapInsert keyStr value dict)
           | .error e => .error e
           | .panic => .panic
           | .outOfFuel => .outOfFuel
           | .stackOverflow => .stackOverflow)
        | .ok (_, _) => .error .invalidDictionaryKey
        | .error e => .error e
        | .panic => .panic
        | .outOfFuel => .outOfFuel
        | .stackOverflow => .stackOverflow
    else if pos ≥ data.length then .error .dictNotTerminated
    else .ok (.BDict dict, pos + 1)
termination_by structural _ fuel => fuel
end

/-- The call `s.decode()` of `Unmarshal`: cursor 0, on a stack with room for `stk` nested
calls; the fuel `2 * len(data) + 1` is enough for every buffer. -/
def Decode (stk : Nat) (data : List Nat) : Outcome (BValue × Nat) :=
  decode stk (2 * data.length + 1) data 0

/-! ## Native Go values, as `reflect` sees them -/

/-- The signed integer kinds `reflect.Int` ... `reflect.Int64`. -/
inductive IntKind where
  | int
  | int8
  | int16
  | int32
  | int64
deriving DecidableEq, Repr

/-- The width in bits of a signed integer kind (`int` has 64 bits). -/
def IntKind.bits : IntKind → Nat
  | .int => 64
  | .int8 => 8
  | .int16 => 16
  | .int32 => 32
  | .int64 => 64

/-- What `reflect.StructField` tells about a field: its name, the value of its `bencode` tag
(`field.Tag.Get("bencode")`, empty when there is none) and whether it is exported
(`PkgPath == ""`). -/
structure FieldInfo where
  name : List Nat
  tag : List Nat
  exported : Bool
deriving DecidableEq, Repr

/-- The Go types the binder distinguishes. `string` is the predeclared type, `namedString`
stands for every defined type whose underlying type is `string` (`type K string`): its kind
is `reflect.String` as well, but a value of type `string` is not assignable to it. `uint8` is
the element type of `[]uint8`; `other` stands for every kind without a case of its own in
`marshal` and `unmarshal` (booleans, floats, unsigned integers, interfaces, ...). Structs have
named fields only (no embedded fields). -/
inductive GoType where
  | string
  | namedString
  | int (k : IntKind)
  | uint8
  | other
  | array (n : Nat) (elem : GoType)
  | slice (elem : GoType)
  | map (key : GoType) (elem : GoType)
  | struct (fields : List (FieldInfo × GoType))
  | ptr (elem : GoType)
deriving Repr

/-- The Go values of these types. A `reflect.Value` is a `GoType` together with a `GoValue`.
An array or slice is the sequence of its elements, a map with string keys the list of its
entries in ascending key order, a struct the sequence of its field values in declaration
order, a pointer `none` for nil or `some` of what it points to. A nil slice or map is the
empty sequence or entry list: `marshal` reads both through `Len`, `Index` and `MapKeys` only,
which do not tell nil from empty. -/
inductive GoValue where
  | string (s : List Nat)
  | int (v : Int)
  | uint (v : Nat)
  | other
  | seq (elems : List GoValue)
  | map (entries : List (List Nat × GoValue))
  | struct (fields : List GoValue)
  | ptr (target : Option GoValue)
deriving Repr

/-- The test `t.Kind() == reflect.String`. -/
def kindIsString : GoType → Bool
  | .string => true
  | .namedString => true
  | _ => false

/-- Whether a `reflect.Value` of type `string`, such as `reflect.ValueOf(key)`, is assignable
to the type `t` of kind `reflect.String`: only when `t` is `string` itself. -/
def stringAssignable : GoType → Bool
  | .string => true
  | _ => false

mutual
/-- The zero value of a type (`reflect.Zero`, `reflect.New(t).Elem()`). -/
def zero : GoType → GoValue
  | .string => .string []
  | .namedString => .string []
  | .int _ => .int 0
  | .uint8 => .uint 0
  | .other => .other
  | .array n elem => .seq (List.replicate n (zero elem))
  | .slice _ => .seq []
  | .map _ _ => .map []
  | .struct fields => .struct (zeroFields fields)
  | .ptr _ => .ptr none
/-- The zero values of the fields of a struct type. -/
def zeroFields : List (FieldInfo × GoType) → List GoValue
  | [] => []
  | (_, t) :: rest => zero t :: zeroFields rest
end

/-- The dictionary key `marshal` and `unmarshal` use for a field: the whole text of its
`bencode` tag, or the field name when the tag is empty. -/
def fieldKey (f : FieldInfo) : List Nat := if f.tag = [] then f.name else f.tag

/-- The loop over `val.MapKeys()` in `marshal` once each element has been converted: the
first error met in the order of the visit is returned, otherwise `dict[key] = elem`. -/
def marshalMapLoop : List (List Nat × Except Err BValue) → List (List Nat × BValue) →
    Except Err (List (List Nat × BValue))
  | [], dict => .ok dict
  | (_, .error e) :: _, _ => .error e
  | (key, .ok elem) :: rest, dict => marshalMapLoop rest (mapInsert key elem dict)

mutual
/-- The function `marshal` on the `reflect.Value` made of the type `t` and the value `v`;
`o` holds the orders of `val.MapKeys()` at the maps of the value (`o []` at this one, the
call on element or field `i` runs under `below o (.index i)`, the call on the value of the
key `k` under `below o (.key k)`). The last line is the `default` case of the switch on
`val.Kind()` (it also receives the pairs in which `v` is not a value of type `t`, which no
`reflect.Value` is). -/
def marshal (o : RangeOrders) : GoType → GoValue → Except Err BValue
  | .string, .string s => .ok (.BString s)
  | .namedString, .string s => .ok (.BString s)
  | .int _, .int v => .ok (.BInt v)
  | .array _ elem, .seq elems =>
    match marshalSeq o 0 elem elems with
    | .error e => .error e
    | .ok list => .ok (.BList list)
  | .slice .uint8, .seq _ => .ok (.BString (ascii "<[]uint8 Value>"))
  | .slice elem, .seq elems =>
    match marshalSeq o 0 elem elems with
    | .error e => .error e
    | .ok list => .ok (.BList list)
  | .map key elem, .map entries =>
    if kindIsString key then
      match marshalMapLoop (rangeOver (o []) (marshalEntries o elem entries)) [] with
      | .error e => .error e
      | .ok dict => .ok (.BDict dict)
    else .error .mapKeysMustBeStrings
  | .struct fields, .struct values =>
    match marshalFields o 0 fields values [] with
    | .error e => .error e
    | .ok dict => .ok (.BDict dict)
  | _, _ => .error .unsupportedType
/-- The loop of the array and slice cases from position `i` on: `list = append(list, elem)`. -/
def marshalSeq (o : RangeOrders) (i : Nat) (elem : GoType) :
    List GoValue → Except Err (List BValue)
  | [] => .ok []
  | x :: xs =>
    match marshal (below o (.index i)) elem x with
    | .error e => .error e
    | .ok b =>
      match marshalSeq o (i + 1) elem xs with
      | .error e => .error e
      | .ok bs => .ok (b :: bs)
/-- The call `marshal(val.MapIndex(key))` at every entry of a map. -/
def marshalEntries (o : RangeOrders) (elem : GoType) :
    List (List Nat × GoValue) → List (List Nat × Except Err BValue)
  | [] => []
  | (k, x) :: rest => (k, marshal (below o (.key k)) elem x) :: marshalEntries o elem rest
/-- The loop of the struct case over the fields in declaration order, from field `i` on:
`dict[tag] = elem`. -/
def marshalFields (o : RangeOrders) (i : Nat) : List (FieldInfo × GoType) → List GoValue →
    List (List Nat × BValue) → Except Err (List (List Nat × BValue))
  | (f, t) :: fields, x :: values, dict =>
    match marshal (below o (.index i)) t x with
    | .error e => .error e
    | .ok elem => marshalFields o (i + 1) fields values (mapInsert (fieldKey f) elem dict)
  | _, _, dict => .ok dict
end

/-- The method `Marshal`: `marshal`, then `encode`. `oM` holds the orders of the ranges in
`marshal`, `oE` the orders of the ranges in `encode`. -/
def Marshal (oM oE : RangeOrders) (t : GoType) (v : GoValue) : Except Err (List Nat) :=
  match marshal oM t v with
  | .error e => .error e
  | .ok bValue => .ok (encode oE bValue)

/-! ## `unmarshal` -/

/-- How a call of `unmarshal` ends: it returns `nil`, it returns an error, or a call into
`reflect` panics. -/
inductive Ending where
  | ok
  | error (e : Err)
  | panic
deriving DecidableEq, Repr

/-- The fields of a struct type whose key is `key`, each with its index. -/
def matchingFields (key : List Nat) :
    List (FieldInfo × GoType) → Nat → List (Nat × FieldInfo × GoType)
  | [], _ => []
  | (f, t) :: rest, i =>
    if fieldKey f = key then (i, f, t) :: matchingFields key rest (i + 1)
    else matchingFields key rest (i + 1)

/-- The call `val.FieldByNameFunc(...)` of `unmarshal`: the field whose tag (or name, when the
tag is empty) equals `key`. When no field or more than one field matches, `reflect` returns
the zero `Value` (`none`). -/
def findField (fields : List (FieldInfo × GoType)) (key : List Nat) :
    Option (Nat × FieldInfo × GoType) :=
  match matchingFields key fields 0 with
  | [found] => some found
  | _ => none

/-- The body of the loop of the struct case for one entry: `bind` is `unmarshal(elem, _)`,
`values` are the current field values of the target. A field that is found and can be set
is bound in place; a pointer field is first set to a newly allocated zero value. -/
def bindField (fields : List (FieldInfo × GoType)) (key : List Nat)
    (bind : GoType → GoValue → GoValue × Ending) (values : List GoValue) :
    List GoValue × Ending :=
  match findField fields key with
  | none => (values, .ok)
  | some (i, f, fieldType) =>
    if f.exported then
      match fieldType with
      | .ptr elem =>
        let r := bind elem (zero elem)
        (values.set i (.ptr (some r.1)), r.2)
      | _ =>
        let r := bind fieldType (values.getD i (zero fieldType))
        (values.set i r.1, r.2)
    else (values, .ok)

/-- The loop of the struct case over the entries in the order of the visit: it stops at the
first bind that does not return `nil` and keeps what was bound before. -/
def unmarshalStructLoop (fields : List (FieldInfo × GoType)) :
    List (List Nat × (GoType → GoValue → GoValue × Ending)) → List GoValue →
    List GoValue × Ending
  | [], values => (values, .ok)
  | (key, bind) :: rest, values =>
    match bindField fields key bind values with
    | (values', .ok) => unmarshalStructLoop fields rest values'
    | (values', r) => (values', r)

/-- The loop of the map case over the entries in the order of the visit: each element is bound
into a new zero value of the element type and stored in the new map `mapType` with
`mapType.SetMapIndex(reflect.ValueOf(key), mapVal)`, which panics unless a `string` is
assignable to the key type of the map. The result is the new map and how the loop ended. -/
def unmarshalMapLoop (assignable : Bool) (elem : GoType) :
    List (List Nat × (GoType → GoValue → GoValue × Ending)) → List (List Nat × GoValue) →
    List (List Nat × GoValue) × Ending
  | [], mapType => (mapType, .ok)
  | (key, bind) :: rest, mapType =>
    match bind elem (zero elem) with
    | (mapVal, .ok) =>
      if assignable then unmarshalMapLoop assignable elem rest (mapInsert key mapVal mapType)
      else (mapType, .panic)
    | (_, r) => (mapType, r)

mutual
/-- The function `unmarshal(bValue, val)`, where `val` is the settable `reflect.Value` of
type `t` that currently holds `cur`. The result is what `val` holds after the call and how
the call ended; `o` holds the orders of the ranges over the `BDict`s of the value (`o []` at
this one, the call on element `i` of a list runs under `below o (.index i)`, the call on the
value of the key `k` under `below o (.key k)`). Every path that leaves the type switch
without returning ends in the final `errors.New("type mismatch or unsupported type")`. -/
def unmarshal (o : RangeOrders) : BValue → GoType → GoValue → GoValue × Ending
  | .BString s, t, cur =>
    if kindIsString t then (.string s, .ok) else (cur, .error .typeMismatch)
  | .BInt v, t, cur =>
    match t with
    | .int k => (.int (wrapBits k.bits v), .ok)
    | _ => (cur, .error .typeMismatch)
  | .BList l, t, cur =>
    match t with
    | .slice elem =>
      match unmarshalSeq o 0 l elem with
      | (elems, .ok) => (.seq elems, .ok)
      | (_, r) => (cur, r)
    | _ => (cur, .error .typeMismatch)
  | .BDict m, t, cur =>
    match t with
    | .map key elem =>
      if kindIsString key then
        match unmarshalMapLoop (stringAssignable key) elem
            (rangeOver (o []) (unmarshalEntries o m)) [] with
        | (mapType, .ok) => (.map mapType, .ok)
        | (_, r) => (cur, r)
      else (cur, .error .mapKeysMustBeStrings)
    | .struct fields =>
      match cur with
      | .struct values =>
        let r := unmarshalStructLoop fields (rangeOver (o []) (unmarshalEntries o m)) values
        (.struct r.1, r.2)
      | _ => (cur, .error .typeMismatch)
    | _ => (cur, .error .typeMismatch)
/-- The loop of the slice case from position `i` on: element `i` of the list is bound into
element `i` of the new slice made by `reflect.MakeSlice`; the loop stops at the first bind
that does not return `nil`. The result is the new slice (when every bind returned `nil`) and
how the loop ended. -/
def unmarshalSeq (o : RangeOrders) (i : Nat) : List BValue → GoType → List GoValue × Ending
  | [], _ => ([], .ok)
  | b :: bs, elem =>
    match unmarshal (below o (.index i)) b elem (zero elem) with
    | (x, .ok) =>
      match unmarshalSeq o (i + 1) bs elem with
      | (xs, .ok) => (x :: xs, .ok)
      | (_, r) => ([], r)
    | (_, r) => ([], r)
/-- The call `unmarshal(elem, _)` at every entry of a `BDict`, waiting for its target. -/
def unmarshalEntries (o : RangeOrders) : List (List Nat × BValue) →
    List (List Nat × (GoType → GoValue → GoValue × Ending))
  | [] => []
  | (k, b) :: rest => (k, unmarshal (below o (.key k)) b) :: unmarshalEntries o rest
end

/-- The method `Unmarshal(data, v)` where `v` points to a value of type `t` that holds `cur`:
`decode` from cursor 0 (on a stack with room for `stk` nested calls), then `unmarshal`. The
result is what the target holds after the call and how the call ended. -/
def Unmarshal (stk : Nat) (o : RangeOrders) (data : List Nat) (t : GoType) (cur : GoValue) :
    GoValue × Outcome Unit :=
  match Decode stk data with
  | .ok (bValue, _) =>
    match unmarshal o bValue t cur with
    | (target, .ok) => (target, .ok ())
    | (target, .error e) => (target, .error e)
    | (target, .panic) => (target, .panic)
  | .error e => (cur, .error e)
  | .panic => (cur, .panic)
  | .outOfFuel => (cur, .outOfFuel)
  | .stackOverflow => (cur, .stackOverflow)

/-- What the loop of the `BDict` case of `encode` writes when it visits the entries `es` in
this order, each entry given with the orders of the ranges inside its value. -/
def encodeVisited : List (RangeOrders × List Nat × BValue) → List Nat
  | [] => []
  | (o, k, v) :: rest => (decimalNat k.length ++ [58] ++ k) ++ encode o v ++ encodeVisited rest

/-! ## Well-formed values -/

/-- Membership of an integer in the range of a signed integer kind. -/
def inIntKind (k : IntKind) (v : Int) : Bool :=
  decide (-(2 : Int) ^ (k.bits - 1) ≤ v) && decide (v < (2 : Int) ^ (k.bits - 1))

mutual
/-- The value trees Go can hold: a `BInt` is a 64-bit integer and the entry list of every
`BDict` is the representation of a map (keys strictly ascending, hence distinct). -/
def wfValue : BValue → Bool
  | .BString _ => true
  | .BInt v => inInt64 v
  | .BList l => wfList l
  | .BDict m => mapSorted m && wfEntries m
/-- Every element of a list is well formed. -/
def wfList : List BValue → Bool
  | [] => true
  | v :: vs => wfValue v && wfList vs
/-- Every value of an entry list is well formed. -/
def wfEntries : List (List Nat × BValue) → Bool
  | [] => true
  | (_, v) :: rest => wfValue v && wfEntries rest
end

mutual
/-- The number of nested calls `decode` makes, below the call that reads the tree, to read an
encoding of the tree: none for a byte string, an integer and an empty list or dictionary, one
more than its deepest element (key, value) needs for a list or dictionary that has some. -/
def height : BValue → Nat
  | .BString _ => 0
  | .BInt _ => 0
  | .BList l => heightList l
  | .BDict m => heightEntries m
/-- The nested calls the elements of a list need, counted from the call that reads the list. -/
def heightList : List BValue → Nat
  | [] => 0
  | v :: vs => max (height v + 1) (heightList vs)
/-- The nested calls the entries of a dictionary need, counted from the call that reads the
dictionary. -/
def heightEntries : List (List Nat × BValue) → Nat
  | [] => 0
  | (_, v) :: rest => max (height v + 1) (heightEntries rest)
end

/-- The nested calls the values of entries need that are given in the order of a visit,
counted from the call that reads the dictionary. -/
def heightVisited : List (RangeOrders × List Nat × BValue) → Nat
  | [] => 0
  | (_, _, v) :: rest => max (height v + 1) (heightVisited rest)

/-- The empty list inside `n` lists of one element: `[]`, `[[]]`, `[[[]]]`, ... -/
def nestedList : Nat → BValue
  | 0 => .BList []
  | n + 1 => .BList [nestedList n]

mutual
/-- The Go value `v` is a value of the Go type `t`. The entries of a map whose key type is
not of kind `reflect.String` are not represented. -/
def hasType : GoType → GoValue → Bool
  | .string, .string _ => true
  | .namedString, .string _ => true
  | .int k, .int v => inIntKind k v
  | .uint8, .uint v => decide (v < 256)
  | .other, .other => true
  | .array n elem, .seq elems => decide (elems.length = n) && hasTypeAll elem elems
  | .slice elem, .seq elems => hasTypeAll elem elems
  | .map key elem, .map entries =>
    if kindIsString key then mapSorted entries && hasTypeEntries elem entries
    else entries.isEmpty
  | .struct fields, .struct values => hasTypeFields fields values
  | .ptr _, .ptr none => true
  | .ptr elem, .ptr (some x) => hasType elem x
  | _, _ => false
/-- Every element of a sequence has the element type. -/
def hasTypeAll (elem : GoType) : List GoValue → Bool
  | [] => true
  | x :: xs => hasType elem x && hasTypeAll elem xs
/-- Every value of a map has the element type. -/
def hasTypeEntries (elem : GoType) : List (List Nat × GoValue) → Bool
  | [] => true
  | (_, x) :: rest => hasType elem x && hasTypeEntries elem rest
/-- The field values of a struct have the types of its fields, one for one. -/
def hasTypeFields : List (FieldInfo × GoType) → List GoValue → Bool
  | [], [] => true
  | (_, t) :: fields, x :: values => hasType t x && hasTypeFields fields values
  | _, _ => false
end

mutual
/-- The shapes on which `Marshal` followed by `Unmarshal` gives the value back: strings (of
type `string` or of a defined string type), signed integers, slices of such shapes, maps
from `string` itself to such shapes, and structs whose fields are exported, have pairwise
distinct keys and are of such shapes. Arrays, `[]uint8`, pointers, maps whose key type is a
defined string type and the kinds `marshal` rejects are left out. -/
def roundTripShape : GoType → Bool
  | .string => true
  | .namedString => true
  | .int _ => true
  | .slice elem => roundTripShape elem
  | .map .string elem => roundTripShape elem
  | .struct fields =>
    decide ((fields.map (fun p => fieldKey p.1)).Nodup) && roundTripFields fields
  | _ => false
/-- Every field is exported and of a shape that round-trips. -/
def roundTripFields : List (FieldInfo × GoType) → Bool
  | [] => true
  | (f, t) :: rest => f.exported && roundTripShape t && roundTripFields rest
end

/-! ## The reference serialization of the specification -/

/-- The specification's "ASCII decimal digits" of a natural number: the base-10 digits, most
significant first, without leading zeros (`0` for zero). -/
def specDecimalNat (n : Nat) : List Nat :=
  if n = 0 then [48] else (Nat.digits 10 n).reverse.map (fun d => 48 + d)

/-- The specification's decimal digits of an integer: `-` for negative, no `+`. -/
def specDecimalInt (v : Int) : List Nat :=
  if v < 0 then 45 :: specDecimalNat v.natAbs else specDecimalNat v.natAbs

mutual
/-- The encoder as the specification words it: a byte string of length `n` and content `c` is
the decimal digits of `n`, `:` and `c`; an integer `v` is `i`, the decimal digits of `v` and
`e`; a list is `l`, the encodings of its elements in order and `e`; a dictionary is `d`, its
entries in ascending key order (the order of the entry list), each as the encoding of the key
followed by the encoding of the value, and `e`. -/
def specEncode : BValue → List Nat
  | .BString s => specDecimalNat s.length ++ [58] ++ s
  | .BInt v => [105] ++ specDecimalInt v ++ [101]
  | .BList l => [108] ++ specEncodeList l ++ [101]
  | .BDict m => [100] ++ specEncodeEntries m ++ [101]
/-- The reference encodings of the elements of a list, in order. -/
def specEncodeList : List BValue → List Nat
  | [] => []
  | v :: vs => specEncode v ++ specEncodeList vs
/-- The reference encodings of the entries of a dictionary, in the order of the entry list. -/
def specEncodeEntries : List (List Nat × BValue) → List Nat
  | [] => []
  | (k, v) :: rest =>
    (specDecimalNat k.length ++ [58] ++ k) ++ specEncode v ++ specEncodeEntries rest
end

mutual
/-- The tree holds no dictionary. -/
def dictFree : BValue → Bool
  | .BString _ => true
  | .BInt _ => true
  | .BList l => dictFreeList l
  | .BDict _ => false
/-- No element of the list holds a dictionary. -/
def dictFreeList : List BValue → Bool
  | [] => true
  | v :: vs => dictFree v && dictFreeList vs
end

/-! ## Example values -/

/-- The dictionary `{"spam": "eggs", "cow": "moo"}`. -/
def cowSpam : BValue :=
  .BDict [(ascii "cow", .BString (ascii "moo")), (ascii "spam", .BString (ascii "eggs"))]

/-- The record type `entity.InfoDict`. -/
def infoDictType : GoType :=
  .struct [
    (⟨ascii "Pieces", ascii "pieces", true⟩, .string),
    (⟨ascii "PieceLength", ascii "piece length", true⟩, .int .int),
    (⟨ascii "Length", ascii "length", true⟩, .int .int),
    (⟨ascii "Name", ascii "name", true⟩, .string)]

/-- An `InfoDict` with pieces `abc`, piece length 16, length 3 and name `f`. -/
def infoDictValue : GoValue :=
  .struct [.string (ascii "abc"), .int 16, .int 3, .string (ascii "f")]

/-- A record with the one field ``Comment string `bencode:"comment,omitempty"` ``, as in
`entity.TorrentFile`. -/
def commentRecord : GoType :=
  .struct [(⟨ascii "Comment", ascii "comment,omitempty", true⟩, .string)]

/-- A record with the one field ``Name string `bencode:"name,omitempty"` ``. -/
def nameRecord : GoType :=
  .struct [(⟨ascii "Name", ascii "name,omitempty", true⟩, .string)]

/-- A record with the fields ``A string `bencode:"a"` `` and ``B string `bencode:"b"` ``. -/
def abRecord : GoType :=
  .struct [(⟨ascii "A", ascii "a", true⟩, .string), (⟨ascii "B", ascii "b", true⟩, .string)]

/-- A record with the one field ``P *string `bencode:"p"` ``. -/
def ptrRecord : GoType :=
  .struct [(⟨ascii "P", ascii "p", true⟩, .ptr .string)]

/-- The record type `Example` of `TestBencode`. -/
def exampleType : GoType :=
  .struct [
    (⟨ascii "Name", ascii "name", true⟩, .string),
    (⟨ascii "Age", ascii "age", true⟩, .int .int),
    (⟨ascii "Tags", ascii "tags", true⟩, .slice .string),
    (⟨ascii "Attrs", ascii "attrs", true⟩, .map .string (.int .int))]

/-- The value `example` of `TestBencode`. -/
def exampleValue : GoValue :=
  .struct [
    .string (ascii "John Doe"),
    .int 30,
    .seq [.string (ascii "developer"), .string (ascii "golang")],
    .map [(ascii "height", .int 180), (ascii "weight", .int 75)]]

/-- A record with the one unexported field `name string`. -/
def unexportedRecord : GoType :=
  .struct [(⟨ascii "name", [], false⟩, .string)]

/-- A record with the fields ``A string `bencode:"k"` `` and ``B string `bencode:"k"` ``. -/
def sameKeyRecord : GoType :=
  .struct [(⟨ascii "A", ascii "k", true⟩, .string), (⟨ascii "B", ascii "k", true⟩, .string)]

/-- The list `[{"cow": "moo", "spam": "eggs"}, {"cow": "moo", "spam": "eggs"}]`. -/
def cowSpamTwice : BValue := .BList [cowSpam, cowSpam]

/-- The ranges of a walk in ascending key order, but for the one at the second element of the
root, which is in descending key order. -/
def secondDescending : RangeOrders :=
  fun p => if p = [.index 1] then List.reverse else id

/-- The type `map[K]int` with `type K string`. -/
def namedKeyMap : GoType := .map .namedString (.int .int)

/-! # Theorems -/

/-- Visiting the keys in descending order is an order the runtime can choose. -/
theorem validOrder_reverse : ValidOrder List.reverse := fun ks _ => List.reverse_perm ks

/-- Visiting the keys in storage order is an order the runtime can choose. -/
theorem validOrder_id : ValidOrder id := fun ks _ => List.Perm.refl ks

/-! ## Lemmas: buffers -/

theorem indexByte_lt (l : List Nat) (c i : Nat) (h : IndexByte l c = some i) :
    i < l.length := by
  induction l generalizing i with
  | nil => simp [IndexByte] at h
  | cons b bs ih =>
    simp only [IndexByte] at h
    split at h
    · simp at h; subst h; simp
    · cases hb : IndexByte bs c with
      | none => simp [hb] at h
      | some j =>
        simp [hb] at h
        subst h
        have := ih j hb
        simp; omega

theorem indexByte_append (l r : List Nat) (c i : Nat) (h : IndexByte l c = some i) :
    IndexByte (l ++ r) c = some i := by
  induction l generalizing i with
  | nil => simp [IndexByte] at h
  | cons b bs ih =>
    show IndexByte (b :: (bs ++ r)) c = some i
    simp only [IndexByte] at h ⊢
    split at h
    · rename_i hb; rw [if_pos hb]; exact h
    · rename_i hb
      rw [if_neg hb]
      cases hq : IndexByte bs c with
      | none => simp [hq] at h
      | some j => rw [ih j hq]; rw [hq] at h; exact h

theorem slice_append (b rest : List Nat) (lo hi : Nat) (h : hi ≤ b.length) :
    slice (b ++ rest) lo hi = slice b lo hi := by
  unfold slice
  by_cases hlo : lo ≤ b.length
  · rw [List.drop_append_of_le_length hlo]
    rw [List.take_append_of_le_length]
    simp; omega
  · have : hi - lo = 0 := by omega
    simp [this]

theorem decodeInt_append (b rest : List Nat) (pos : Nat) (r : BValue × Nat)
    (hpos : pos < b.length) (h : decodeInt b pos = .ok r) :
    decodeInt (b ++ rest) pos = .ok r := by
  unfold decodeInt at h ⊢
  simp only [] at h ⊢
  cases hi : IndexByte (b.drop (pos + 1)) 101 with
  | none => simp [hi] at h
  | some e =>
    rw [hi] at h
    have hlt := indexByte_lt _ _ _ hi
    simp only [List.length_drop] at hlt
    rw [List.drop_append_of_le_length (by omega), indexByte_append _ _ _ _ hi]
    simp only [] at h ⊢
    rw [slice_append _ _ _ _ (by omega)]
    exact h

theorem decodeString_append (b rest : List Nat) (pos : Nat) (r : BValue × Nat)
    (hpos : pos < b.length) (h : decodeString b pos = .ok r) :
    decodeString (b ++ rest) pos = .ok r := by
  unfold decodeString at h ⊢
  cases hi : IndexByte (b.drop pos) 58 with
  | none => simp [hi] at h
  | some c =>
    rw [hi] at h
    have hlt := indexByte_lt _ _ _ hi
    simp only [List.length_drop] at hlt
    rw [List.drop_append_of_le_length (by omega), indexByte_append _ _ _ _ hi]
    simp only [] at h ⊢
    rw [slice_append _ _ _ _ (by omega)]
    cases hA : Atoi (slice b pos (c + pos)) with
    | error err => simp [hA] at h
    | ok length =>
      rw [hA] at h
      simp only [] at h ⊢
      split at h
      · simp at h
      · rename_i h1
        split at h
        · rename_i h2
          generalize wrap64 (((c + pos : Nat) : Int) + 1 + length) = w at h h1 h2 ⊢
          have h3 : ¬ (w > ((b ++ rest).length : Int)) := by
            rw [List.length_append]; push_cast; omega
          rw [if_neg h3, if_pos h2]
          rw [slice_append]
          · exact h
          · omega
        · simp at h

theorem getD_append_left (b rest : List Nat) (pos : Nat) (h : pos < b.length) :
    (b ++ rest).getD pos 0 = b.getD pos 0 := by
  rw [List.getD_eq_getElem _ _ h, List.getD_eq_getElem _ _ (by simp; omega)]
  exact List.getElem_append_left h

/-- A successful `decode` (and each of its loops) returns the same result with more fuel and
with further bytes appended to the buffer. -/
theorem decode_mono (f : Nat) :
    (∀ stk b pos r, decode stk f b pos = .ok r →
      ∀ k rest, decode stk (f + k) (b ++ rest) pos = .ok r) ∧
    (∀ stk b pos acc r, decodeListLoop stk f b pos acc = .ok r →
      ∀ k rest, decodeListLoop stk (f + k) (b ++ rest) pos acc = .ok r) ∧
    (∀ stk b pos acc r, decodeDictLoop stk f b pos acc = .ok r →
      ∀ k rest, decodeDictLoop stk (f + k) (b ++ rest) pos acc = .ok r) := by
  induction f with
  | zero =>
    refine ⟨?_, ?_, ?_⟩ <;> intros <;> simp_all [decode, decodeListLoop, decodeDictLoop]
  | succ f ih =>
    obtain ⟨ih1, ih2, ih3⟩ := ih
    refine ⟨?_, ?_, ?_⟩
    · intro stk b pos r h k rest
      rw [show f + 1 + k = (f + k) + 1 by omega]
      rw [decode] at h ⊢
      split at h
      · simp at h
      · rename_i hpos
        have hpos' : pos < b.length := by omega
        rw [if_neg (by simp; omega), getD_append_left _ _ _ hpos']
        split at h
        · exact decodeInt_append _ _ _ _ hpos' h
        · exact ih2 _ _ _ _ _ h k rest
        · exact ih3 _ _ _ _ _ h k rest
        · exact decodeString_append _ rest _ _ hpos' h
    · intro stk b pos acc r h k rest
      rw [show f + 1 + k = (f + k) + 1 by omega]
      rw [decodeListLoop.eq_def] at h ⊢
      simp only [] at h ⊢
      split at h
      · rename_i hc
        have hc' : pos < (b ++ rest).length ∧ (b ++ rest).getD pos 0 ≠ 101 := by
          rw [getD_append_left _ _ _ hc.1, List.length_append]; exact ⟨by omega, hc.2⟩
        rw [if_pos hc']
        cases stk with
        | zero => simp at h
        | succ room =>
          simp only [] at h ⊢
          cases hd : decode room f b pos with
          | ok p =>
            obtain ⟨elem, pos'⟩ := p
            rw [hd] at h
            rw [ih1 _ _ _ _ hd k rest]
            exact ih2 _ _ _ _ _ h k rest
          | error e => simp [hd] at h
          | panic => simp [hd] at h
          | outOfFuel => simp [hd] at h
          | stackOverflow => simp [hd] at h
      · rename_i hc
        split at h
        · simp at h
        · rename_i hlt
          have hpos' : pos < b.length := by omega
          have hc' : ¬ (pos < (b ++ rest).length ∧ (b ++ rest).getD pos 0 ≠ 101) := by
            rw [getD_append_left _ _ _ hpos']
            intro hh; exact hc ⟨hpos', hh.2⟩
          rw [if_neg hc', if_neg (by simp; omega)]
          exact h
    · intro stk b pos acc r h k rest
      rw [show f + 1 + k = (f + k) + 1 by omega]
      rw [decodeDictLoop.eq_def] at h ⊢
      simp only [] at h ⊢
      split at h
      · rename_i hc
        have hc' : pos < (b ++ rest).length ∧ (b ++ rest).getD pos 0 ≠ 101 := by
          rw [getD_append_left _ _ _ hc.1, List.length_append]; exact ⟨by omega, hc.2⟩
        rw [if_pos hc']
        cases stk with
        | zero => simp at h
        | succ room =>
          simp only [] at h ⊢
          cases hd : decode room f b pos with
          | ok p =>
            obtain ⟨key, pos'⟩ := p
            rw [hd] at h
            rw [ih1 _ _ _ _ hd k rest]
            cases key with
            | BString ks =>
              simp only [] at h ⊢
              cases hd2 : decode room f b pos' with
              | ok p2 =>
                obtain ⟨value, pos''⟩ := p2
                rw [hd2] at h
                rw [ih1 _ _ _ _ hd2 k rest]
                exact ih3 _ _ _ _ _ h k rest
              | error e => simp [hd2] at h
              | panic => simp [hd2] at h
              | outOfFuel => simp [hd2] at h
              | stackOverflow => simp [hd2] at h
            | BInt _ => simp at h
            | BList _ => simp at h
            | BDict _ => simp at h
          | error e => simp [hd] at h
          | panic => simp [hd] at h
          | outOfFuel => simp [hd] at h
          | stackOverflow => simp [hd] at h
      · rename_i hc
        split at h
        · simp at h
        · rename_i hlt
          have hpos' : pos < b.length := by omega
          have hc' : ¬ (pos < (b ++ rest).length ∧ (b ++ rest).getD pos 0 ≠ 101) := by
            rw [getD_append_left _ _ _ hpos']
            intro hh; exact hc ⟨hpos', hh.2⟩
          rw [if_neg hc', if_neg (by simp; omega)]
          exact h


/-! ## Lemmas: decimal numbers -/

/-! decimal digits -/

theorem natDigits_digits (fuel n : Nat) : ∀ c ∈ natDigits fuel n, 48 ≤ c ∧ c ≤ 57 := by
  induction fuel generalizing n with
  | zero => intro c hc; simp [natDigits] at hc
  | succ f ih =>
    intro c hc
    rw [natDigits] at hc
    split at hc
    · simp at hc; omega
    · rw [List.mem_append] at hc
      rcases hc with hc | hc
      · exact ih _ c hc
      · simp at hc; omega

theorem natDigits_ne_nil (fuel n : Nat) : natDigits (fuel + 1) n ≠ [] := by
  rw [natDigits]
  split
  · simp
  · simp

theorem decimalNat_ne_nil (n : Nat) : decimalNat n ≠ [] := natDigits_ne_nil n n

theorem decimalNat_digits (n : Nat) : ∀ c ∈ decimalNat n, 48 ≤ c ∧ c ≤ 57 :=
  natDigits_digits (n + 1) n

theorem parseUintLoop_append (l r : List Nat) (a : Nat) :
    parseUintLoop (l ++ r) a =
      match parseUintLoop l a with
      | .ok m => parseUintLoop r m
      | .error e => .error e := by
  induction l generalizing a with
  | nil => simp [parseUintLoop]
  | cons c cs ih =>
    show parseUintLoop (c :: (cs ++ r)) a = _
    rw [parseUintLoop, parseUintLoop]
    split
    · simp only []
      split
      · rfl
      · split
        · rfl
        · exact ih _
    · rfl

/-- The digit loop of `ParseUint` reads back the digits of every `n < 2^64`. -/
theorem parseUintLoop_natDigits (fuel n : Nat) (hf : n < fuel) (hn : n < 2 ^ 64) :
    parseUintLoop (natDigits fuel n) 0 = .ok n := by
  induction fuel generalizing n with
  | zero => omega
  | succ f ih =>
    rw [natDigits]
    split
    · rename_i h10
      rw [parseUintLoop]
      have h1 : 48 ≤ 48 + n ∧ 48 + n ≤ 57 := by omega
      rw [if_pos h1]
      simp only []
      have h2 : ¬ (0 ≥ (2 ^ 64 - 1) / 10 + 1) := by norm_num
      rw [if_neg h2]
      have h3 : (0 * 10 + (48 + n - 48)) % 2 ^ 64 = n := by
        rw [Nat.mod_eq_of_lt] <;> omega
      rw [h3, if_neg (by omega)]
      rfl
    · rename_i h10
      rw [parseUintLoop_append, ih (n / 10) (by omega) (by omega)]
      simp only []
      rw [parseUintLoop]
      have h1 : 48 ≤ 48 + n % 10 ∧ 48 + n % 10 ≤ 57 := by omega
      rw [if_pos h1]
      simp only []
      have h2 : ¬ (n / 10 ≥ (2 ^ 64 - 1) / 10 + 1) := by
        norm_num; omega
      rw [if_neg h2]
      have h3 : (n / 10 * 10 + (48 + n % 10 - 48)) % 2 ^ 64 = n := by
        rw [Nat.mod_eq_of_lt] <;> omega
      rw [h3, if_neg (by omega)]
      rfl

theorem parseUint_decimalNat (n : Nat) (hn : n < 2 ^ 64) : ParseUint (decimalNat n) = .ok n := by
  unfold ParseUint
  rw [if_neg (decimalNat_ne_nil n)]
  exact parseUintLoop_natDigits (n + 1) n (by omega) hn

theorem decimalNat_cons (n : Nat) : ∃ c tl, decimalNat n = c :: tl ∧ 48 ≤ c ∧ c ≤ 57 := by
  have h := decimalNat_ne_nil n
  have hd := decimalNat_digits n
  cases hl : decimalNat n with
  | nil => exact absurd hl h
  | cons c tl => exact ⟨c, tl, rfl, hd c (by rw [hl]; simp)⟩

theorem parseInt_decimalNat (n : Nat) (hn : n < 2 ^ 63) :
    ParseInt (decimalNat n) = .ok (n : Int) := by
  obtain ⟨c, tl, hl, hc1, hc2⟩ := decimalNat_cons n
  have hp := parseUint_decimalNat n (by omega)
  rw [hl] at hp ⊢
  unfold ParseInt
  simp only []
  have h43 : c ≠ 43 := by omega
  have h45 : c ≠ 45 := by omega
  rw [if_neg h43, if_neg h45, hp]
  simp only [h45, decide_False]
  rw [if_neg (by omega), if_neg (by simp)]
  simp

/-- The function `ParseInt` reads back what `%d` prints, for every 64-bit integer. -/
theorem parseInt_decimalInt (v : Int) (h1 : -(2 : Int) ^ 63 ≤ v) (h2 : v < (2 : Int) ^ 63) :
    ParseInt (decimalInt v) = .ok v := by
  unfold decimalInt
  split
  · rename_i hneg
    have hp := parseUint_decimalNat v.natAbs (by omega)
    unfold ParseInt
    simp only [if_true, if_false, if_neg (show (45 : Nat) ≠ 43 by decide), hp, decide_True]
    rw [if_neg (by simp), if_neg (by simp; omega)]
    congr 1
    omega
  · rename_i hneg
    have := parseInt_decimalNat v.natAbs (by omega)
    rw [this]
    congr 1
    omega

theorem atoi_decimalNat (n : Nat) (hn : n < 2 ^ 63) : Atoi (decimalNat n) = .ok (n : Int) :=
  parseInt_decimalNat n hn

theorem indexByte_skip (l rest : List Nat) (c : Nat) (h : ∀ x ∈ l, x ≠ c) :
    IndexByte (l ++ c :: rest) c = some l.length := by
  induction l with
  | nil => simp [IndexByte]
  | cons b bs ih =>
    show IndexByte (b :: (bs ++ c :: rest)) c = _
    rw [IndexByte, if_neg (h b (by simp)), ih (fun x hx => h x (by simp [hx]))]
    simp

theorem decimalInt_no_e (v : Int) : ∀ x ∈ decimalInt v, x ≠ 101 := by
  intro x hx
  unfold decimalInt at hx
  split at hx
  · simp at hx
    rcases hx with hx | hx
    · omega
    · have := decimalNat_digits _ x hx; omega
  · have := decimalNat_digits _ x hx; omega

theorem decimalNat_no_colon (n : Nat) : ∀ x ∈ decimalNat n, x ≠ 58 := by
  intro x hx
  have := decimalNat_digits _ x hx; omega


theorem parseInt_bad_first (c : Nat) (r : List Nat) (h43 : c ≠ 43) (h45 : c ≠ 45)
    (hd : ¬ (48 ≤ c ∧ c ≤ 57)) : ParseInt (c :: r) = .error .syntaxErr := by
  simp [ParseInt, ParseUint, parseUintLoop, h43, h45, hd]

/-! ## Lemmas: maps -/

/-! order on keys -/

theorem bytesLt_irrefl (a : List Nat) : bytesLt a a = false := by
  induction a with
  | nil => rfl
  | cons x xs ih => simp [bytesLt, ih]

theorem bytesLt_trans (a b c : List Nat) (h1 : bytesLt a b = true) (h2 : bytesLt b c = true) :
    bytesLt a c = true := by
  induction a generalizing b c with
  | nil =>
    cases b with
    | nil => simp [bytesLt] at h1
    | cons y ys =>
      cases c with
      | nil => simp [bytesLt] at h2
      | cons z zs => rfl
  | cons x xs ih =>
    cases b with
    | nil => simp [bytesLt] at h1
    | cons y ys =>
      cases c with
      | nil => simp [bytesLt] at h2
      | cons z zs =>
        simp only [bytesLt, Bool.or_eq_true, Bool.and_eq_true, decide_eq_true_eq] at h1 h2 ⊢
        rcases h1 with h1 | ⟨h1, h1'⟩
        · rcases h2 with h2 | ⟨h2, h2'⟩
          · left; omega
          · left; omega
        · rcases h2 with h2 | ⟨h2, h2'⟩
          · left; omega
          · right; exact ⟨by omega, ih _ _ h1' h2'⟩

theorem bytesLt_asymm (a b : List Nat) (h1 : bytesLt a b = true) : bytesLt b a = false := by
  cases h : bytesLt b a with
  | false => rfl
  | true =>
    have := bytesLt_trans _ _ _ h1 h
    rw [bytesLt_irrefl] at this
    exact absurd this (by simp)

theorem bytesLt_total (a b : List Nat) : a = b ∨ bytesLt a b = true ∨ bytesLt b a = true := by
  induction a generalizing b with
  | nil =>
    cases b with
    | nil => left; rfl
    | cons y ys => right; left; rfl
  | cons x xs ih =>
    cases b with
    | nil => right; right; rfl
    | cons y ys =>
      simp only [bytesLt, Bool.or_eq_true, Bool.and_eq_true, decide_eq_true_eq, List.cons.injEq]
      rcases Nat.lt_trichotomy x y with h | h | h
      · right; left; left; exact h
      · rcases ih ys with h' | h' | h'
        · left; exact ⟨h, h'⟩
        · right; left; right; exact ⟨h, h'⟩
        · right; right; right; exact ⟨h.symm, h'⟩
      · right; right; left; exact h

/-! sorted entry lists -/

/-- The check `mapSorted` says that the keys are pairwise ascending. -/
theorem mapSorted_iff {α : Type} (m : List (List Nat × α)) :
    mapSorted m = true ↔ m.Pairwise (fun a b => bytesLt a.1 b.1 = true) := by
  induction m with
  | nil => simp [mapSorted]
  | cons a rest ih =>
    cases rest with
    | nil => simp [mapSorted]
    | cons b rest' =>
      obtain ⟨k, v⟩ := a
      obtain ⟨k', v'⟩ := b
      rw [mapSorted, Bool.and_eq_true, ih]
      constructor
      · rintro ⟨h1, h2⟩
        rw [List.pairwise_cons]
        refine ⟨?_, h2⟩
        intro x hx
        rcases List.mem_cons.mp hx with hx | hx
        · rw [hx]; exact h1
        · exact bytesLt_trans _ _ _ h1 ((List.pairwise_cons.mp h2).1 x hx)
      · intro h
        rw [List.pairwise_cons] at h
        exact ⟨h.1 _ (List.mem_cons_self _ _), h.2⟩

theorem sorted_keys_nodup {α : Type} (m : List (List Nat × α))
    (h : m.Pairwise (fun a b => bytesLt a.1 b.1 = true)) : (mapKeys m).Nodup := by
  unfold mapKeys
  unfold List.Nodup
  rw [List.pairwise_map]
  refine h.imp ?_
  intro a b hab heq
  rw [heq, bytesLt_irrefl] at hab
  exact Bool.noConfusion hab

theorem mapInsert_perm {α : Type} (k : List Nat) (v : α) (m : List (List Nat × α))
    (hk : k ∉ mapKeys m) : (mapInsert k v m).Perm ((k, v) :: m) := by
  induction m with
  | nil => simp [mapInsert]
  | cons a rest ih =>
    obtain ⟨k', v'⟩ := a
    simp only [mapKeys, List.map_cons, List.mem_cons, not_or] at hk
    rw [mapInsert, if_neg hk.1]
    split
    · exact List.Perm.refl _
    · exact ((ih hk.2).cons (k', v')).trans (List.Perm.swap _ _ _)

theorem mapInsert_keys_mem {α : Type} (k : List Nat) (v : α) (m : List (List Nat × α))
    (x : List Nat × α) (hx : x ∈ mapInsert k v m) : x = (k, v) ∨ x ∈ m := by
  induction m with
  | nil => simp [mapInsert] at hx; left; exact hx
  | cons a rest ih =>
    obtain ⟨k', v'⟩ := a
    rw [mapInsert] at hx
    split at hx
    · rcases List.mem_cons.mp hx with h | h
      · left; exact h
      · right; exact List.mem_cons_of_mem _ h
    · split at hx
      · rcases List.mem_cons.mp hx with h | h
        · left; exact h
        · right; exact h
      · rcases List.mem_cons.mp hx with h | h
        · right; rw [h]; exact List.mem_cons_self _ _
        · rcases ih h with h' | h'
          · left; exact h'
          · right; exact List.mem_cons_of_mem _ h'

/-- The assignment `m[k] = v` keeps the entry list sorted. -/
theorem mapInsert_sorted {α : Type} (k : List Nat) (v : α) (m : List (List Nat × α))
    (h : m.Pairwise (fun a b => bytesLt a.1 b.1 = true)) :
    (mapInsert k v m).Pairwise (fun a b => bytesLt a.1 b.1 = true) := by
  induction m with
  | nil => simp [mapInsert]
  | cons a rest ih =>
    obtain ⟨k', v'⟩ := a
    rw [List.pairwise_cons] at h
    rw [mapInsert]
    split
    · rename_i heq
      rw [List.pairwise_cons]
      refine ⟨?_, h.2⟩
      intro x hx
      rw [heq]
      exact h.1 x hx
    · rename_i hne
      split
      · rename_i hlt
        rw [List.pairwise_cons, List.pairwise_cons]
        refine ⟨?_, h.1, h.2⟩
        intro x hx
        rcases List.mem_cons.mp hx with hx | hx
        · rw [hx]; exact hlt
        · exact bytesLt_trans _ _ _ hlt (h.1 x hx)
      · rename_i hnlt
        rw [List.pairwise_cons]
        refine ⟨?_, ih h.2⟩
        intro x hx
        rcases mapInsert_keys_mem _ _ _ _ hx with hx | hx
        · rw [hx]
          rcases bytesLt_total k k' with h1 | h1 | h1
          · exact absurd h1 hne
          · exact absurd h1 hnlt
          · exact h1
        · exact h.1 x hx

theorem sorted_perm_eq {α : Type} (a b : List (List Nat × α))
    (ha : a.Pairwise (fun x y => bytesLt x.1 y.1 = true))
    (hb : b.Pairwise (fun x y => bytesLt x.1 y.1 = true)) (hp : a.Perm b) : a = b := by
  have inst : IsAntisymm (List Nat × α) (fun x y => bytesLt x.1 y.1 = true) :=
    ⟨fun x y h1 h2 => by rw [bytesLt_asymm _ _ h1] at h2; exact Bool.noConfusion h2⟩
  exact List.eq_of_perm_of_sorted hp ha hb

/-- Assigning the entries of a map one after the other, in any order, to a map with other keys. -/
theorem foldl_insert_perm {α : Type} (es acc : List (List Nat × α))
    (hacc : acc.Pairwise (fun x y => bytesLt x.1 y.1 = true))
    (hnd : (mapKeys (es ++ acc)).Nodup) :
    (es.foldl (fun d kv => mapInsert kv.1 kv.2 d) acc).Pairwise
        (fun x y => bytesLt x.1 y.1 = true) ∧
    (es.foldl (fun d kv => mapInsert kv.1 kv.2 d) acc).Perm (es ++ acc) := by
  induction es generalizing acc with
  | nil => exact ⟨hacc, List.Perm.refl _⟩
  | cons e rest ih =>
    obtain ⟨k, v⟩ := e
    simp only [mapKeys, List.cons_append, List.map_cons, List.nodup_cons, List.map_append,
      List.mem_append, not_or] at hnd
    have hk : k ∉ mapKeys acc := hnd.1.2
    have hperm := mapInsert_perm k v acc hk
    have hnd' : (mapKeys (rest ++ mapInsert k v acc)).Nodup := by
      have h1 : (mapKeys (rest ++ mapInsert k v acc)).Perm (mapKeys (rest ++ (k, v) :: acc)) :=
        (List.Perm.append_left rest hperm).map _
      rw [h1.nodup_iff]
      simp only [mapKeys, List.map_append, List.map_cons]
      have h2 : (List.map Prod.fst rest ++ k :: List.map Prod.fst acc).Perm
          (k :: (List.map Prod.fst rest ++ List.map Prod.fst acc)) := List.perm_middle
      rw [h2.nodup_iff, List.nodup_cons]
      exact ⟨by simp [List.mem_append, hnd.1.1, hnd.1.2], hnd.2⟩
    obtain ⟨h1, h2⟩ := ih (mapInsert k v acc) (mapInsert_sorted k v acc hacc) hnd'
    refine ⟨h1, h2.trans ?_⟩
    exact (List.Perm.append_left rest hperm).trans List.perm_middle

/-- Assigning the entries of a map to an empty map, in any order, gives the map back. -/
theorem foldl_insert_of_perm {α : Type} (es m : List (List Nat × α))
    (hm : mapSorted m = true) (hp : es.Perm m) :
    es.foldl (fun d kv => mapInsert kv.1 kv.2 d) [] = m := by
  rw [mapSorted_iff] at hm
  have hnd : (mapKeys (es ++ [])).Nodup := by
    rw [List.append_nil]
    have : (mapKeys es).Perm (mapKeys m) := hp.map _
    rw [this.nodup_iff]
    exact sorted_keys_nodup m hm
  obtain ⟨h1, h2⟩ := foldl_insert_perm es [] List.Pairwise.nil hnd
  rw [List.append_nil] at h2
  exact sorted_perm_eq _ _ h1 hm (h2.trans hp)

/-! range over a map -/

theorem mapLookup_mapVals {α β : Type} (f : List Nat → α → β) (k : List Nat)
    (m : List (List Nat × α)) :
    mapLookup k (m.map (fun kv => (kv.1, f kv.1 kv.2))) = (mapLookup k m).map (f k) := by
  induction m with
  | nil => rfl
  | cons a rest ih =>
    obtain ⟨k', v'⟩ := a
    simp only [List.map_cons, mapLookup]
    split
    · rename_i h; rw [h]; rfl
    · exact ih

theorem rangeOver_mapVals {α β : Type} (ord : RangeOrder) (f : List Nat → α → β)
    (m : List (List Nat × α)) :
    rangeOver ord (m.map (fun kv => (kv.1, f kv.1 kv.2)))
      = (rangeOver ord m).map (fun kv => (kv.1, f kv.1 kv.2)) := by
  unfold rangeOver
  have hk : mapKeys (m.map (fun kv => (kv.1, f kv.1 kv.2))) = mapKeys m := by
    simp [mapKeys, Function.comp_def]
  rw [hk, List.map_filterMap]
  congr 1
  funext k
  rw [mapLookup_mapVals]
  cases mapLookup k m <;> rfl

theorem filterMap_lookup_self {α : Type} (m : List (List Nat × α)) (h : (mapKeys m).Nodup) :
    (mapKeys m).filterMap (fun k => (mapLookup k m).map (fun v => (k, v))) = m := by
  induction m with
  | nil => rfl
  | cons a rest ih =>
    obtain ⟨k', v'⟩ := a
    simp only [mapKeys, List.map_cons, List.nodup_cons] at h
    simp only [mapKeys, List.map_cons, List.filterMap_cons, mapLookup, if_true, Option.map_some']
    congr 1
    refine Eq.trans ?_ (ih h.2)
    simp only [mapKeys]
    apply List.filterMap_congr
    intro k hk
    have hne : k ≠ k' := by
      intro heq; rw [heq] at hk; exact h.1 hk
    rw [if_neg hne]

/-- A `range` over a map visits every entry exactly once. -/
theorem rangeOver_perm {α : Type} (ord : RangeOrder) (hord : ValidOrder ord)
    (m : List (List Nat × α)) (hm : mapSorted m = true) : (rangeOver ord m).Perm m := by
  rw [mapSorted_iff] at hm
  have hnd := sorted_keys_nodup m hm
  have h1 := (hord (mapKeys m) hnd).filterMap (fun k => (mapLookup k m).map (fun v => (k, v)))
  rw [filterMap_lookup_self m hnd] at h1
  exact h1


/-! ## Lemmas: induction on value trees -/

/-- Induction on value trees. -/
theorem bvalue_induction {P : BValue → Prop}
    (hs : ∀ s, P (.BString s)) (hi : ∀ v, P (.BInt v))
    (hl : ∀ l, (∀ x ∈ l, P x) → P (.BList l))
    (hd : ∀ m, (∀ kv ∈ m, P kv.2) → P (.BDict m)) : ∀ t, P t := by
  intro t
  refine BValue.rec (motive_1 := P) (motive_2 := fun l => ∀ x ∈ l, P x)
    (motive_3 := fun m => ∀ kv ∈ m, P kv.2) (motive_4 := fun kv => P kv.2)
    hs hi hl hd ?_ ?_ ?_ ?_ ?_ t
  · intro x hx; cases hx
  · intro head tail h1 h2 x hx
    rcases List.mem_cons.mp hx with h | h
    · rw [h]; exact h1
    · exact h2 x h
  · intro x hx; cases hx
  · intro head tail h1 h2 x hx
    rcases List.mem_cons.mp hx with h | h
    · rw [h]; exact h1
    · exact h2 x h
  · intro k v h; exact h

/-! ## Lemmas: decoding an encoding -/

theorem wrap64_id (x : Int) (h1 : -(2 : Int) ^ 63 ≤ x) (h2 : x < (2 : Int) ^ 63) :
    wrap64 x = x := by
  unfold wrap64
  omega

theorem getD_of_drop (data : List Nat) (pos c : Nat) (tl : List Nat)
    (h : data.drop pos = c :: tl) : pos < data.length ∧ data.getD pos 0 = c := by
  have hlen : (data.drop pos).length = (c :: tl).length := by rw [h]
  rw [List.length_drop, List.length_cons] at hlen
  have hpos : pos < data.length := by omega
  refine ⟨hpos, ?_⟩
  rw [List.getD_eq_getElem _ _ hpos]
  have := List.drop_eq_getElem_cons hpos
  rw [h] at this
  exact (List.cons.inj this).1.symm

theorem length_of_drop (data : List Nat) (pos : Nat) (l : List Nat) (hne : l ≠ [])
    (h : data.drop pos = l) : data.length = pos + l.length := by
  have hlen : (data.drop pos).length = l.length := by rw [h]
  rw [List.length_drop] at hlen
  have : l.length ≠ 0 := by
    intro h0; exact hne (List.length_eq_zero.mp h0)
  omega

theorem drop_add_of_drop (data : List Nat) (pos : Nat) (a b : List Nat)
    (h : data.drop pos = a ++ b) : data.drop (pos + a.length) = b := by
  rw [← List.drop_drop, h, List.drop_left]

theorem decode_int_case (stk f : Nat) (data : List Nat) (pos : Nat) (hpos : pos < data.length)
    (hc : data.getD pos 0 = 105) : decode stk (f + 1) data pos = decodeInt data pos := by
  rw [decode, if_neg (by omega), hc]

theorem decode_list_case (stk f : Nat) (data : List Nat) (pos : Nat) (hpos : pos < data.length)
    (hc : data.getD pos 0 = 108) :
    decode stk (f + 1) data pos = decodeListLoop stk f data (pos + 1) [] := by
  rw [decode, if_neg (by omega), hc]

theorem decode_dict_case (stk f : Nat) (data : List Nat) (pos : Nat) (hpos : pos < data.length)
    (hc : data.getD pos 0 = 100) :
    decode stk (f + 1) data pos = decodeDictLoop stk f data (pos + 1) [] := by
  rw [decode, if_neg (by omega), hc]

theorem decode_default_case (stk f : Nat) (data : List Nat) (pos : Nat)
    (hpos : pos < data.length)
    (h1 : data.getD pos 0 ≠ 105) (h2 : data.getD pos 0 ≠ 108) (h3 : data.getD pos 0 ≠ 100) :
    decode stk (f + 1) data pos = decodeString data pos := by
  rw [decode, if_neg (by omega)]
  split <;> first | rfl | contradiction

/-- The loops of `decode` at the end of the buffer or at an `e`. -/
theorem decodeListLoop_stop (stk f : Nat) (data : List Nat) (pos : Nat) (list : List BValue)
    (hc : ¬ (pos < data.length ∧ data.getD pos 0 ≠ 101)) :
    decodeListLoop stk (f + 1) data pos list
      = if pos ≥ data.length then .error .listNotTerminated
        else .ok (.BList list, pos + 1) := by
  rw [decodeListLoop.eq_def]
  simp only []
  rw [if_neg hc]

theorem decodeDictLoop_stop (stk f : Nat) (data : List Nat) (pos : Nat)
    (dict : List (List Nat × BValue))
    (hc : ¬ (pos < data.length ∧ data.getD pos 0 ≠ 101)) :
    decodeDictLoop stk (f + 1) data pos dict
      = if pos ≥ data.length then .error .dictNotTerminated
        else .ok (.BDict dict, pos + 1) := by
  rw [decodeDictLoop.eq_def]
  simp only []
  rw [if_neg hc]

/-- A loop of `decode` that has to read one more value and has no room on the stack for the
call. -/
theorem decodeListLoop_overflow (f : Nat) (data : List Nat) (pos : Nat) (list : List BValue)
    (hc : pos < data.length ∧ data.getD pos 0 ≠ 101) :
    decodeListLoop 0 (f + 1) data pos list = .stackOverflow := by
  rw [decodeListLoop.eq_def]
  simp only []
  rw [if_pos hc]

theorem decodeDictLoop_overflow (f : Nat) (data : List Nat) (pos : Nat)
    (dict : List (List Nat × BValue))
    (hc : pos < data.length ∧ data.getD pos 0 ≠ 101) :
    decodeDictLoop 0 (f + 1) data pos dict = .stackOverflow := by
  rw [decodeDictLoop.eq_def]
  simp only []
  rw [if_pos hc]

/-- One iteration of the loop of the `'l'` case whose element is read. -/
theorem decodeListLoop_step (room f : Nat) (data : List Nat) (pos : Nat) (list : List BValue)
    (elem : BValue) (pos' : Nat)
    (hc : pos < data.length ∧ data.getD pos 0 ≠ 101)
    (hd : decode room f data pos = .ok (elem, pos')) :
    decodeListLoop (room + 1) (f + 1) data pos list
      = decodeListLoop (room + 1) f data pos' (list ++ [elem]) := by
  rw [decodeListLoop.eq_def]
  simp only []
  rw [if_pos hc, hd]

/-- One iteration of the loop of the `'l'` case whose element is not read. -/
theorem decodeListLoop_fail (room f : Nat) (data : List Nat) (pos : Nat) (list : List BValue)
    (hc : pos < data.length ∧ data.getD pos 0 ≠ 101)
    (hd : ∀ p, decode room f data pos ≠ .ok p) :
    decodeListLoop (room + 1) (f + 1) data pos list = decode room f data pos := by
  rw [decodeListLoop.eq_def]
  simp only []
  rw [if_pos hc]
  cases hr : decode room f data pos with
  | ok p => exact absurd hr (hd p)
  | error e => rfl
  | panic => rfl
  | outOfFuel => rfl
  | stackOverflow => rfl

/-- One iteration of the loop of the `'d'` case whose key and value are read. -/
theorem decodeDictLoop_step (room f : Nat) (data : List Nat) (pos : Nat)
    (dict : List (List Nat × BValue)) (keyStr : List Nat) (value : BValue) (pos' pos'' : Nat)
    (hc : pos < data.length ∧ data.getD pos 0 ≠ 101)
    (hk : decode room f data pos = .ok (.BString keyStr, pos'))
    (hv : decode room f data pos' = .ok (value, pos'')) :
    decodeDictLoop (room + 1) (f + 1) data pos dict
      = decodeDictLoop (room + 1) f data pos'' (mapInsert keyStr value dict) := by
  rw [decodeDictLoop.eq_def]
  simp only []
  rw [if_pos hc, hk]
  simp only []
  rw [hv]

/-- One iteration of the loop of the `'d'` case whose key is read and is not a byte string. -/
theorem decodeDictLoop_bad (room f : Nat) (data : List Nat) (pos : Nat)
    (dict : List (List Nat × BValue)) (key : BValue) (pos' : Nat)
    (hc : pos < data.length ∧ data.getD pos 0 ≠ 101)
    (hk : decode room f data pos = .ok (key, pos')) (hns : ∀ s, key ≠ .BString s) :
    decodeDictLoop (room + 1) (f + 1) data pos dict = .error .invalidDictionaryKey := by
  rw [decodeDictLoop.eq_def]
  simp only []
  rw [if_pos hc, hk]
  cases key with
  | BString s => exact absurd rfl (hns s)
  | BInt _ => rfl
  | BList _ => rfl
  | BDict _ => rfl

/-- One iteration of the loop of the `'d'` case whose key is not read. -/
theorem decodeDictLoop_key_fail (room f : Nat) (data : List Nat) (pos : Nat)
    (dict : List (List Nat × BValue))
    (hc : pos < data.length ∧ data.getD pos 0 ≠ 101)
    (hd : ∀ p, decode room f data pos ≠ .ok p) :
    decodeDictLoop (room + 1) (f + 1) data pos dict = decode room f data pos := by
  rw [decodeDictLoop.eq_def]
  simp only []
  rw [if_pos hc]
  cases hr : decode room f data pos with
  | ok p => exact absurd hr (hd p)
  | error e => rfl
  | panic => rfl
  | outOfFuel => rfl
  | stackOverflow => rfl

/-- One iteration of the loop of the `'d'` case whose key is read and whose value is not. -/
theorem decodeDictLoop_value_fail (room f : Nat) (data : List Nat) (pos : Nat)
    (dict : List (List Nat × BValue)) (keyStr : List Nat) (pos' : Nat)
    (hc : pos < data.length ∧ data.getD pos 0 ≠ 101)
    (hk : decode room f data pos = .ok (.BString keyStr, pos'))
    (hd : ∀ p, decode room f data pos' ≠ .ok p) :
    decodeDictLoop (room + 1) (f + 1) data pos dict = decode room f data pos' := by
  rw [decodeDictLoop.eq_def]
  simp only []
  rw [if_pos hc, hk]
  simp only []
  cases hr : decode room f data pos' with
  | ok p => exact absurd hr (hd p)
  | error e => rfl
  | panic => rfl
  | outOfFuel => rfl
  | stackOverflow => rfl

theorem decodeString_aux (data : List Nat) (pos : Nat) (D s rest : List Nat)
    (hA : Atoi D = .ok (s.length : Int)) (hD : ∀ x ∈ D, x ≠ 58)
    (hlen : data.length < 2 ^ 63)
    (hd : data.drop pos = D ++ 58 :: (s ++ rest)) :
    decodeString data pos = .ok (.BString s, pos + (D.length + 1 + s.length)) := by
  have hL := length_of_drop data pos _ (by simp) hd
  simp only [List.length_append, List.length_cons] at hL
  unfold decodeString
  rw [hd, indexByte_skip _ _ _ hD]
  simp only []
  have hs : slice data pos (D.length + pos) = D := by
    unfold slice
    rw [hd, Nat.add_sub_cancel, List.take_left]
  rw [hs, hA]
  simp only []
  have hw : wrap64 (((D.length + pos : Nat) : Int) + 1 + (s.length : Int))
      = ((D.length + pos + 1 + s.length : Nat) : Int) := by
    rw [wrap64_id] <;> push_cast <;> omega
  rw [hw]
  have hc1 : ¬ (((D.length + pos + 1 + s.length : Nat) : Int) > (data.length : Int)) := by
    have : D.length + pos + 1 + s.length ≤ data.length := by omega
    omega
  have hc2 : ((D.length + pos : Nat) : Int) + 1 ≤ ((D.length + pos + 1 + s.length : Nat) : Int) := by
    omega
  simp only [if_neg hc1, if_pos hc2]
  have h1 : (((D.length + pos : Nat) : Int) + 1).toNat = pos + (D.length + 1) := by
    rw [show ((D.length + pos : Nat) : Int) + 1 = ((pos + (D.length + 1) : Nat) : Int) by
      push_cast; ring]
    exact Int.toNat_ofNat _
  have h2 : (((D.length + pos + 1 + s.length : Nat) : Int)).toNat
      = pos + (D.length + 1) + s.length := by
    rw [Int.toNat_ofNat]; ring
  rw [h1, h2]
  have hs2 : slice data (pos + (D.length + 1)) (pos + (D.length + 1) + s.length) = s := by
    unfold slice
    have hd' : data.drop pos = (D ++ [58]) ++ (s ++ rest) := by
      rw [hd]; simp
    have := drop_add_of_drop data pos _ _ hd'
    simp only [List.length_append, List.length_singleton] at this
    rw [this, Nat.add_sub_cancel_left, List.take_left]
  rw [hs2, Nat.add_assoc pos (D.length + 1) s.length]

theorem decodeString_spec (data : List Nat) (pos : Nat) (s rest : List Nat)
    (hlen : data.length < 2 ^ 63)
    (hd : data.drop pos = decimalNat s.length ++ 58 :: (s ++ rest)) :
    decodeString data pos
      = .ok (.BString s, pos + ((decimalNat s.length).length + 1 + s.length)) := by
  have hL := length_of_drop data pos _ (by simp) hd
  simp only [List.length_append, List.length_cons] at hL
  exact decodeString_aux data pos _ s rest (atoi_decimalNat _ (by omega))
    (decimalNat_no_colon _) hlen hd

theorem decodeInt_aux (data : List Nat) (pos : Nat) (D : List Nat) (v : Int) (rest : List Nat)
    (hP : ParseInt D = .ok v) (hD : ∀ x ∈ D, x ≠ 101)
    (hd : data.drop pos = 105 :: (D ++ 101 :: rest)) :
    decodeInt data pos = .ok (.BInt v, pos + (1 + D.length + 1)) := by
  unfold decodeInt
  have hd1 : data.drop (pos + 1) = D ++ 101 :: rest := by
    have := drop_add_of_drop data pos [105] (D ++ 101 :: rest) (by rw [hd]; rfl)
    simpa using this
  simp only []
  rw [hd1, indexByte_skip _ _ _ hD]
  simp only []
  have hs : slice data (pos + 1) (D.length + (pos + 1)) = D := by
    unfold slice
    rw [hd1, Nat.add_sub_cancel, List.take_left]
  rw [hs, hP]
  simp only []
  congr 2
  omega

theorem decodeInt_spec (data : List Nat) (pos : Nat) (v : Int) (rest : List Nat)
    (hv : inInt64 v = true)
    (hd : data.drop pos = 105 :: (decimalInt v ++ 101 :: rest)) :
    decodeInt data pos = .ok (.BInt v, pos + (1 + (decimalInt v).length + 1)) := by
  unfold inInt64 at hv
  simp only [Bool.and_eq_true, decide_eq_true_eq] at hv
  exact decodeInt_aux data pos _ v rest (parseInt_decimalInt v hv.1 hv.2) (decimalInt_no_e v) hd

theorem validOrders_below (o : RangeOrders) (ho : ValidOrders o) (s : Step) :
    ValidOrders (below o s) := fun p => ho (s :: p)

theorem validOrders_everywhere (ord : RangeOrder) (h : ValidOrder ord) :
    ValidOrders (everywhere ord) := fun _ => h

theorem encode_string_eq (o : RangeOrders) (s : List Nat) :
    encode o (.BString s) = decimalNat s.length ++ 58 :: s := by
  rw [encode]; simp

theorem encode_int_eq (o : RangeOrders) (v : Int) :
    encode o (.BInt v) = 105 :: (decimalInt v ++ [101]) := by
  rw [encode]; simp

theorem encode_list_eq (o : RangeOrders) (l : List BValue) :
    encode o (.BList l) = 108 :: (encodeList o 0 l ++ [101]) := by
  rw [encode]; simp

theorem encodeEntries_eq (o : RangeOrders) (m : List (List Nat × BValue)) :
    encodeEntries o m
      = m.map (fun kv => (kv.1,
          (decimalNat kv.1.length ++ [58] ++ kv.1) ++ encode (below o (.key kv.1)) kv.2)) := by
  induction m with
  | nil => rfl
  | cons a rest ih =>
    obtain ⟨k, v⟩ := a
    rw [encodeEntries, ih]; rfl

theorem encodeVisited_of_map (o : RangeOrders) (V : List (List Nat × BValue)) :
    (V.map (fun kv => (kv.1,
        (decimalNat kv.1.length ++ [58] ++ kv.1) ++ encode (below o (.key kv.1)) kv.2))).foldr
      (fun kv acc => kv.2 ++ acc) []
      = encodeVisited (V.map (fun kv => (below o (.key kv.1), kv.1, kv.2))) := by
  induction V with
  | nil => rfl
  | cons a rest ih =>
    obtain ⟨k, v⟩ := a
    simp only [List.map_cons, List.foldr_cons, encodeVisited]
    rw [ih]

/-- The `BDict` case of `encode` writes the entries in the order of its `range`, the value of
each key under the orders below that key. -/
theorem encode_dict_eq (o : RangeOrders) (m : List (List Nat × BValue)) :
    encode o (.BDict m)
      = 100 :: (encodeVisited ((rangeOver (o []) m).map
          (fun kv => (below o (.key kv.1), kv.1, kv.2))) ++ [101]) := by
  rw [encode, encodeEntries_eq,
    rangeOver_mapVals (o [])
      (fun k v => (decimalNat k.length ++ [58] ++ k) ++ encode (below o (.key k)) v),
    encodeVisited_of_map]
  simp

theorem encode_head (o : RangeOrders) (x : BValue) :
    ∃ c tl, encode o x = c :: tl ∧ c ≠ 101 := by
  cases x with
  | BString s =>
    obtain ⟨c, tl, h, h1, h2⟩ := decimalNat_cons s.length
    refine ⟨c, tl ++ 58 :: s, ?_, by omega⟩
    rw [encode_string_eq, h]; rfl
  | BInt v => exact ⟨105, _, encode_int_eq o v, by decide⟩
  | BList l => exact ⟨108, _, encode_list_eq o l, by decide⟩
  | BDict m => exact ⟨100, _, encode_dict_eq o m, by decide⟩

theorem decode_encode_string (o : RangeOrders) (s : List Nat) (stk : Nat) (data : List Nat)
    (pos : Nat) (rest : List Nat) (f : Nat) (hlen : data.length < 2 ^ 63)
    (hd : data.drop pos = encode o (.BString s) ++ rest) (hf : 1 ≤ f) :
    decode stk f data pos = .ok (.BString s, pos + (encode o (.BString s)).length) := by
  rw [encode_string_eq] at hd ⊢
  obtain ⟨c, tl, h, h1, h2⟩ := decimalNat_cons s.length
  have hd' : data.drop pos = decimalNat s.length ++ 58 :: (s ++ rest) := by
    rw [hd]; simp
  have hh : data.drop pos = c :: (tl ++ 58 :: (s ++ rest)) := by
    rw [hd', h]; rfl
  obtain ⟨hpos, hc⟩ := getD_of_drop _ _ _ _ hh
  obtain ⟨f', rfl⟩ : ∃ f', f = f' + 1 := ⟨f - 1, by omega⟩
  rw [decode_default_case stk f' data pos hpos (by omega) (by omega) (by omega)]
  rw [decodeString_spec data pos s rest hlen hd']
  simp
  omega

theorem decode_encode_int (o : RangeOrders) (v : Int) (hv : inInt64 v = true) (stk : Nat)
    (data : List Nat) (pos : Nat)
    (rest : List Nat) (f : Nat)
    (hd : data.drop pos = encode o (.BInt v) ++ rest) (hf : 1 ≤ f) :
    decode stk f data pos = .ok (.BInt v, pos + (encode o (.BInt v)).length) := by
  rw [encode_int_eq] at hd ⊢
  have hd' : data.drop pos = 105 :: (decimalInt v ++ 101 :: rest) := by
    rw [hd]; simp
  obtain ⟨hpos, hc⟩ := getD_of_drop _ _ _ _ hd'
  obtain ⟨f', rfl⟩ : ∃ f', f = f' + 1 := ⟨f - 1, by omega⟩
  rw [decode_int_case stk f' data pos hpos hc, decodeInt_spec data pos v rest hv hd']
  simp
  omega

theorem encode_length_pos (o : RangeOrders) (x : BValue) : 1 ≤ (encode o x).length := by
  obtain ⟨c, tl, h, _⟩ := encode_head o x
  rw [h]; simp

/-- The loop of the `'l'` case reads the encodings of the elements of a list up to the closing
`e`, provided `decode` reads each element with the room the stack has left. -/
theorem decodeListLoop_spec (room : Nat) (l : List BValue)
    (ih : ∀ x ∈ l, ∀ (o : RangeOrders), ValidOrders o →
      ∀ (data : List Nat) (pos : Nat) (rest : List Nat) (f : Nat),
      data.length < 2 ^ 63 → data.drop pos = encode o x ++ rest →
      2 * (encode o x).length + 1 ≤ f →
      decode room f data pos = .ok (x, pos + (encode o x).length)) :
    ∀ (o : RangeOrders) (i : Nat), ValidOrders o →
    ∀ (data : List Nat) (pos : Nat) (acc : List BValue) (rest : List Nat) (f : Nat),
      data.length < 2 ^ 63 → data.drop pos = encodeList o i l ++ 101 :: rest →
      2 * (encodeList o i l).length + 2 ≤ f →
      decodeListLoop (room + 1) f data pos acc
        = .ok (.BList (acc ++ l), pos + (encodeList o i l).length + 1) := by
  induction l with
  | nil =>
    intro o i ho data pos acc rest f hlen hd hf
    obtain ⟨f', rfl⟩ : ∃ f', f = f' + 1 := ⟨f - 1, by omega⟩
    simp only [encodeList, List.nil_append] at hd
    obtain ⟨hpos, hc⟩ := getD_of_drop _ _ _ _ hd
    rw [decodeListLoop_stop _ _ _ _ _ (by rw [hc]; simp), if_neg (by omega)]
    simp [encodeList]
  | cons x xs ihl =>
    intro o i ho data pos acc rest f hlen hd hf
    obtain ⟨f', rfl⟩ : ∃ f', f = f' + 1 := ⟨f - 1, by omega⟩
    simp only [encodeList, List.length_append] at hd hf ⊢
    obtain ⟨c, tl, hh, hne⟩ := encode_head (below o (.index i)) x
    have hpos1 := encode_length_pos (below o (.index i)) x
    have hd1 : data.drop pos
        = encode (below o (.index i)) x ++ (encodeList o (i + 1) xs ++ 101 :: rest) := by
      rw [hd, List.append_assoc]
    have hd2 : data.drop pos = c :: (tl ++ (encodeList o (i + 1) xs ++ 101 :: rest)) := by
      rw [hd1, hh]; rfl
    obtain ⟨hpos, hc⟩ := getD_of_drop _ _ _ _ hd2
    rw [decodeListLoop_step room f' data pos acc x _ ⟨hpos, by rw [hc]; exact hne⟩
      (ih x (List.mem_cons_self _ _) _ (validOrders_below o ho _) data pos _ f' hlen hd1
        (by omega))]
    have hd3 := drop_add_of_drop data pos _ _ hd1
    rw [ihl (fun y hy => ih y (List.mem_cons_of_mem _ hy)) o (i + 1) ho data _ (acc ++ [x]) rest
      f' hlen hd3 (by omega)]
    simp only [List.append_assoc, List.singleton_append]
    rw [show pos + (encode (below o (.index i)) x).length + (encodeList o (i + 1) xs).length + 1
        = pos + ((encode (below o (.index i)) x).length + (encodeList o (i + 1) xs).length) + 1
        by omega]

theorem encodeVisited_cons (o : RangeOrders) (k : List Nat) (v : BValue)
    (es : List (RangeOrders × List Nat × BValue)) :
    encodeVisited ((o, k, v) :: es)
      = encode o (.BString k) ++ (encode o v ++ encodeVisited es) := by
  rw [encode_string_eq]
  simp [encodeVisited]

/-- The loop of the `'d'` case reads the entries written by `encode` up to the closing `e` and
assigns them to the dictionary one after the other, provided `decode` reads each value with
the room the stack has left. -/
theorem decodeDictLoop_spec (room : Nat) (es : List (RangeOrders × List Nat × BValue))
    (ih : ∀ e ∈ es, ∀ (data : List Nat) (pos : Nat) (rest : List Nat) (f : Nat),
      data.length < 2 ^ 63 → data.drop pos = encode e.1 e.2.2 ++ rest →
      2 * (encode e.1 e.2.2).length + 1 ≤ f →
      decode room f data pos = .ok (e.2.2, pos + (encode e.1 e.2.2).length)) :
    ∀ (data : List Nat) (pos : Nat) (acc : List (List Nat × BValue)) (rest : List Nat)
      (f : Nat),
      data.length < 2 ^ 63 → data.drop pos = encodeVisited es ++ 101 :: rest →
      2 * (encodeVisited es).length + 2 ≤ f →
      decodeDictLoop (room + 1) f data pos acc
        = .ok (.BDict (es.foldl (fun d e => mapInsert e.2.1 e.2.2 d) acc),
            pos + (encodeVisited es).length + 1) := by
  induction es with
  | nil =>
    intro data pos acc rest f hlen hd hf
    obtain ⟨f', rfl⟩ : ∃ f', f = f' + 1 := ⟨f - 1, by omega⟩
    simp only [encodeVisited, List.nil_append] at hd
    obtain ⟨hpos, hc⟩ := getD_of_drop _ _ _ _ hd
    rw [decodeDictLoop_stop _ _ _ _ _ (by rw [hc]; simp), if_neg (by omega)]
    simp [encodeVisited]
  | cons e es ihl =>
    obtain ⟨o, k, v⟩ := e
    intro data pos acc rest f hlen hd hf
    obtain ⟨f', rfl⟩ : ∃ f', f = f' + 1 := ⟨f - 1, by omega⟩
    rw [encodeVisited_cons] at hd hf ⊢
    simp only [List.length_append] at hf ⊢
    obtain ⟨c, tl, hh, hne⟩ := encode_head o (.BString k)
    have hpos1 := encode_length_pos o (.BString k)
    have hpos2 := encode_length_pos o v
    have hd1 : data.drop pos
        = encode o (.BString k) ++ (encode o v ++ (encodeVisited es ++ 101 :: rest)) := by
      rw [hd]; simp only [List.append_assoc]
    have hd2 : data.drop pos
        = c :: (tl ++ (encode o v ++ (encodeVisited es ++ 101 :: rest))) := by
      rw [hd1, hh]; rfl
    obtain ⟨hpos, hc⟩ := getD_of_drop _ _ _ _ hd2
    have hd3 := drop_add_of_drop data pos _ _ hd1
    rw [decodeDictLoop_step room f' data pos acc k v _ _ ⟨hpos, by rw [hc]; exact hne⟩
      (decode_encode_string o k room data pos _ f' hlen hd1 (by omega))
      (ih (o, k, v) (List.mem_cons_self _ _) data _ _ f' hlen hd3
        (by show 2 * (encode o v).length + 1 ≤ f'; omega))]
    have hd4 := drop_add_of_drop data _ _ _ hd3
    rw [ihl (fun y hy => ih y (List.mem_cons_of_mem _ hy)) data _ (mapInsert k v acc) rest f'
      hlen hd4 (by omega)]
    simp only [List.foldl_cons]
    rw [show pos + (encode o (BValue.BString k)).length + (encode o v).length
          + (encodeVisited es).length + 1
        = pos + ((encode o (BValue.BString k)).length + ((encode o v).length
          + (encodeVisited es).length)) + 1 by omega]

theorem wfList_mem (l : List BValue) (h : wfList l = true) : ∀ x ∈ l, wfValue x = true := by
  induction l with
  | nil => intro x hx; cases hx
  | cons a rest ih =>
    rw [wfList, Bool.and_eq_true] at h
    intro x hx
    rcases List.mem_cons.mp hx with hx | hx
    · rw [hx]; exact h.1
    · exact ih h.2 x hx

theorem wfEntries_mem (m : List (List Nat × BValue)) (h : wfEntries m = true) :
    ∀ kv ∈ m, wfValue kv.2 = true := by
  induction m with
  | nil => intro x hx; cases hx
  | cons a rest ih =>
    obtain ⟨k, v⟩ := a
    rw [wfEntries, Bool.and_eq_true] at h
    intro x hx
    rcases List.mem_cons.mp hx with hx | hx
    · rw [hx]; exact h.1
    · exact ih h.2 x hx

theorem heightList_mem (l : List BValue) : ∀ x ∈ l, height x + 1 ≤ heightList l := by
  induction l with
  | nil => intro x hx; cases hx
  | cons a rest ih =>
    intro x hx
    rw [heightList]
    rcases List.mem_cons.mp hx with hx | hx
    · rw [hx]; exact Nat.le_max_left _ _
    · exact Nat.le_trans (ih x hx) (Nat.le_max_right _ _)

theorem heightEntries_mem (m : List (List Nat × BValue)) :
    ∀ kv ∈ m, height kv.2 + 1 ≤ heightEntries m := by
  induction m with
  | nil => intro x hx; cases hx
  | cons a rest ih =>
    obtain ⟨k, v⟩ := a
    intro x hx
    rw [heightEntries]
    rcases List.mem_cons.mp hx with hx | hx
    · rw [hx]; exact Nat.le_max_left _ _
    · exact Nat.le_trans (ih x hx) (Nat.le_max_right _ _)

theorem heightList_zero (l : List BValue) (h : heightList l = 0) : l = [] := by
  cases l with
  | nil => rfl
  | cons a rest =>
    rw [heightList] at h
    have := Nat.le_max_left (height a + 1) (heightList rest)
    omega

theorem heightEntries_zero (m : List (List Nat × BValue)) (h : heightEntries m = 0) : m = [] := by
  cases m with
  | nil => rfl
  | cons a rest =>
    obtain ⟨k, v⟩ := a
    rw [heightEntries] at h
    have := Nat.le_max_left (height v + 1) (heightEntries rest)
    omega

/-- Decoding at the place where an encoding starts gives the encoded tree back and leaves the
cursor right after the encoding, when the stack has room for the nested calls the tree
needs. -/
theorem decode_encode (t : BValue) :
    wfValue t = true → ∀ (o : RangeOrders), ValidOrders o →
    ∀ (stk : Nat) (data : List Nat) (pos : Nat) (rest : List Nat) (f : Nat),
      height t ≤ stk →
      data.length < 2 ^ 63 → data.drop pos = encode o t ++ rest →
      2 * (encode o t).length + 1 ≤ f →
      decode stk f data pos = .ok (t, pos + (encode o t).length) := by
  induction t using bvalue_induction with
  | hs s =>
    intro _ o _ stk data pos rest f _ hlen hd hf
    exact decode_encode_string o s stk data pos rest f hlen hd (by omega)
  | hi v =>
    intro hwf o _ stk data pos rest f _ hlen hd hf
    rw [wfValue] at hwf
    exact decode_encode_int o v hwf stk data pos rest f hd (by omega)
  | hl l ih =>
    intro hwf o ho stk data pos rest f hst hlen hd hf
    rw [wfValue] at hwf
    rw [height] at hst
    have hmem := wfList_mem l hwf
    obtain ⟨f', rfl⟩ : ∃ f', f = f' + 1 := ⟨f - 1, by omega⟩
    rw [encode_list_eq] at hd hf ⊢
    have hd1 : data.drop pos = 108 :: (encodeList o 0 l ++ 101 :: rest) := by
      rw [hd]; simp
    obtain ⟨hpos, hc⟩ := getD_of_drop _ _ _ _ hd1
    rw [decode_list_case stk f' data pos hpos hc]
    have hd2 : data.drop (pos + 1) = encodeList o 0 l ++ 101 :: rest := by
      have := drop_add_of_drop data pos [108] _ (by rw [hd1]; rfl)
      simpa using this
    simp only [List.length_cons, List.length_append, List.length_singleton,
      List.length_nil] at hf ⊢
    cases stk with
    | zero =>
      have hnil := heightList_zero l (by omega)
      subst hnil
      simp only [encodeList, List.nil_append] at hd2
      obtain ⟨hpos2, hc2⟩ := getD_of_drop _ _ _ _ hd2
      obtain ⟨f'', rfl⟩ : ∃ f'', f' = f'' + 1 := ⟨f' - 1, by omega⟩
      rw [decodeListLoop_stop _ _ _ _ _ (by rw [hc2]; simp), if_neg (by omega)]
      simp [encodeList]
    | succ room =>
      rw [decodeListLoop_spec room l
        (fun x hx o' ho' data' pos' rest' f'' hlen' hd' hf' =>
          ih x hx (hmem x hx) o' ho' room data' pos' rest' f''
            (by have := heightList_mem l x hx; omega) hlen' hd' hf')
        o 0 ho data (pos + 1) [] rest f' hlen hd2 (by omega)]
      simp only [List.nil_append]
      rw [show pos + 1 + (encodeList o 0 l).length + 1
        = pos + ((encodeList o 0 l).length + (0 + 1) + 1) by omega]
  | hd m ih =>
    intro hwf o ho stk data pos rest f hst hlen hd hf
    rw [wfValue, Bool.and_eq_true] at hwf
    rw [height] at hst
    have hmem := wfEntries_mem m hwf.2
    have hperm := rangeOver_perm (o []) (ho []) m hwf.1
    obtain ⟨f', rfl⟩ : ∃ f', f = f' + 1 := ⟨f - 1, by omega⟩
    rw [encode_dict_eq] at hd hf ⊢
    generalize hV : (rangeOver (o []) m).map (fun kv => (below o (.key kv.1), kv.1, kv.2)) = V
      at hd hf ⊢
    have hd1 : data.drop pos = 100 :: (encodeVisited V ++ 101 :: rest) := by
      rw [hd]; simp
    obtain ⟨hpos, hc⟩ := getD_of_drop _ _ _ _ hd1
    rw [decode_dict_case stk f' data pos hpos hc]
    have hd2 : data.drop (pos + 1) = encodeVisited V ++ 101 :: rest := by
      have := drop_add_of_drop data pos [100] _ (by rw [hd1]; rfl)
      simpa using this
    simp only [List.length_cons, List.length_append, List.length_singleton,
      List.length_nil] at hf ⊢
    cases stk with
    | zero =>
      have hnil := heightEntries_zero m (by omega)
      subst hnil
      have hVnil : V = [] := by
        rw [← hV]
        have := hperm.length_eq
        simp only [List.length_nil] at this
        rw [List.length_eq_zero.mp this]
        rfl
      subst hVnil
      simp only [encodeVisited, List.nil_append] at hd2
      obtain ⟨hpos2, hc2⟩ := getD_of_drop _ _ _ _ hd2
      obtain ⟨f'', rfl⟩ : ∃ f'', f' = f'' + 1 := ⟨f' - 1, by omega⟩
      rw [decodeDictLoop_stop _ _ _ _ _ (by rw [hc2]; simp), if_neg (by omega)]
      simp [encodeVisited]
    | succ room =>
      have hVmem : ∀ e ∈ V, ∃ kv ∈ m, e = (below o (.key kv.1), kv.1, kv.2) := by
        intro e he
        rw [← hV, List.mem_map] at he
        obtain ⟨kv, hkv, rfl⟩ := he
        exact ⟨kv, hperm.mem_iff.mp hkv, rfl⟩
      rw [decodeDictLoop_spec room V
        (fun e he data' pos' rest' f'' hlen' hd' hf' => by
          obtain ⟨kv, hkv, rfl⟩ := hVmem e he
          exact ih kv hkv (hmem kv hkv) _ (validOrders_below o ho _) room data' pos' rest' f''
            (by have := heightEntries_mem m kv hkv; omega) hlen' hd' hf')
        data (pos + 1) [] rest f' hlen hd2 (by omega)]
      have hfold : V.foldl (fun d e => mapInsert e.2.1 e.2.2 d) []
          = (rangeOver (o []) m).foldl (fun d kv => mapInsert kv.1 kv.2 d) [] := by
        rw [← hV, List.foldl_map]
      rw [hfold, foldl_insert_of_perm _ m hwf.1 hperm]
      rw [show pos + 1 + (encodeVisited V).length + 1
        = pos + ((encodeVisited V).length + (0 + 1) + 1) by omega]

/-- The call of `Unmarshal` on an encoding returns the encoded tree. -/
theorem Decode_encode (stk : Nat) (o : RangeOrders) (ho : ValidOrders o) (t : BValue)
    (hwf : wfValue t = true) (hst : height t ≤ stk) (hlen : (encode o t).length < 2 ^ 63) :
    Decode stk (encode o t) = .ok (t, (encode o t).length) := by
  unfold Decode
  have := decode_encode t hwf o ho stk (encode o t) 0 [] (2 * (encode o t).length + 1) hst hlen
    (by simp) (by omega)
  simpa using this

/-! ## Lemmas: integers out of range -/

/-- The digit loop of `ParseUint` reports a range error on the digits of every `n ≥ 2^64`. -/
theorem parseUintLoop_natDigits_range (fuel n : Nat) (hf : n < fuel) (hn : 2 ^ 64 ≤ n) :
    parseUintLoop (natDigits fuel n) 0 = .error .rangeErr := by
  induction fuel generalizing n with
  | zero => omega
  | succ f ih =>
    rw [natDigits, if_neg (by omega), parseUintLoop_append]
    by_cases hbig : 2 ^ 64 ≤ n / 10
    · rw [ih (n / 10) (by omega) hbig]
    · rw [parseUintLoop_natDigits f (n / 10) (by omega) (by omega)]
      simp only []
      rw [parseUintLoop]
      have h1 : 48 ≤ 48 + n % 10 ∧ 48 + n % 10 ≤ 57 := by omega
      rw [if_pos h1]
      simp only []
      by_cases hc : n / 10 ≥ (2 ^ 64 - 1) / 10 + 1
      · rw [if_pos hc]
      · rw [if_neg hc]
        have h3 : (n / 10 * 10 + (48 + n % 10 - 48)) % 2 ^ 64 < n / 10 * 10 := by
          have hcut : (2 ^ 64 - 1) / 10 + 1 = 1844674407370955162 := by norm_num
          rw [hcut] at hc
          have h64 : (2 : Nat) ^ 64 = 18446744073709551616 := by norm_num
          rw [h64] at hn hbig ⊢
          omega
        rw [if_pos (Or.inl h3)]

theorem parseUint_decimalNat_range (n : Nat) (hn : 2 ^ 64 ≤ n) :
    ParseUint (decimalNat n) = .error .rangeErr := by
  unfold ParseUint
  rw [if_neg (decimalNat_ne_nil n)]
  exact parseUintLoop_natDigits_range (n + 1) n (by omega) hn

/-- The function `ParseInt` reports a range error on what `%d` prints for an integer outside
the 64-bit range. -/
theorem parseInt_decimalInt_range (v : Int) (h : inInt64 v = false) :
    ParseInt (decimalInt v) = .error .rangeErr := by
  unfold inInt64 at h
  simp only [Bool.and_eq_false_iff, decide_eq_false_iff_not] at h
  unfold decimalInt
  split
  · rename_i hneg
    have hbig : 2 ^ 63 < v.natAbs := by omega
    unfold ParseInt
    simp only [if_true, if_neg (show (45 : Nat) ≠ 43 by decide), decide_True]
    by_cases h64 : v.natAbs < 2 ^ 64
    · rw [parseUint_decimalNat _ h64]
      simp only []
      rw [if_neg (by simp), if_pos ⟨trivial, hbig⟩]
    · rw [parseUint_decimalNat_range _ (by omega)]
      simp only []
      rw [if_neg (by simp), if_pos ⟨trivial, by norm_num⟩]
  · rename_i hneg
    have hbig : 2 ^ 63 ≤ v.natAbs := by omega
    obtain ⟨c, tl, hl, hc1, hc2⟩ := decimalNat_cons v.natAbs
    have h43 : c ≠ 43 := by omega
    have h45 : c ≠ 45 := by omega
    by_cases h64 : v.natAbs < 2 ^ 64
    · have hp := parseUint_decimalNat _ h64
      rw [hl] at hp ⊢
      unfold ParseInt
      simp only []
      rw [if_neg h43, if_neg h45, hp]
      simp only [h45, decide_False]
      rw [if_pos ⟨trivial, hbig⟩]
    · have hp := parseUint_decimalNat_range v.natAbs (by omega)
      rw [hl] at hp ⊢
      unfold ParseInt
      simp only []
      rw [if_neg h43, if_neg h45, hp]
      simp only [h45, decide_False]
      rw [if_pos ⟨trivial, by norm_num⟩]

theorem decodeInt_aux_error (data : List Nat) (pos : Nat) (D : List Nat) (e : NumError)
    (rest : List Nat) (hP : ParseInt D = .error e) (hD : ∀ x ∈ D, x ≠ 101)
    (hd : data.drop pos = 105 :: (D ++ 101 :: rest)) :
    decodeInt data pos = .error (.num e) := by
  unfold decodeInt
  have hd1 : data.drop (pos + 1) = D ++ 101 :: rest := by
    have := drop_add_of_drop data pos [105] (D ++ 101 :: rest) (by rw [hd]; rfl)
    simpa using this
  simp only []
  rw [hd1, indexByte_skip _ _ _ hD]
  simp only []
  have hs : slice data (pos + 1) (D.length + (pos + 1)) = D := by
    unfold slice
    rw [hd1, Nat.add_sub_cancel, List.take_left]
  rw [hs, hP]


/-! ## Lemmas: the reference serialization -/

theorem drop_nil_length (data : List Nat) (pos : Nat) (h : data.drop pos = []) :
    data.length ≤ pos := by
  have := congrArg List.length h
  rw [List.length_drop, List.length_nil] at this
  omega

/-- The loop of the `'l'` case on the encodings of elements followed by the end of the buffer
returns the error "list not terminated". -/
theorem decodeListLoop_unterminated (l : List BValue) (hwf : ∀ x ∈ l, wfValue x = true) :
    ∀ (stk : Nat) (o : RangeOrders) (i : Nat), ValidOrders o → heightList l ≤ stk →
    ∀ (data : List Nat) (pos : Nat) (acc : List BValue) (f : Nat),
      data.length < 2 ^ 63 → data.drop pos = encodeList o i l →
      2 * (encodeList o i l).length + 2 ≤ f →
      decodeListLoop stk f data pos acc = .error .listNotTerminated := by
  induction l with
  | nil =>
    intro stk o i ho hst data pos acc f hlen hd hf
    obtain ⟨f', rfl⟩ : ∃ f', f = f' + 1 := ⟨f - 1, by omega⟩
    simp only [encodeList] at hd
    have hpos := drop_nil_length data pos hd
    rw [decodeListLoop_stop _ _ _ _ _ (by omega), if_pos (by omega)]
  | cons x xs ihl =>
    intro stk o i ho hst data pos acc f hlen hd hf
    obtain ⟨f', rfl⟩ : ∃ f', f = f' + 1 := ⟨f - 1, by omega⟩
    rw [heightList] at hst
    have hx1 : height x + 1 ≤ stk := Nat.le_trans (Nat.le_max_left _ _) hst
    have hxs : heightList xs ≤ stk := Nat.le_trans (Nat.le_max_right _ _) hst
    obtain ⟨room, rfl⟩ : ∃ room, stk = room + 1 := ⟨stk - 1, by omega⟩
    simp only [encodeList, List.length_append] at hd hf
    obtain ⟨c, tl, hh, hne⟩ := encode_head (below o (.index i)) x
    have hpos1 := encode_length_pos (below o (.index i)) x
    have hd2 : data.drop pos = c :: (tl ++ encodeList o (i + 1) xs) := by
      rw [hd, hh]; rfl
    obtain ⟨hpos, hc⟩ := getD_of_drop _ _ _ _ hd2
    rw [decodeListLoop_step room f' data pos acc x _ ⟨hpos, by rw [hc]; exact hne⟩
      (decode_encode x (hwf x (List.mem_cons_self _ _)) _ (validOrders_below o ho _) room data
        pos _ f' (by omega) hlen hd (by omega))]
    have hd3 := drop_add_of_drop data pos _ _ hd
    exact ihl (fun y hy => hwf y (List.mem_cons_of_mem _ hy)) (room + 1) o (i + 1) ho hxs data _
      (acc ++ [x]) f' hlen hd3 (by omega)

/-- The loop of the `'d'` case on the encodings of entries followed by the end of the buffer
returns the error "dictionary not terminated". -/
theorem decodeDictLoop_unterminated (stk : Nat) (es : List (RangeOrders × List Nat × BValue))
    (hes : ∀ e ∈ es, ValidOrders e.1 ∧ wfValue e.2.2 = true ∧ height e.2.2 < stk) :
    ∀ (data : List Nat) (pos : Nat) (acc : List (List Nat × BValue)) (f : Nat),
      data.length < 2 ^ 63 → data.drop pos = encodeVisited es →
      2 * (encodeVisited es).length + 2 ≤ f →
      decodeDictLoop stk f data pos acc = .error .dictNotTerminated := by
  induction es with
  | nil =>
    intro data pos acc f hlen hd hf
    obtain ⟨f', rfl⟩ : ∃ f', f = f' + 1 := ⟨f - 1, by omega⟩
    simp only [encodeVisited] at hd
    have hpos := drop_nil_length data pos hd
    rw [decodeDictLoop_stop _ _ _ _ _ (by omega), if_pos (by omega)]
  | cons e es ihl =>
    obtain ⟨o, k, v⟩ := e
    intro data pos acc f hlen hd hf
    obtain ⟨f', rfl⟩ : ∃ f', f = f' + 1 := ⟨f - 1, by omega⟩
    obtain ⟨ho, hwfv, hhv⟩ := hes (o, k, v) (List.mem_cons_self _ _)
    simp only [] at ho hwfv hhv
    obtain ⟨room, rfl⟩ : ∃ room, stk = room + 1 := ⟨stk - 1, by omega⟩
    rw [encodeVisited_cons] at hd hf
    simp only [List.length_append] at hf
    obtain ⟨c, tl, hh, hne⟩ := encode_head o (.BString k)
    have hpos1 := encode_length_pos o (.BString k)
    have hpos2 := encode_length_pos o v
    have hd2 : data.drop pos = c :: (tl ++ (encode o v ++ encodeVisited es)) := by
      rw [hd, hh]; rfl
    obtain ⟨hpos, hc⟩ := getD_of_drop _ _ _ _ hd2
    have hd3 := drop_add_of_drop data pos _ _ hd
    rw [decodeDictLoop_step room f' data pos acc k v _ _ ⟨hpos, by rw [hc]; exact hne⟩
      (decode_encode_string o k room data pos _ f' hlen hd (by omega))
      (decode_encode v hwfv o ho room data _ _ f' (by omega) hlen hd3 (by omega))]
    have hd4 := drop_add_of_drop data _ _ _ hd3
    exact ihl (fun y hy => hes y (List.mem_cons_of_mem _ hy)) data _ (mapInsert k v acc) f'
      hlen hd4 (by omega)

/-- The loop of the `'d'` case on the encodings of entries followed by the encoding of a
value that is not a byte string returns the error "invalid dictionary key". -/
theorem decodeDictLoop_bad_key (stk : Nat) (es : List (RangeOrders × List Nat × BValue))
    (hes : ∀ e ∈ es, ValidOrders e.1 ∧ wfValue e.2.2 = true ∧ height e.2.2 < stk)
    (ok : RangeOrders) (hok : ValidOrders ok)
    (k : BValue) (hk : wfValue k = true) (hhk : height k < stk) (hns : ∀ s, k ≠ .BString s) :
    ∀ (data : List Nat) (pos : Nat) (acc : List (List Nat × BValue)) (rest : List Nat)
      (f : Nat),
      data.length < 2 ^ 63 → data.drop pos = encodeVisited es ++ (encode ok k ++ rest) →
      2 * ((encodeVisited es).length + (encode ok k).length) + 2 ≤ f →
      decodeDictLoop stk f data pos acc = .error .invalidDictionaryKey := by
  obtain ⟨room, rfl⟩ : ∃ room, stk = room + 1 := ⟨stk - 1, by omega⟩
  induction es with
  | nil =>
    intro data pos acc rest f hlen hd hf
    obtain ⟨f', rfl⟩ : ∃ f', f = f' + 1 := ⟨f - 1, by omega⟩
    simp only [encodeVisited, List.nil_append, List.length_nil] at hd hf
    obtain ⟨c, tl, hh, hne⟩ := encode_head ok k
    have hd2 : data.drop pos = c :: (tl ++ rest) := by
      rw [hd, hh]; rfl
    obtain ⟨hpos, hc⟩ := getD_of_drop _ _ _ _ hd2
    exact decodeDictLoop_bad room f' data pos acc k _ ⟨hpos, by rw [hc]; exact hne⟩
      (decode_encode k hk ok hok room data pos _ f' (by omega) hlen hd (by omega)) hns
  | cons e es ihl =>
    obtain ⟨o, k0, v⟩ := e
    intro data pos acc rest f hlen hd hf
    obtain ⟨f', rfl⟩ : ∃ f', f = f' + 1 := ⟨f - 1, by omega⟩
    obtain ⟨ho, hwfv, hhv⟩ := hes (o, k0, v) (List.mem_cons_self _ _)
    simp only [] at ho hwfv hhv
    rw [encodeVisited_cons] at hd hf
    simp only [List.length_append] at hf
    simp only [List.append_assoc] at hd
    obtain ⟨c, tl, hh, hne⟩ := encode_head o (.BString k0)
    have hpos1 := encode_length_pos o (.BString k0)
    have hpos2 := encode_length_pos o v
    have hd2 : data.drop pos
        = c :: (tl ++ (encode o v ++ (encodeVisited es ++ (encode ok k ++ rest)))) := by
      rw [hd, hh]; rfl
    obtain ⟨hpos, hc⟩ := getD_of_drop _ _ _ _ hd2
    have hd3 := drop_add_of_drop data pos _ _ hd
    rw [decodeDictLoop_step room f' data pos acc k0 v _ _ ⟨hpos, by rw [hc]; exact hne⟩
      (decode_encode_string o k0 room data pos _ f' hlen hd (by omega))
      (decode_encode v hwfv o ho room data _ _ f' (by omega) hlen hd3 (by omega))]
    have hd4 := drop_add_of_drop data _ _ _ hd3
    exact ihl (fun y hy => hes y (List.mem_cons_of_mem _ hy)) data _ (mapInsert k0 v acc) rest
      f' hlen hd4 (by omega)

/-! ## Lemmas: nesting deeper than the stack -/

/-- The encoding of the empty list inside `n` lists is `n + 1` times `l` and `n + 1` times
`e`. -/
theorem encode_nestedList (n : Nat) : ∀ o : RangeOrders,
    encode o (nestedList n) = List.replicate (n + 1) 108 ++ List.replicate (n + 1) 101 := by
  induction n with
  | zero => intro o; rfl
  | succ n ih =>
    intro o
    rw [nestedList, encode_list_eq, encodeList, encodeList, ih]
    rw [List.replicate_succ (n := n + 1) (a := 108)]
    rw [List.replicate_succ' (n := n + 1) (a := 101)]
    simp

theorem height_nestedList (n : Nat) : height (nestedList n) = n := by
  induction n with
  | zero => rfl
  | succ n ih => rw [nestedList, height, heightList, heightList, ih]; simp

theorem wfValue_nestedList (n : Nat) : wfValue (nestedList n) = true := by
  induction n with
  | zero => rfl
  | succ n ih => rw [nestedList, wfValue, wfList, wfList, ih]; rfl

/-- At `stk + 2` opening `l` in a row `decode` has no room on the stack for the call that
would read the last one: the process ends with a stack overflow, whatever follows. -/
theorem decode_deep_overflow (stk : Nat) :
    ∀ (f : Nat) (data : List Nat) (pos : Nat) (rest : List Nat),
      data.drop pos = List.replicate (stk + 2) 108 ++ rest → 2 * stk + 3 ≤ f →
      decode stk f data pos = .stackOverflow := by
  induction stk with
  | zero =>
    intro f data pos rest hd hf
    obtain ⟨f', rfl⟩ : ∃ f', f = f' + 2 := ⟨f - 2, by omega⟩
    have hd1 : data.drop pos = 108 :: (108 :: rest) := by rw [hd]; rfl
    obtain ⟨hpos, hc⟩ := getD_of_drop _ _ _ _ hd1
    have hd2 : data.drop (pos + 1) = 108 :: rest := by
      have := drop_add_of_drop data pos [108] _ (by rw [hd1]; rfl)
      simpa using this
    obtain ⟨hpos2, hc2⟩ := getD_of_drop _ _ _ _ hd2
    rw [decode_list_case 0 (f' + 1) data pos hpos hc]
    exact decodeListLoop_overflow f' data (pos + 1) [] ⟨hpos2, by rw [hc2]; decide⟩
  | succ s ih =>
    intro f data pos rest hd hf
    obtain ⟨f', rfl⟩ : ∃ f', f = f' + 2 := ⟨f - 2, by omega⟩
    have hd1 : data.drop pos = 108 :: (List.replicate (s + 2) 108 ++ rest) := by
      rw [hd, List.replicate_succ (n := s + 2)]; rfl
    obtain ⟨hpos, hc⟩ := getD_of_drop _ _ _ _ hd1
    have hd2 : data.drop (pos + 1) = List.replicate (s + 2) 108 ++ rest := by
      have := drop_add_of_drop data pos [108] _ (by rw [hd1]; rfl)
      simpa using this
    have hd3 : data.drop (pos + 1) = 108 :: (List.replicate (s + 1) 108 ++ rest) := by
      rw [hd2, List.replicate_succ (n := s + 1)]; rfl
    obtain ⟨hpos2, hc2⟩ := getD_of_drop _ _ _ _ hd3
    have hin := ih f' data (pos + 1) rest hd2 (by omega)
    rw [decode_list_case (s + 1) (f' + 1) data pos hpos hc]
    rw [decodeListLoop_fail s f' data (pos + 1) [] ⟨hpos2, by rw [hc2]; decide⟩
      (by intro p; rw [hin]; simp), hin]

/-- At a `d` followed by `stk + 1` opening `l` in a row, that is with a list nested `stk`
deep or deeper in the first key position, `decode` ends with a stack overflow. -/
theorem decode_deep_key_overflow (stk : Nat) (f : Nat) (data : List Nat) (pos : Nat)
    (rest : List Nat)
    (hd : data.drop pos = 100 :: (List.replicate (stk + 1) 108 ++ rest))
    (hf : 2 * stk + 3 ≤ f) :
    decode stk f data pos = .stackOverflow := by
  obtain ⟨f', rfl⟩ : ∃ f', f = f' + 2 := ⟨f - 2, by omega⟩
  obtain ⟨hpos, hc⟩ := getD_of_drop _ _ _ _ hd
  have hd2 : data.drop (pos + 1) = List.replicate (stk + 1) 108 ++ rest := by
    have := drop_add_of_drop data pos [100] _ (by rw [hd]; rfl)
    simpa using this
  have hd3 : data.drop (pos + 1) = 108 :: (List.replicate stk 108 ++ rest) := by
    rw [hd2, List.replicate_succ (n := stk)]; rfl
  obtain ⟨hpos2, hc2⟩ := getD_of_drop _ _ _ _ hd3
  rw [decode_dict_case stk (f' + 1) data pos hpos hc]
  cases stk with
  | zero => exact decodeDictLoop_overflow f' data (pos + 1) [] ⟨hpos2, by rw [hc2]; decide⟩
  | succ s =>
    have hin := decode_deep_overflow s f' data (pos + 1) rest hd2 (by omega)
    rw [decodeDictLoop_key_fail s f' data (pos + 1) [] ⟨hpos2, by rw [hc2]; decide⟩
      (by intro p; rw [hin]; simp), hin]

/-! ## Lemmas: progress and termination of `decode` -/

theorem decodeInt_progress (data : List Nat) (pos : Nat) (v : BValue) (pos' : Nat)
    (h : decodeInt data pos = .ok (v, pos')) : pos < pos' ∧ pos' ≤ data.length := by
  unfold decodeInt at h
  simp only [] at h
  cases hi : IndexByte (data.drop (pos + 1)) 101 with
  | none => simp [hi] at h
  | some e =>
    rw [hi] at h
    simp only [] at h
    have hlt := indexByte_lt _ _ _ hi
    simp only [List.length_drop] at hlt
    cases hp : ParseInt (slice data (pos + 1) (e + (pos + 1))) with
    | error err => simp [hp] at h
    | ok val =>
      rw [hp] at h
      simp only [Outcome.ok.injEq, Prod.mk.injEq] at h
      omega

theorem decodeString_progress (data : List Nat) (pos : Nat) (v : BValue) (pos' : Nat)
    (h : decodeString data pos = .ok (v, pos')) : pos < pos' ∧ pos' ≤ data.length := by
  unfold decodeString at h
  cases hi : IndexByte (data.drop pos) 58 with
  | none => simp [hi] at h
  | some c =>
    rw [hi] at h
    simp only [] at h
    cases hA : Atoi (slice data pos (c + pos)) with
    | error err => simp [hA] at h
    | ok length =>
      rw [hA] at h
      simp only [] at h
      generalize wrap64 (((c + pos : Nat) : Int) + 1 + length) = w at h
      split at h
      · simp at h
      · rename_i h1
        split at h
        · rename_i h2
          simp only [Outcome.ok.injEq, Prod.mk.injEq] at h
          omega
        · simp at h

theorem decodeInt_not_outOfFuel (data : List Nat) (pos : Nat) :
    decodeInt data pos ≠ .outOfFuel := by
  unfold decodeInt
  simp only []
  cases IndexByte (data.drop (pos + 1)) 101 with
  | none => simp
  | some e =>
    simp only []
    cases ParseInt (slice data (pos + 1) (e + (pos + 1))) <;> simp

theorem decodeString_not_outOfFuel (data : List Nat) (pos : Nat) :
    decodeString data pos ≠ .outOfFuel := by
  unfold decodeString
  cases IndexByte (data.drop pos) 58 with
  | none => simp
  | some c =>
    simp only []
    cases Atoi (slice data pos (c + pos)) with
    | error err => simp
    | ok length =>
      simp only []
      generalize wrap64 (((c + pos : Nat) : Int) + 1 + length) = w
      split
      · simp
      · split <;> simp

/-- A successful `decode` (and each of its loops) leaves the cursor strictly after its entry
position and inside the buffer. -/
theorem decode_progress (f : Nat) :
    (∀ stk data pos v pos', decode stk f data pos = .ok (v, pos') →
      pos < pos' ∧ pos' ≤ data.length) ∧
    (∀ stk data pos acc v pos', decodeListLoop stk f data pos acc = .ok (v, pos') →
      pos < pos' ∧ pos' ≤ data.length) ∧
    (∀ stk data pos acc v pos', decodeDictLoop stk f data pos acc = .ok (v, pos') →
      pos < pos' ∧ pos' ≤ data.length) := by
  induction f with
  | zero =>
    refine ⟨?_, ?_, ?_⟩ <;> intros <;> simp_all [decode, decodeListLoop, decodeDictLoop]
  | succ f ih =>
    obtain ⟨ih1, ih2, ih3⟩ := ih
    refine ⟨?_, ?_, ?_⟩
    · intro stk data pos v pos' h
      rw [decode] at h
      split at h
      · simp at h
      · split at h
        · exact decodeInt_progress _ _ _ _ h
        · have := ih2 _ _ _ _ _ _ h; omega
        · have := ih3 _ _ _ _ _ _ h; omega
        · exact decodeString_progress _ _ _ _ h
    · intro stk data pos acc v pos' h
      by_cases hc : pos < data.length ∧ data.getD pos 0 ≠ 101
      · cases stk with
        | zero => rw [decodeListLoop_overflow _ _ _ _ hc] at h; cases h
        | succ room =>
          cases hd : decode room f data pos with
          | ok p =>
            obtain ⟨elem, p1⟩ := p
            rw [decodeListLoop_step _ _ _ _ _ _ _ hc hd] at h
            have h1 := ih1 _ _ _ _ _ hd
            have h2 := ih2 _ _ _ _ _ _ h
            omega
          | _ =>
            rw [decodeListLoop_fail _ _ _ _ _ hc (by intro p; rw [hd]; simp), hd] at h
            cases h
      · rw [decodeListLoop_stop _ _ _ _ _ hc] at h
        split at h
        · cases h
        · simp only [Outcome.ok.injEq, Prod.mk.injEq] at h
          omega
    · intro stk data pos acc v pos' h
      by_cases hc : pos < data.length ∧ data.getD pos 0 ≠ 101
      · cases stk with
        | zero => rw [decodeDictLoop_overflow _ _ _ _ hc] at h; cases h
        | succ room =>
          cases hd : decode room f data pos with
          | ok p =>
            obtain ⟨key, p1⟩ := p
            have h1 := ih1 _ _ _ _ _ hd
            by_cases hks : ∃ ks, key = .BString ks
            · obtain ⟨ks, rfl⟩ := hks
              cases hd2 : decode room f data p1 with
              | ok p2 =>
                obtain ⟨value, p2'⟩ := p2
                rw [decodeDictLoop_step _ _ _ _ _ _ _ _ _ hc hd hd2] at h
                have h2 := ih1 _ _ _ _ _ hd2
                have h3 := ih3 _ _ _ _ _ _ h
                omega
              | _ =>
                rw [decodeDictLoop_value_fail _ _ _ _ _ _ _ hc hd
                  (by intro p; rw [hd2]; simp), hd2] at h
                cases h
            · rw [decodeDictLoop_bad _ _ _ _ _ _ _ hc hd
                (fun s hs => hks ⟨s, hs⟩)] at h
              cases h
          | _ =>
            rw [decodeDictLoop_key_fail _ _ _ _ _ hc (by intro p; rw [hd]; simp), hd] at h
            cases h
      · rw [decodeDictLoop_stop _ _ _ _ _ hc] at h
        split at h
        · cases h
        · simp only [Outcome.ok.injEq, Prod.mk.injEq] at h
          omega

/-- With fuel `2 * (len(data) - pos) + 1` a call of `decode` at `pos` does not run out of
fuel (and each loop with one more). -/
theorem decode_enough_fuel (f : Nat) :
    (∀ stk data pos, 2 * (data.length - pos) + 1 ≤ f → decode stk f data pos ≠ .outOfFuel) ∧
    (∀ stk data pos acc, 2 * (data.length - pos) + 2 ≤ f →
      decodeListLoop stk f data pos acc ≠ .outOfFuel) ∧
    (∀ stk data pos acc, 2 * (data.length - pos) + 2 ≤ f →
      decodeDictLoop stk f data pos acc ≠ .outOfFuel) := by
  induction f with
  | zero =>
    refine ⟨?_, ?_, ?_⟩ <;> intros <;> omega
  | succ f ih =>
    obtain ⟨ih1, ih2, ih3⟩ := ih
    refine ⟨?_, ?_, ?_⟩
    · intro stk data pos hf
      rw [decode]
      split
      · simp
      · rename_i hpos
        split
        · exact decodeInt_not_outOfFuel _ _
        · exact ih2 _ _ _ _ (by omega)
        · exact ih3 _ _ _ _ (by omega)
        · exact decodeString_not_outOfFuel _ _
    · intro stk data pos acc hf
      by_cases hc : pos < data.length ∧ data.getD pos 0 ≠ 101
      · cases stk with
        | zero => rw [decodeListLoop_overflow _ _ _ _ hc]; simp
        | succ room =>
          have hne := ih1 room data pos (by omega)
          cases hd : decode room f data pos with
          | ok p =>
            obtain ⟨elem, p1⟩ := p
            rw [decodeListLoop_step _ _ _ _ _ _ _ hc hd]
            have h1 := (decode_progress f).1 _ _ _ _ _ hd
            exact ih2 _ _ _ _ (by omega)
          | _ =>
            rw [decodeListLoop_fail _ _ _ _ _ hc (by intro p; rw [hd]; simp)]
            exact hne
      · rw [decodeListLoop_stop _ _ _ _ _ hc]
        split <;> simp
    · intro stk data pos acc hf
      by_cases hc : pos < data.length ∧ data.getD pos 0 ≠ 101
      · cases stk with
        | zero => rw [decodeDictLoop_overflow _ _ _ _ hc]; simp
        | succ room =>
          have hne := ih1 room data pos (by omega)
          cases hd : decode room f data pos with
          | ok p =>
            obtain ⟨key, p1⟩ := p
            have h1 := (decode_progress f).1 _ _ _ _ _ hd
            by_cases hks : ∃ ks, key = .BString ks
            · obtain ⟨ks, rfl⟩ := hks
              have hne2 := ih1 room data p1 (by omega)
              cases hd2 : decode room f data p1 with
              | ok p2 =>
                obtain ⟨value, p2'⟩ := p2
                rw [decodeDictLoop_step _ _ _ _ _ _ _ _ _ hc hd hd2]
                have h2 := (decode_progress f).1 _ _ _ _ _ hd2
                exact ih3 _ _ _ _ (by omega)
              | _ =>
                rw [decodeDictLoop_value_fail _ _ _ _ _ _ _ hc hd
                  (by intro p; rw [hd2]; simp)]
                exact hne2
            · rw [decodeDictLoop_bad _ _ _ _ _ _ _ hc hd (fun s hs => hks ⟨s, hs⟩)]
              simp
          | _ =>
            rw [decodeDictLoop_key_fail _ _ _ _ _ hc (by intro p; rw [hd]; simp)]
            exact hne
      · rw [decodeDictLoop_stop _ _ _ _ _ hc]
        split <;> simp

/-- Once `decode` (or one of its loops) does not run out of fuel, more fuel does not change
what it returns. -/
theorem decode_fuel_stable (f : Nat) :
    (∀ stk data pos, decode stk f data pos ≠ .outOfFuel →
      ∀ k, decode stk (f + k) data pos = decode stk f data pos) ∧
    (∀ stk data pos acc, decodeListLoop stk f data pos acc ≠ .outOfFuel →
      ∀ k, decodeListLoop stk (f + k) data pos acc = decodeListLoop stk f data pos acc) ∧
    (∀ stk data pos acc, decodeDictLoop stk f data pos acc ≠ .outOfFuel →
      ∀ k, decodeDictLoop stk (f + k) data pos acc = decodeDictLoop stk f data pos acc) := by
  induction f with
  | zero =>
    refine ⟨?_, ?_, ?_⟩ <;> intros <;> simp_all [decode, decodeListLoop, decodeDictLoop]
  | succ f ih =>
    obtain ⟨ih1, ih2, ih3⟩ := ih
    refine ⟨?_, ?_, ?_⟩
    · intro stk data pos h k
      rw [show f + 1 + k = (f + k) + 1 by omega]
      by_cases hpos : pos ≥ data.length
      · rw [decode, decode, if_pos hpos, if_pos hpos]
      · have hp : pos < data.length := by omega
        by_cases h1 : data.getD pos 0 = 105
        · rw [decode_int_case _ _ _ _ hp h1, decode_int_case _ _ _ _ hp h1]
        · by_cases h2 : data.getD pos 0 = 108
          · rw [decode_list_case stk f _ _ hp h2] at h
            rw [decode_list_case _ _ _ _ hp h2, decode_list_case _ _ _ _ hp h2]
            exact ih2 _ _ _ _ h k
          · by_cases h3 : data.getD pos 0 = 100
            · rw [decode_dict_case stk f _ _ hp h3] at h
              rw [decode_dict_case _ _ _ _ hp h3, decode_dict_case _ _ _ _ hp h3]
              exact ih3 _ _ _ _ h k
            · rw [decode_default_case _ _ _ _ hp h1 h2 h3,
                decode_default_case _ _ _ _ hp h1 h2 h3]
    · intro stk data pos acc h k
      rw [show f + 1 + k = (f + k) + 1 by omega]
      by_cases hc : pos < data.length ∧ data.getD pos 0 ≠ 101
      · cases stk with
        | zero => rw [decodeListLoop_overflow (f + k) _ _ _ hc, decodeListLoop_overflow f _ _ _ hc]
        | succ room =>
          cases hd : decode room f data pos with
          | ok p =>
            obtain ⟨elem, p1⟩ := p
            have hd' : decode room (f + k) data pos = .ok (elem, p1) := by
              rw [ih1 _ _ _ (by rw [hd]; simp) k, hd]
            rw [decodeListLoop_step room f _ _ _ _ _ hc hd] at h
            rw [decodeListLoop_step room (f + k) _ _ _ _ _ hc hd',
              decodeListLoop_step room f _ _ _ _ _ hc hd]
            exact ih2 _ _ _ _ h k
          | outOfFuel =>
            rw [decodeListLoop_fail _ _ _ _ _ hc (by intro p; rw [hd]; simp), hd] at h
            exact absurd rfl h
          | _ =>
            have hd' := ih1 room data pos (by rw [hd]; simp) k
            rw [decodeListLoop_fail room (f + k) _ _ _ hc (by intro p; rw [hd', hd]; simp),
              decodeListLoop_fail room f _ _ _ hc (by intro p; rw [hd]; simp), hd']
      · rw [decodeListLoop_stop _ (f + k) _ _ _ hc, decodeListLoop_stop _ f _ _ _ hc]
    · intro stk data pos acc h k
      rw [show f + 1 + k = (f + k) + 1 by omega]
      by_cases hc : pos < data.length ∧ data.getD pos 0 ≠ 101
      · cases stk with
        | zero => rw [decodeDictLoop_overflow (f + k) _ _ _ hc, decodeDictLoop_overflow f _ _ _ hc]
        | succ room =>
          cases hd : decode room f data pos with
          | ok p =>
            obtain ⟨key, p1⟩ := p
            have hd' : decode room (f + k) data pos = .ok (key, p1) := by
              rw [ih1 _ _ _ (by rw [hd]; simp) k, hd]
            by_cases hks : ∃ ks, key = .BString ks
            · obtain ⟨ks, rfl⟩ := hks
              cases hd2 : decode room f data p1 with
              | ok p2 =>
                obtain ⟨value, p2'⟩ := p2
                have hd2' : decode room (f + k) data p1 = .ok (value, p2') := by
                  rw [ih1 _ _ _ (by rw [hd2]; simp) k, hd2]
                rw [decodeDictLoop_step room f _ _ _ _ _ _ _ hc hd hd2] at h
                rw [decodeDictLoop_step room (f + k) _ _ _ _ _ _ _ hc hd' hd2',
                  decodeDictLoop_step room f _ _ _ _ _ _ _ hc hd hd2]
                exact ih3 _ _ _ _ h k
              | outOfFuel =>
                rw [decodeDictLoop_value_fail _ _ _ _ _ _ _ hc hd
                  (by intro p; rw [hd2]; simp), hd2] at h
                exact absurd rfl h
              | _ =>
                have hd2' := ih1 room data p1 (by rw [hd2]; simp) k
                rw [decodeDictLoop_value_fail room (f + k) _ _ _ _ _ hc hd'
                    (by intro p; rw [hd2', hd2]; simp),
                  decodeDictLoop_value_fail room f _ _ _ _ _ hc hd
                    (by intro p; rw [hd2]; simp), hd2']
            · rw [decodeDictLoop_bad room (f + k) _ _ _ _ _ hc hd' (fun s hs => hks ⟨s, hs⟩),
                decodeDictLoop_bad room f _ _ _ _ _ hc hd (fun s hs => hks ⟨s, hs⟩)]
          | outOfFuel =>
            rw [decodeDictLoop_key_fail _ _ _ _ _ hc (by intro p; rw [hd]; simp), hd] at h
            exact absurd rfl h
          | _ =>
            have hd' := ih1 room data pos (by rw [hd]; simp) k
            rw [decodeDictLoop_key_fail room (f + k) _ _ _ hc (by intro p; rw [hd', hd]; simp),
              decodeDictLoop_key_fail room f _ _ _ hc (by intro p; rw [hd]; simp), hd']
      · rw [decodeDictLoop_stop _ (f + k) _ _ _ hc, decodeDictLoop_stop _ f _ _ _ hc]

/-! ## Lemmas: trees nested deeper than the stack -/

theorem heightVisited_mem (es : List (RangeOrders × List Nat × BValue)) :
    ∀ e ∈ es, height e.2.2 + 1 ≤ heightVisited es := by
  induction es with
  | nil => intro e he; cases he
  | cons a rest ih =>
    obtain ⟨o, k, v⟩ := a
    intro e he
    rw [heightVisited]
    rcases List.mem_cons.mp he with he | he
    · rw [he]; exact Nat.le_max_left _ _
    · exact Nat.le_trans (ih e he) (Nat.le_max_right _ _)

theorem heightVisited_exists (es : List (RangeOrders × List Nat × BValue)) (stk : Nat)
    (h : stk < heightVisited es) : ∃ e ∈ es, stk < height e.2.2 + 1 := by
  induction es with
  | nil => rw [heightVisited] at h; omega
  | cons a rest ih =>
    obtain ⟨o, k, v⟩ := a
    rw [heightVisited] at h
    by_cases hv : stk < height v + 1
    · exact ⟨(o, k, v), List.mem_cons_self _ _, hv⟩
    · have : stk < heightVisited rest := by
        rcases Nat.lt_or_ge stk (heightVisited rest) with h1 | h1
        · exact h1
        · have := Nat.max_le.mpr ⟨Nat.le_of_not_lt hv, h1⟩
          omega
      obtain ⟨e, he, hlt⟩ := ih this
      exact ⟨e, List.mem_cons_of_mem _ he, hlt⟩

theorem heightEntries_exists (m : List (List Nat × BValue)) (stk : Nat)
    (h : stk < heightEntries m) : ∃ kv ∈ m, stk < height kv.2 + 1 := by
  induction m with
  | nil => rw [heightEntries] at h; omega
  | cons a rest ih =>
    obtain ⟨k, v⟩ := a
    rw [heightEntries] at h
    by_cases hv : stk < height v + 1
    · exact ⟨(k, v), List.mem_cons_self _ _, hv⟩
    · have : stk < heightEntries rest := by
        rcases Nat.lt_or_ge stk (heightEntries rest) with h1 | h1
        · exact h1
        · have := Nat.max_le.mpr ⟨Nat.le_of_not_lt hv, h1⟩
          omega
      obtain ⟨e, he, hlt⟩ := ih this
      exact ⟨e, List.mem_cons_of_mem _ he, hlt⟩

/-- The loop of the `'l'` case on the encodings of elements of which one needs more nested
calls than the stack has room for ends with a stack overflow, whatever follows the
elements. -/
theorem decodeListLoop_too_deep (l : List BValue) (hwf : ∀ x ∈ l, wfValue x = true)
    (ih : ∀ x ∈ l, ∀ (o : RangeOrders), ValidOrders o →
      ∀ (stk : Nat) (data : List Nat) (pos : Nat) (rest : List Nat) (f : Nat),
      stk < height x → data.length < 2 ^ 63 → data.drop pos = encode o x ++ rest →
      2 * (encode o x).length + 1 ≤ f → decode stk f data pos = .stackOverflow) :
    ∀ (stk : Nat) (o : RangeOrders) (i : Nat), ValidOrders o → stk < heightList l →
    ∀ (data : List Nat) (pos : Nat) (acc : List BValue) (tail : List Nat) (f : Nat),
      data.length < 2 ^ 63 → data.drop pos = encodeList o i l ++ tail →
      2 * (encodeList o i l).length + 2 ≤ f →
      decodeListLoop stk f data pos acc = .stackOverflow := by
  induction l with
  | nil =>
    intro stk o i ho hst
    rw [heightList] at hst
    omega
  | cons x xs ihl =>
    intro stk o i ho hst data pos acc tail f hlen hd hf
    obtain ⟨f', rfl⟩ : ∃ f', f = f' + 1 := ⟨f - 1, by omega⟩
    rw [heightList] at hst
    simp only [encodeList, List.length_append] at hd hf
    obtain ⟨c, tl, hh, hne⟩ := encode_head (below o (.index i)) x
    have hpos1 := encode_length_pos (below o (.index i)) x
    have hd1 : data.drop pos
        = encode (below o (.index i)) x ++ (encodeList o (i + 1) xs ++ tail) := by
      rw [hd, List.append_assoc]
    have hd2 : data.drop pos = c :: (tl ++ (encodeList o (i + 1) xs ++ tail)) := by
      rw [hd1, hh]; rfl
    obtain ⟨hpos, hc⟩ := getD_of_drop _ _ _ _ hd2
    have hcond : pos < data.length ∧ data.getD pos 0 ≠ 101 := ⟨hpos, by rw [hc]; exact hne⟩
    cases stk with
    | zero => exact decodeListLoop_overflow f' data pos acc hcond
    | succ room =>
      by_cases hx : height x ≤ room
      · rw [decodeListLoop_step room f' data pos acc x _ hcond
          (decode_encode x (hwf x (List.mem_cons_self _ _)) _ (validOrders_below o ho _) room
            data pos _ f' hx hlen hd1 (by omega))]
        have hd3 := drop_add_of_drop data pos _ _ hd1
        have hxs : room + 1 < heightList xs := by
          rcases Nat.lt_or_ge (room + 1) (heightList xs) with h1 | h1
          · exact h1
          · have := Nat.max_le.mpr ⟨Nat.succ_le_succ hx, h1⟩
            omega
        exact ihl (fun y hy => hwf y (List.mem_cons_of_mem _ hy))
          (fun y hy => ih y (List.mem_cons_of_mem _ hy)) (room + 1) o (i + 1) ho hxs data _
          (acc ++ [x]) tail f' hlen hd3 (by omega)
      · have hin := ih x (List.mem_cons_self _ _) _ (validOrders_below o ho (.index i)) room
          data pos _ f' (by omega) hlen hd1 (by omega)
        rw [decodeListLoop_fail room f' data pos acc hcond (by intro p; rw [hin]; simp), hin]

/-- The loop of the `'d'` case on the encodings of entries of which one has a value that needs
more nested calls than the stack has room for ends with a stack overflow, whatever follows
the entries. -/
theorem decodeDictLoop_too_deep (es : List (RangeOrders × List Nat × BValue))
    (hes : ∀ e ∈ es, ValidOrders e.1 ∧ wfValue e.2.2 = true)
    (ih : ∀ e ∈ es,
      ∀ (stk : Nat) (data : List Nat) (pos : Nat) (rest : List Nat) (f : Nat),
      stk < height e.2.2 → data.length < 2 ^ 63 → data.drop pos = encode e.1 e.2.2 ++ rest →
      2 * (encode e.1 e.2.2).length + 1 ≤ f → decode stk f data pos = .stackOverflow) :
    ∀ (stk : Nat), (∃ e ∈ es, stk < height e.2.2 + 1) →
    ∀ (data : List Nat) (pos : Nat) (acc : List (List Nat × BValue)) (tail : List Nat)
      (f : Nat),
      data.length < 2 ^ 63 → data.drop pos = encodeVisited es ++ tail →
      2 * (encodeVisited es).length + 2 ≤ f →
      decodeDictLoop stk f data pos acc = .stackOverflow := by
  induction es with
  | nil =>
    intro stk hex
    obtain ⟨e, he, _⟩ := hex
    cases he
  | cons e es ihl =>
    obtain ⟨o, k, v⟩ := e
    intro stk hex data pos acc tail f hlen hd hf
    obtain ⟨f', rfl⟩ : ∃ f', f = f' + 1 := ⟨f - 1, by omega⟩
    obtain ⟨ho, hwfv⟩ := hes (o, k, v) (List.mem_cons_self _ _)
    simp only [] at ho hwfv
    rw [encodeVisited_cons] at hd hf
    simp only [List.length_append] at hf
    simp only [List.append_assoc] at hd
    obtain ⟨c, tl, hh, hne⟩ := encode_head o (.BString k)
    have hpos1 := encode_length_pos o (.BString k)
    have hpos2 := encode_length_pos o v
    have hd2 : data.drop pos = c :: (tl ++ (encode o v ++ (encodeVisited es ++ tail))) := by
      rw [hd, hh]; rfl
    obtain ⟨hpos, hc⟩ := getD_of_drop _ _ _ _ hd2
    have hcond : pos < data.length ∧ data.getD pos 0 ≠ 101 := ⟨hpos, by rw [hc]; exact hne⟩
    cases stk with
    | zero => exact decodeDictLoop_overflow f' data pos acc hcond
    | succ room =>
      have hkey := decode_encode_string o k room data pos _ f' hlen hd (by omega)
      have hd3 := drop_add_of_drop data pos _ _ hd
      by_cases hv : height v ≤ room
      · rw [decodeDictLoop_step room f' data pos acc k v _ _ hcond hkey
          (decode_encode v hwfv o ho room data _ _ f' hv hlen hd3 (by omega))]
        have hd4 := drop_add_of_drop data _ _ _ hd3
        have hex' : ∃ e ∈ es, room + 1 < height e.2.2 + 1 := by
          obtain ⟨e, he, hlt⟩ := hex
          rcases List.mem_cons.mp he with he | he
          · have hlt' : room + 1 < height v + 1 := by rw [he] at hlt; exact hlt
            omega
          · exact ⟨e, he, hlt⟩
        exact ihl (fun y hy => hes y (List.mem_cons_of_mem _ hy))
          (fun y hy => ih y (List.mem_cons_of_mem _ hy)) (room + 1) hex' data _
          (mapInsert k v acc) tail f' hlen hd4 (by omega)
      · have hin := ih (o, k, v) (List.mem_cons_self _ _) room data _ _ f'
          (by show room < height v; omega) hlen hd3
          (by show 2 * (encode o v).length + 1 ≤ f'; omega)
        rw [decodeDictLoop_value_fail room f' data pos acc k _ hcond hkey
          (by intro p; rw [hin]; simp), hin]

/-- Decoding at the place where the encoding of a tree starts that needs more nested calls
than the stack has room for ends with a stack overflow. -/
theorem decode_encode_overflow (t : BValue) :
    wfValue t = true → ∀ (o : RangeOrders), ValidOrders o →
    ∀ (stk : Nat) (data : List Nat) (pos : Nat) (rest : List Nat) (f : Nat),
      stk < height t →
      data.length < 2 ^ 63 → data.drop pos = encode o t ++ rest →
      2 * (encode o t).length + 1 ≤ f →
      decode stk f data pos = .stackOverflow := by
  induction t using bvalue_induction with
  | hs s =>
    intro _ o _ stk data pos rest f hst
    rw [height] at hst
    omega
  | hi v =>
    intro _ o _ stk data pos rest f hst
    rw [height] at hst
    omega
  | hl l ih =>
    intro hwf o ho stk data pos rest f hst hlen hd hf
    rw [wfValue] at hwf
    rw [height] at hst
    have hmem := wfList_mem l hwf
    obtain ⟨f', rfl⟩ : ∃ f', f = f' + 1 := ⟨f - 1, by omega⟩
    rw [encode_list_eq] at hd hf
    have hd1 : data.drop pos = 108 :: (encodeList o 0 l ++ 101 :: rest) := by
      rw [hd]; simp
    obtain ⟨hpos, hc⟩ := getD_of_drop _ _ _ _ hd1
    rw [decode_list_case stk f' data pos hpos hc]
    have hd2 : data.drop (pos + 1) = encodeList o 0 l ++ 101 :: rest := by
      have := drop_add_of_drop data pos [108] _ (by rw [hd1]; rfl)
      simpa using this
    simp only [List.length_cons, List.length_append, List.length_singleton,
      List.length_nil] at hf
    exact decodeListLoop_too_deep l hmem
      (fun x hx o' ho' stk' data' pos' rest' f'' hst' hlen' hd' hf' =>
        ih x hx (hmem x hx) o' ho' stk' data' pos' rest' f'' hst' hlen' hd' hf')
      stk o 0 ho hst data (pos + 1) [] (101 :: rest) f' hlen hd2 (by omega)
  | hd m ih =>
    intro hwf o ho stk data pos rest f hst hlen hd hf
    rw [wfValue, Bool.and_eq_true] at hwf
    rw [height] at hst
    have hmem := wfEntries_mem m hwf.2
    have hperm := rangeOver_perm (o []) (ho []) m hwf.1
    obtain ⟨f', rfl⟩ : ∃ f', f = f' + 1 := ⟨f - 1, by omega⟩
    rw [encode_dict_eq] at hd hf
    generalize hV : (rangeOver (o []) m).map (fun kv => (below o (.key kv.1), kv.1, kv.2)) = V
      at hd hf
    have hd1 : data.drop pos = 100 :: (encodeVisited V ++ 101 :: rest) := by
      rw [hd]; simp
    obtain ⟨hpos, hc⟩ := getD_of_drop _ _ _ _ hd1
    rw [decode_dict_case stk f' data pos hpos hc]
    have hd2 : data.drop (pos + 1) = encodeVisited V ++ 101 :: rest := by
      have := drop_add_of_drop data pos [100] _ (by rw [hd1]; rfl)
      simpa using this
    simp only [List.length_cons, List.length_append, List.length_singleton,
      List.length_nil] at hf
    have hVmem : ∀ e ∈ V, ∃ kv ∈ m, e = (below o (.key kv.1), kv.1, kv.2) := by
      intro e he
      rw [← hV, List.mem_map] at he
      obtain ⟨kv, hkv, rfl⟩ := he
      exact ⟨kv, hperm.mem_iff.mp hkv, rfl⟩
    have hex : ∃ e ∈ V, stk < height e.2.2 + 1 := by
      obtain ⟨kv, hkv, hlt⟩ := heightEntries_exists m stk hst
      refine ⟨(below o (.key kv.1), kv.1, kv.2), ?_, hlt⟩
      rw [← hV, List.mem_map]
      exact ⟨kv, hperm.mem_iff.mpr hkv, rfl⟩
    exact decodeDictLoop_too_deep V
      (fun e he => by
        obtain ⟨kv, hkv, rfl⟩ := hVmem e he
        exact ⟨validOrders_below o ho _, hmem kv hkv⟩)
      (fun e he stk' data' pos' rest' f'' hst' hlen' hd' hf' => by
        obtain ⟨kv, hkv, rfl⟩ := hVmem e he
        exact ih kv hkv (hmem kv hkv) _ (validOrders_below o ho _) stk' data' pos' rest' f''
          hst' hlen' hd' hf')
      stk hex data (pos + 1) [] (101 :: rest) f' hlen hd2 (by omega)

/-- The loop of the `'d'` case on the encodings of entries it can read, followed at a key
position by the encoding of a value that needs more nested calls than the stack has room
for, ends with a stack overflow. -/
theorem decodeDictLoop_key_too_deep (stk : Nat) (es : List (RangeOrders × List Nat × BValue))
    (hes : ∀ e ∈ es, ValidOrders e.1 ∧ wfValue e.2.2 = true ∧ height e.2.2 < stk)
    (oK : RangeOrders) (hoK : ValidOrders oK)
    (k : BValue) (hk : wfValue k = true) (hhk : stk < height k + 1) :
    ∀ (data : List Nat) (pos : Nat) (acc : List (List Nat × BValue)) (rest : List Nat)
      (f : Nat),
      data.length < 2 ^ 63 → data.drop pos = encodeVisited es ++ (encode oK k ++ rest) →
      2 * ((encodeVisited es).length + (encode oK k).length) + 2 ≤ f →
      decodeDictLoop stk f data pos acc = .stackOverflow := by
  induction es with
  | nil =>
    intro data pos acc rest f hlen hd hf
    obtain ⟨f', rfl⟩ : ∃ f', f = f' + 1 := ⟨f - 1, by omega⟩
    simp only [encodeVisited, List.nil_append, List.length_nil] at hd hf
    obtain ⟨c, tl, hh, hne⟩ := encode_head oK k
    have hd2 : data.drop pos = c :: (tl ++ rest) := by
      rw [hd, hh]; rfl
    obtain ⟨hpos, hc⟩ := getD_of_drop _ _ _ _ hd2
    have hcond : pos < data.length ∧ data.getD pos 0 ≠ 101 := ⟨hpos, by rw [hc]; exact hne⟩
    cases stk with
    | zero => exact decodeDictLoop_overflow f' data pos acc hcond
    | succ room =>
      have hin := decode_encode_overflow k hk oK hoK room data pos rest f' (by omega) hlen hd
        (by omega)
      rw [decodeDictLoop_key_fail room f' data pos acc hcond (by intro p; rw [hin]; simp), hin]
  | cons e es ihl =>
    obtain ⟨o, k0, v⟩ := e
    intro data pos acc rest f hlen hd hf
    obtain ⟨f', rfl⟩ : ∃ f', f = f' + 1 := ⟨f - 1, by omega⟩
    obtain ⟨ho, hwfv, hhv⟩ := hes (o, k0, v) (List.mem_cons_self _ _)
    simp only [] at ho hwfv hhv
    obtain ⟨room, rfl⟩ : ∃ room, stk = room + 1 := ⟨stk - 1, by omega⟩
    rw [encodeVisited_cons] at hd hf
    simp only [List.length_append] at hf
    simp only [List.append_assoc] at hd
    obtain ⟨c, tl, hh, hne⟩ := encode_head o (.BString k0)
    have hpos1 := encode_length_pos o (.BString k0)
    have hpos2 := encode_length_pos o v
    have hd2 : data.drop pos
        = c :: (tl ++ (encode o v ++ (encodeVisited es ++ (encode oK k ++ rest)))) := by
      rw [hd, hh]; rfl
    obtain ⟨hpos, hc⟩ := getD_of_drop _ _ _ _ hd2
    have hd3 := drop_add_of_drop data pos _ _ hd
    rw [decodeDictLoop_step room f' data pos acc k0 v _ _ ⟨hpos, by rw [hc]; exact hne⟩
      (decode_encode_string o k0 room data pos _ f' hlen hd (by omega))
      (decode_encode v hwfv o ho room data _ _ f' (by omega) hlen hd3 (by omega))]
    have hd4 := drop_add_of_drop data _ _ _ hd3
    exact ihl (fun y hy => hes y (List.mem_cons_of_mem _ hy)) data _ (mapInsert k0 v acc) rest
      f' hlen hd4 (by omega)

/-- The call of `Unmarshal` on the encoding of a tree that needs more nested calls than the
stack has room for ends with a stack overflow. -/
theorem Decode_encode_overflow (stk : Nat) (o : RangeOrders) (ho : ValidOrders o) (t : BValue)
    (hwf : wfValue t = true) (hst : stk < height t) (hlen : (encode o t).length < 2 ^ 63) :
    Decode stk (encode o t) = .stackOverflow := by
  unfold Decode
  exact decode_encode_overflow t hwf o ho stk (encode o t) 0 [] (2 * (encode o t).length + 1)
    hst hlen (by simp) (by omega)

/-! ## Lemmas: the binder -/

/-- Induction on Go values. -/
theorem goValue_induction {P : GoValue → Prop}
    (hstr : ∀ s, P (.string s)) (hint : ∀ v, P (.int v)) (huint : ∀ v, P (.uint v))
    (hother : P .other)
    (hseq : ∀ xs, (∀ x ∈ xs, P x) → P (.seq xs))
    (hmap : ∀ m, (∀ kv ∈ m, P kv.2) → P (.map m))
    (hstruct : ∀ vs, (∀ x ∈ vs, P x) → P (.struct vs))
    (hptr : ∀ o, (∀ x, o = some x → P x) → P (.ptr o)) : ∀ v, P v := by
  intro v
  refine GoValue.rec (motive_1 := P) (motive_2 := fun l => ∀ x ∈ l, P x)
    (motive_3 := fun m => ∀ kv ∈ m, P kv.2) (motive_4 := fun o => ∀ x, o = some x → P x)
    (motive_5 := fun kv => P kv.2)
    hstr hint huint hother hseq hmap hstruct hptr ?_ ?_ ?_ ?_ ?_ ?_ ?_ v
  · intro x hx; cases hx
  · intro head tail h1 h2 x hx
    rcases List.mem_cons.mp hx with h | h
    · rw [h]; exact h1
    · exact h2 x h
  · intro x hx; cases hx
  · intro head tail h1 h2 x hx
    rcases List.mem_cons.mp hx with h | h
    · rw [h]; exact h1
    · exact h2 x h
  · intro x hx; cases hx
  · intro val h x hx
    cases hx; exact h
  · intro k v h; exact h

/-- Induction on Go types. -/
theorem goType_induction {P : GoType → Prop}
    (hstr : P .string) (hnamed : P .namedString) (hint : ∀ k, P (.int k)) (huint : P .uint8)
    (hother : P .other)
    (harr : ∀ n e, P e → P (.array n e)) (hslice : ∀ e, P e → P (.slice e))
    (hmap : ∀ k e, P k → P e → P (.map k e))
    (hstruct : ∀ fs, (∀ p ∈ fs, P p.2) → P (.struct fs))
    (hptr : ∀ e, P e → P (.ptr e)) : ∀ t, P t := by
  intro t
  refine GoType.rec (motive_1 := P) (motive_2 := fun l => ∀ p ∈ l, P p.2)
    (motive_3 := fun p => P p.2)
    hstr hnamed hint huint hother harr hslice hmap hstruct hptr ?_ ?_ ?_ t
  · intro x hx; cases hx
  · intro head tail h1 h2 x hx
    rcases List.mem_cons.mp hx with h | h
    · rw [h]; exact h1
    · exact h2 x h
  · intro k v h; exact h

theorem roundTripFields_mem (fs : List (FieldInfo × GoType)) (h : roundTripFields fs = true) :
    ∀ p ∈ fs, p.1.exported = true ∧ roundTripShape p.2 = true := by
  induction fs with
  | nil => intro p hp; cases hp
  | cons a rest ih =>
    obtain ⟨f, t⟩ := a
    rw [roundTripFields, Bool.and_eq_true, Bool.and_eq_true] at h
    intro p hp
    rcases List.mem_cons.mp hp with hp | hp
    · rw [hp]; exact h.1
    · exact ih h.2 p hp

theorem hasTypeFields_zero (fs : List (FieldInfo × GoType))
    (h : ∀ p ∈ fs, hasType p.2 (zero p.2) = true) :
    hasTypeFields fs (zeroFields fs) = true := by
  induction fs with
  | nil => rfl
  | cons a rest ih =>
    obtain ⟨f, t⟩ := a
    rw [zeroFields, hasTypeFields, Bool.and_eq_true]
    exact ⟨h (f, t) (List.mem_cons_self _ _), ih (fun p hp => h p (List.mem_cons_of_mem _ hp))⟩

theorem roundTrip_struct (fs : List (FieldInfo × GoType))
    (h : roundTripShape (.struct fs) = true) :
    (fs.map (fun p => fieldKey p.1)).Nodup ∧ roundTripFields fs = true := by
  rw [roundTripShape, Bool.and_eq_true, decide_eq_true_eq] at h
  exact h

/-- The zero value of a type has that type. -/
theorem hasType_zero (t : GoType) : roundTripShape t = true → hasType t (zero t) = true := by
  induction t using goType_induction with
  | hstr => intro _; rfl
  | hnamed => intro _; rfl
  | hint k => intro _; cases k <;> decide
  | huint => intro h; simp [roundTripShape] at h
  | hother => intro h; simp [roundTripShape] at h
  | harr n e _ => intro h; simp [roundTripShape] at h
  | hslice e ih => intro _; simp [zero, hasType, hasTypeAll]
  | hmap k e _ _ =>
    intro h
    cases k <;> simp [roundTripShape] at h
    simp [zero, hasType, kindIsString, mapSorted, hasTypeEntries]
  | hstruct fs ih =>
    intro h
    have h2 := (roundTrip_struct fs h).2
    rw [zero, hasType]
    exact hasTypeFields_zero fs (fun p hp => ih p hp (roundTripFields_mem fs h2 p hp).2)
  | hptr e _ => intro h; simp [roundTripShape] at h


theorem hasTypeAll_mem (e : GoType) (xs : List GoValue) (h : hasTypeAll e xs = true) :
    ∀ x ∈ xs, hasType e x = true := by
  induction xs with
  | nil => intro x hx; cases hx
  | cons a rest ih =>
    rw [hasTypeAll, Bool.and_eq_true] at h
    intro x hx
    rcases List.mem_cons.mp hx with hx | hx
    · rw [hx]; exact h.1
    · exact ih h.2 x hx

theorem hasTypeEntries_mem (e : GoType) (m : List (List Nat × GoValue))
    (h : hasTypeEntries e m = true) : ∀ kv ∈ m, hasType e kv.2 = true := by
  induction m with
  | nil => intro x hx; cases hx
  | cons a rest ih =>
    obtain ⟨k, v⟩ := a
    rw [hasTypeEntries, Bool.and_eq_true] at h
    intro x hx
    rcases List.mem_cons.mp hx with hx | hx
    · rw [hx]; exact h.1
    · exact ih h.2 x hx

theorem wfEntries_of_mem (m : List (List Nat × BValue)) (h : ∀ kv ∈ m, wfValue kv.2 = true) :
    wfEntries m = true := by
  induction m with
  | nil => rfl
  | cons a rest ih =>
    obtain ⟨k, v⟩ := a
    rw [wfEntries, Bool.and_eq_true]
    exact ⟨h (k, v) (List.mem_cons_self _ _), ih (fun p hp => h p (List.mem_cons_of_mem _ hp))⟩

theorem wrapBits_id (k : IntKind) (v : Int) (h : inIntKind k v = true) :
    wrapBits k.bits v = v := by
  unfold inIntKind at h
  simp only [Bool.and_eq_true, decide_eq_true_eq] at h
  unfold wrapBits
  cases k <;> simp only [IntKind.bits] at h ⊢ <;> omega

theorem inInt64_of_kind (k : IntKind) (v : Int) (h : inIntKind k v = true) :
    inInt64 v = true := by
  unfold inIntKind at h
  simp only [Bool.and_eq_true, decide_eq_true_eq] at h
  unfold inInt64
  simp only [Bool.and_eq_true, decide_eq_true_eq]
  cases k <;> simp only [IntKind.bits] at h <;> omega

theorem marshal_slice (o : RangeOrders) (e : GoType) (xs : List GoValue) (list : List BValue)
    (he : roundTripShape e = true) (h : marshalSeq o 0 e xs = .ok list) :
    marshal o (.slice e) (.seq xs) = .ok (.BList list) := by
  have hne : e = GoType.uint8 → False := by
    intro h; rw [h] at he; simp [roundTripShape] at he
  rw [marshal, h]
  exact hne

theorem seq_roundTrip (e : GoType) (xs : List GoValue)
    (h : ∀ x ∈ xs, ∃ b, (∀ oM, ValidOrders oM → marshal oM e x = .ok b) ∧ wfValue b = true ∧
      ∀ oU, ValidOrders oU → unmarshal oU b e (zero e) = (x, .ok)) :
    ∃ bs, (∀ oM i, ValidOrders oM → marshalSeq oM i e xs = .ok bs) ∧ wfList bs = true ∧
      ∀ oU i, ValidOrders oU → unmarshalSeq oU i bs e = (xs, .ok) := by
  induction xs with
  | nil =>
    exact ⟨[], fun _ _ _ => by rw [marshalSeq], rfl, fun _ _ _ => by rw [unmarshalSeq]⟩
  | cons x rest ih =>
    obtain ⟨b, hb1, hb2, hb3⟩ := h x (List.mem_cons_self _ _)
    obtain ⟨bs, hbs1, hbs2, hbs3⟩ := ih (fun y hy => h y (List.mem_cons_of_mem _ hy))
    refine ⟨b :: bs, ?_, ?_, ?_⟩
    · intro oM i hM
      rw [marshalSeq, hb1 _ (validOrders_below oM hM _), hbs1 oM (i + 1) hM]
    · rw [wfList, hb2, hbs2]; rfl
    · intro oU i hU
      rw [unmarshalSeq, hb3 _ (validOrders_below oU hU _), hbs3 oU (i + 1) hU]

theorem marshalEntries_eq (o : RangeOrders) (e : GoType) (m : List (List Nat × GoValue)) :
    marshalEntries o e m = m.map (fun kv => (kv.1, marshal (below o (.key kv.1)) e kv.2)) := by
  induction m with
  | nil => rfl
  | cons a rest ih =>
    obtain ⟨k, v⟩ := a
    rw [marshalEntries, ih]; rfl

theorem unmarshalEntries_eq (o : RangeOrders) (m : List (List Nat × BValue)) :
    unmarshalEntries o m = m.map (fun kv => (kv.1, unmarshal (below o (.key kv.1)) kv.2)) := by
  induction m with
  | nil => rfl
  | cons a rest ih =>
    obtain ⟨k, v⟩ := a
    rw [unmarshalEntries, ih]; rfl

theorem marshalMapLoop_ok (es : List (List Nat × BValue)) (acc : List (List Nat × BValue)) :
    marshalMapLoop (es.map (fun kv => (kv.1, Except.ok kv.2))) acc
      = .ok (es.foldl (fun d kv => mapInsert kv.1 kv.2 d) acc) := by
  induction es generalizing acc with
  | nil => rfl
  | cons a rest ih =>
    obtain ⟨k, v⟩ := a
    simp only [List.map_cons, List.foldl_cons]
    rw [marshalMapLoop, ih]

/-- The loop of the map case over entries that are all bound, into a map with key type
`string`: every result is assigned. -/
theorem unmarshalMapLoop_ok (u : List Nat → BValue → GoType → GoValue → GoValue × Ending)
    (e : GoType) (es : List (List Nat × BValue))
    (acc : List (List Nat × GoValue))
    (h : ∀ kb ∈ es, (u kb.1 kb.2 e (zero e)).2 = .ok) :
    unmarshalMapLoop true e (es.map (fun kb => (kb.1, u kb.1 kb.2))) acc
      = ((es.map (fun kb => (kb.1, (u kb.1 kb.2 e (zero e)).1))).foldl
          (fun d kv => mapInsert kv.1 kv.2 d) acc, .ok) := by
  induction es generalizing acc with
  | nil => rfl
  | cons a rest ih =>
    obtain ⟨k, b⟩ := a
    simp only [List.map_cons, List.foldl_cons]
    have h1 := h (k, b) (List.mem_cons_self _ _)
    simp only [] at h1
    rw [unmarshalMapLoop]
    cases hr : u k b e (zero e) with
    | mk x err =>
      rw [hr] at h1
      simp only [] at h1
      subst h1
      simp only [if_true]
      exact ih _ (fun kb hkb => h kb (List.mem_cons_of_mem _ hkb))

theorem mapSorted_mapVals {α β : Type} (f : List Nat → α → β) (m : List (List Nat × α))
    (h : mapSorted m = true) : mapSorted (m.map (fun kv => (kv.1, f kv.1 kv.2))) = true := by
  rw [mapSorted_iff] at h ⊢
  rw [List.pairwise_map]
  exact h


theorem nodup_index_unique {α : Type} (l : List α) (h : l.Nodup) (i j : Nat) (a : α)
    (hi : l[i]? = some a) (hj : l[j]? = some a) : i = j := by
  rw [List.nodup_iff_getElem?_ne_getElem?] at h
  have hi' := (List.getElem?_eq_some.mp hi).1
  have hj' := (List.getElem?_eq_some.mp hj).1
  rcases Nat.lt_trichotomy i j with hlt | heq | hgt
  · exact absurd (hi.trans hj.symm) (h i j hlt hj')
  · exact heq
  · exact absurd (hj.trans hi.symm) (h j i hgt hi')

theorem matchingFields_nil (key : List Nat) (fts : List (FieldInfo × GoType)) (off : Nat)
    (h : key ∉ fts.map (fun p => fieldKey p.1)) : matchingFields key fts off = [] := by
  induction fts generalizing off with
  | nil => rfl
  | cons a rest ih =>
    obtain ⟨f, t⟩ := a
    simp only [List.map_cons, List.mem_cons, not_or] at h
    rw [matchingFields, if_neg (fun heq => h.1 heq.symm)]
    exact ih _ h.2

theorem matchingFields_unique (fts : List (FieldInfo × GoType)) (off i : Nat) (f : FieldInfo)
    (t : GoType) (hnd : (fts.map (fun p => fieldKey p.1)).Nodup) (hi : fts[i]? = some (f, t)) :
    matchingFields (fieldKey f) fts off = [(off + i, f, t)] := by
  induction fts generalizing off i with
  | nil => simp at hi
  | cons a rest ih =>
    obtain ⟨f0, t0⟩ := a
    simp only [List.map_cons, List.nodup_cons] at hnd
    cases i with
    | zero =>
      simp only [List.getElem?_cons_zero, Option.some.injEq, Prod.mk.injEq] at hi
      obtain ⟨h1, h2⟩ := hi
      subst h1; subst h2
      rw [matchingFields, if_pos rfl, matchingFields_nil _ _ _ hnd.1]
      rfl
    | succ i' =>
      simp only [List.getElem?_cons_succ] at hi
      have hmem : fieldKey f ∈ rest.map (fun p => fieldKey p.1) := by
        rw [List.mem_map]
        exact ⟨(f, t), List.getElem?_mem hi, rfl⟩
      have hne : ¬ fieldKey f0 = fieldKey f := by
        intro heq; rw [heq] at hnd; exact hnd.1 hmem
      rw [matchingFields, if_neg hne, ih (off + 1) i' hnd.2 hi]
      rw [show off + 1 + i' = off + (i' + 1) by omega]

/-- When the keys of the fields are pairwise distinct, the key of a field finds that field. -/
theorem findField_of_nodup (fts : List (FieldInfo × GoType)) (i : Nat) (f : FieldInfo)
    (t : GoType) (hnd : (fts.map (fun p => fieldKey p.1)).Nodup) (hi : fts[i]? = some (f, t)) :
    findField fts (fieldKey f) = some (i, f, t) := by
  unfold findField
  rw [matchingFields_unique fts 0 i f t hnd hi]
  simp

theorem bindField_found (fts : List (FieldInfo × GoType)) (key : List Nat)
    (bind : GoType → GoValue → GoValue × Ending) (values : List GoValue)
    (i : Nat) (f : FieldInfo) (t : GoType)
    (hfind : findField fts key = some (i, f, t)) (hexp : f.exported = true)
    (hrt : roundTripShape t = true) :
    bindField fts key bind values
      = (values.set i (bind t (values.getD i (zero t))).1, (bind t (values.getD i (zero t))).2) := by
  unfold bindField
  rw [hfind]
  simp only [hexp, if_true]
  cases t <;> first | rfl | (simp [roundTripShape] at hrt)

theorem hasTypeFields_zip (fts : List (FieldInfo × GoType)) (vs : List GoValue)
    (h : hasTypeFields fts vs = true) :
    fts.length = vs.length ∧ ∀ p ∈ fts.zip vs, hasType p.1.2 p.2 = true := by
  induction fts generalizing vs with
  | nil =>
    cases vs with
    | nil => exact ⟨rfl, fun p hp => by simp at hp⟩
    | cons x xs => simp [hasTypeFields] at h
  | cons a rest ih =>
    obtain ⟨f, t⟩ := a
    cases vs with
    | nil => simp [hasTypeFields] at h
    | cons x xs =>
      rw [hasTypeFields, Bool.and_eq_true] at h
      obtain ⟨h1, h2⟩ := ih xs h.2
      refine ⟨by simp [h1], ?_⟩
      intro p hp
      rw [List.zip_cons_cons] at hp
      rcases List.mem_cons.mp hp with hp | hp
      · rw [hp]; exact h.1
      · exact h2 p hp


theorem marshalFields_ok (g : (FieldInfo × GoType) × GoValue → BValue)
    (fts : List (FieldInfo × GoType)) (vs : List GoValue)
    (h : ∀ p ∈ fts.zip vs, ∀ o, ValidOrders o → marshal o p.1.2 p.2 = .ok (g p)) :
    ∀ (o : RangeOrders) (i : Nat) (acc : List (List Nat × BValue)), ValidOrders o →
    marshalFields o i fts vs acc
      = .ok (((fts.zip vs).map (fun p => (fieldKey p.1.1, g p))).foldl
          (fun d kv => mapInsert kv.1 kv.2 d) acc) := by
  induction fts generalizing vs with
  | nil =>
    intro o i acc _
    cases vs <;> simp [marshalFields]
  | cons a rest ih =>
    obtain ⟨f, t⟩ := a
    cases vs with
    | nil => intro o i acc _; simp [marshalFields]
    | cons x xs =>
      intro o i acc ho
      rw [marshalFields]
      have h1 := h ((f, t), x) (by simp) _ (validOrders_below o ho (.index i))
      simp only [] at h1
      rw [h1]
      simp only [List.zip_cons_cons, List.map_cons, List.foldl_cons]
      exact ih xs (fun p hp => h p (by rw [List.zip_cons_cons]; exact List.mem_cons_of_mem _ hp))
        o (i + 1) _ ho

/-- The loop of the struct case over entries that belong to fields of the record: it returns
`nil`, sets the field of every visited key to the marshalled value and leaves the other
fields as they were. -/
theorem structLoop_spec (u : List Nat → BValue → GoType → GoValue → GoValue × Ending)
    (fts : List (FieldInfo × GoType))
    (vs : List GoValue)
    (hnd : (fts.map (fun p => fieldKey p.1)).Nodup)
    (hrt : ∀ p ∈ fts, p.1.exported = true ∧ roundTripShape p.2 = true)
    (V : List (List Nat × BValue))
    (hV : ∀ kb ∈ V, ∃ (i : Nat) (f : FieldInfo) (t : GoType) (x : GoValue), fts[i]? = some (f, t) ∧ vs[i]? = some x ∧ kb.1 = fieldKey f ∧
      hasType t x = true ∧
      ∀ cur, hasType t cur = true → u kb.1 kb.2 t cur = (x, .ok)) :
    ∀ values : List GoValue, values.length = fts.length →
      (∀ (i : Nat) f t c, fts[i]? = some (f, t) → values[i]? = some c → hasType t c = true) →
      ∃ values' : List GoValue, unmarshalStructLoop fts (V.map (fun kb => (kb.1, u kb.1 kb.2))) values
          = (values', .ok) ∧
        values'.length = fts.length ∧
        (∀ (i : Nat) f t c, fts[i]? = some (f, t) → values'[i]? = some c → hasType t c = true) ∧
        (∀ (i : Nat) f t, fts[i]? = some (f, t) →
          (fieldKey f ∈ V.map Prod.fst → values'[i]? = vs[i]?) ∧
          (fieldKey f ∉ V.map Prod.fst → values'[i]? = values[i]?)) := by
  induction V with
  | nil =>
    intro values hlen htyped
    refine ⟨values, rfl, hlen, htyped, ?_⟩
    intro i f t _
    exact ⟨fun h => by simp at h, fun _ => rfl⟩
  | cons e V' ih =>
    obtain ⟨k, b⟩ := e
    intro values hlen htyped
    obtain ⟨i, f, t, x, hfi, hvi, hk, htx, hbind⟩ := hV (k, b) (List.mem_cons_self _ _)
    simp only [] at hk hbind
    have hfind := findField_of_nodup fts i f t hnd hfi
    have hfm := hrt (f, t) (List.getElem?_mem hfi)
    have hil : i < values.length := by
      rw [hlen]; exact (List.getElem?_eq_some.mp hfi).1
    obtain ⟨c, hc⟩ : ∃ c, values[i]? = some c := ⟨values[i], List.getElem?_eq_getElem hil⟩
    have hgetD : values.getD i (zero t) = c := by
      rw [List.getD_eq_getElem?_getD, hc]; rfl
    have hb := hbind c (htyped i f t c hfi hc)
    simp only [List.map_cons]
    rw [unmarshalStructLoop, bindField_found fts k _ values i f t (hk ▸ hfind) hfm.1 hfm.2]
    rw [hgetD, hb]
    simp only []
    have htyped1 : ∀ (j : Nat) f' t' c', fts[j]? = some (f', t') → (values.set i x)[j]? = some c' →
        hasType t' c' = true := by
      intro j f' t' c' hfj hcj
      rw [List.getElem?_set] at hcj
      split at hcj
      · rename_i hij
        subst hij
        rw [hfi] at hfj
        simp only [Option.some.injEq, Prod.mk.injEq] at hfj hcj
        rw [← hfj.2, ← hcj]; exact htx
      · exact htyped j f' t' c' hfj hcj
    obtain ⟨values', h1, h2, h3, h4⟩ :=
      ih (fun kb hkb => hV kb (List.mem_cons_of_mem _ hkb)) (values.set i x)
        (by rw [List.length_set]; exact hlen) htyped1
    refine ⟨values', h1, h2, h3, ?_⟩
    intro j f' t' hfj
    obtain ⟨h4a, h4b⟩ := h4 j f' t' hfj
    constructor
    · intro hmem
      simp only [List.map_cons, List.mem_cons] at hmem
      by_cases hin : fieldKey f' ∈ V'.map Prod.fst
      · exact h4a hin
      · rcases hmem with hmem | hmem
        · -- the key is the one just bound, so `j = i`
          have hkk : fieldKey f' = fieldKey f := hmem.trans hk
          have hji : j = i := by
            apply nodup_index_unique _ hnd j i (fieldKey f')
            · rw [List.getElem?_map, hfj]; rfl
            · rw [List.getElem?_map, hfi, hkk]; rfl
          rw [h4b hin, hji, List.getElem?_set_self hil, hvi]
        · exact absurd hmem hin
    · intro hmem
      simp only [List.map_cons, List.mem_cons, not_or] at hmem
      rw [h4b hmem.2]
      have hji : i ≠ j := by
        intro heq
        subst heq
        rw [hfi] at hfj
        simp only [Option.some.injEq, Prod.mk.injEq] at hfj
        rw [← hfj.1] at hmem
        exact hmem.1 hk.symm
      rw [List.getElem?_set_ne hji]


/-! ## Lemmas: binding a marshalled value -/

theorem unmarshal_dict_map_ok (o : RangeOrders) (D : List (List Nat × BValue)) (e : GoType)
    (cur : GoValue) (mapType : List (List Nat × GoValue))
    (h : unmarshalMapLoop true e (rangeOver (o []) (unmarshalEntries o D)) [] = (mapType, .ok)) :
    unmarshal o (.BDict D) (.map .string e) cur = (.map mapType, .ok) := by
  rw [unmarshal]
  simp only [kindIsString, stringAssignable, if_true]
  rw [h]

theorem unmarshal_dict_struct (o : RangeOrders) (D : List (List Nat × BValue))
    (fts : List (FieldInfo × GoType)) (cs : List GoValue) :
    unmarshal o (.BDict D) (.struct fts) (.struct cs) =
      ((GoValue.struct (unmarshalStructLoop fts (rangeOver (o []) (unmarshalEntries o D)) cs).1),
        (unmarshalStructLoop fts (rangeOver (o []) (unmarshalEntries o D)) cs).2) := by
  rw [unmarshal]

theorem unmarshal_list_slice_ok (o : RangeOrders) (l : List BValue) (e : GoType)
    (cur : GoValue) (elems : List GoValue) (h : unmarshalSeq o 0 l e = (elems, .ok)) :
    unmarshal o (.BList l) (.slice e) cur = (.seq elems, .ok) := by
  rw [unmarshal, h]

/-- The binder gives a value back: on a shape that round-trips, `marshal` succeeds with a
well-formed tree, the same for all orders of its ranges, and `unmarshal` of that tree into any
target of the same type succeeds and leaves the target equal to the value, whatever the
orders of its ranges. -/
theorem unmarshal_marshal (v : GoValue) :
    ∀ t, roundTripShape t = true → hasType t v = true →
      ∃ b, (∀ oM, ValidOrders oM → marshal oM t v = .ok b) ∧ wfValue b = true ∧
        ∀ oU, ValidOrders oU → ∀ cur, hasType t cur = true →
          unmarshal oU b t cur = (v, .ok) := by
  induction v using goValue_induction with
  | hstr s =>
    intro t hrt hty
    cases t <;> try (simp [hasType, roundTripShape] at hty hrt)
    · exact ⟨.BString s, fun _ _ => by rw [marshal], rfl, fun _ _ cur _ => by
        rw [unmarshal]; rfl⟩
    · exact ⟨.BString s, fun _ _ => by rw [marshal], rfl, fun _ _ cur _ => by
        rw [unmarshal]; rfl⟩
  | hint i =>
    intro t hrt hty
    cases t <;> try (simp [hasType, roundTripShape] at hty hrt)
    rename_i k
    refine ⟨.BInt i, fun _ _ => by rw [marshal], ?_, fun _ _ cur _ => ?_⟩
    · rw [wfValue]; exact inInt64_of_kind k i hty
    · rw [unmarshal, wrapBits_id k i hty]
  | huint n =>
    intro t hrt hty
    cases t <;> try (simp [hasType, roundTripShape] at hty hrt)
  | hother =>
    intro t hrt hty
    cases t <;> try (simp [hasType, roundTripShape] at hty hrt)
  | hseq xs ih =>
    intro t hrt hty
    cases t <;> try (simp [hasType, roundTripShape] at hty hrt)
    rename_i e
    have hmem := hasTypeAll_mem e xs hty
    have hz := hasType_zero e hrt
    obtain ⟨bs, h1, h2, h3⟩ := seq_roundTrip e xs (fun x hx => by
      obtain ⟨b, hb1, hb2, hb3⟩ := ih x hx e hrt (hmem x hx)
      exact ⟨b, hb1, hb2, fun oU hU => hb3 oU hU _ hz⟩)
    refine ⟨.BList bs, fun oM hM => ?_, ?_, fun oU hU cur _ => ?_⟩
    · exact marshal_slice oM e xs bs hrt (h1 oM 0 hM)
    · rw [wfValue]; exact h2
    · exact unmarshal_list_slice_ok oU bs e cur xs (h3 oU 0 hU)
  | hmap m ih =>
    intro t hrt hty
    cases t <;> try (simp [hasType, roundTripShape] at hty hrt)
    rename_i k e
    cases k <;> try (simp [roundTripShape] at hrt)
    obtain ⟨hsorted, htyE⟩ : mapSorted m = true ∧ hasTypeEntries e m = true := by
      simpa [hasType, kindIsString] using hty
    have hmem := hasTypeEntries_mem e m htyE
    have hz := hasType_zero e hrt
    have hex : ∀ kv : List Nat × GoValue, ∃ b, kv ∈ m →
        ((∀ oM, ValidOrders oM → marshal oM e kv.2 = .ok b) ∧ wfValue b = true ∧
          ∀ oU, ValidOrders oU → unmarshal oU b e (zero e) = (kv.2, .ok)) := by
      intro kv
      by_cases hkv : kv ∈ m
      · obtain ⟨b, hb1, hb2, hb3⟩ := ih kv hkv e hrt (hmem kv hkv)
        exact ⟨b, fun _ => ⟨hb1, hb2, fun oU hU => hb3 oU hU _ hz⟩⟩
      · exact ⟨.BInt 0, fun h => absurd h hkv⟩
    choose g hg using hex
    -- the dictionary `marshal` returns
    have hDsorted : mapSorted (m.map (fun kv => (kv.1, g (kv.1, kv.2)))) = true :=
      mapSorted_mapVals (fun k x => g (k, x)) m hsorted
    have hmarshal : ∀ oM, ValidOrders oM → marshal oM (.map .string e) (.map m)
        = .ok (.BDict (m.map (fun kv => (kv.1, g (kv.1, kv.2))))) := by
      intro oM hM
      rw [marshal]
      simp only [kindIsString, if_true]
      rw [marshalEntries_eq]
      have h1 : m.map (fun kv => (kv.1, marshal (below oM (.key kv.1)) e kv.2))
          = m.map (fun kv => (kv.1, (fun (k : List Nat) (x : GoValue) =>
              (Except.ok (g (k, x)) : Except Err BValue)) kv.1 kv.2)) := by
        apply List.map_congr_left
        intro kv hkv
        rw [(hg kv hkv).1 _ (validOrders_below oM hM _)]
      rw [h1, rangeOver_mapVals (oM [])
        (fun (k : List Nat) (x : GoValue) => (Except.ok (g (k, x)) : Except Err BValue))]
      have h2 : (rangeOver (oM []) m).map (fun kv => (kv.1, (fun (k : List Nat) (x : GoValue) =>
            (Except.ok (g (k, x)) : Except Err BValue)) kv.1 kv.2))
          = ((rangeOver (oM []) m).map (fun kv => (kv.1, g (kv.1, kv.2)))).map
              (fun kv => (kv.1, Except.ok kv.2)) := by
        rw [List.map_map]; rfl
      rw [h2, marshalMapLoop_ok]
      have hp : ((rangeOver (oM []) m).map (fun kv => (kv.1, g (kv.1, kv.2)))).Perm
          (m.map (fun kv => (kv.1, g (kv.1, kv.2)))) :=
        (rangeOver_perm (oM []) (hM []) m hsorted).map _
      rw [foldl_insert_of_perm _ _ hDsorted hp]
    refine ⟨_, hmarshal, ?_, fun oU hU cur _ => ?_⟩
    · rw [wfValue, Bool.and_eq_true]
      refine ⟨hDsorted, wfEntries_of_mem _ ?_⟩
      intro kb hkb
      rw [List.mem_map] at hkb
      obtain ⟨kv, hkv, rfl⟩ := hkb
      exact (hg kv hkv).2.1
    · apply unmarshal_dict_map_ok
      rw [unmarshalEntries_eq,
        rangeOver_mapVals (oU [])
          (fun (k : List Nat) (b : BValue) => unmarshal (below oU (.key k)) b)]
      have hpD := rangeOver_perm (oU []) (hU []) _ hDsorted
      have hbound : ∀ kb ∈ rangeOver (oU []) (m.map (fun kv => (kv.1, g (kv.1, kv.2)))),
          ∃ kv ∈ m, kb = (kv.1, g kv) ∧
            unmarshal (below oU (.key kb.1)) kb.2 e (zero e) = (kv.2, .ok) := by
        intro kb hkb
        have := hpD.mem_iff.mp hkb
        rw [List.mem_map] at this
        obtain ⟨kv, hkv, rfl⟩ := this
        exact ⟨kv, hkv, rfl, (hg kv hkv).2.2 _ (validOrders_below oU hU _)⟩
      rw [unmarshalMapLoop_ok (fun k b => unmarshal (below oU (.key k)) b) e _ []
        (fun kb hkb => by
          obtain ⟨kv, _, _, h⟩ := hbound kb hkb
          simp only []
          rw [h])]
      have hp2 : ((rangeOver (oU []) (m.map (fun kv => (kv.1, g (kv.1, kv.2))))).map
          (fun kb => (kb.1, (unmarshal (below oU (.key kb.1)) kb.2 e (zero e)).1))).Perm m := by
        refine (hpD.map _).trans ?_
        rw [List.map_map]
        have : m.map ((fun kb : List Nat × BValue =>
              (kb.1, (unmarshal (below oU (.key kb.1)) kb.2 e (zero e)).1))
            ∘ (fun kv : List Nat × GoValue => (kv.1, g (kv.1, kv.2)))) = m := by
          conv_rhs => rw [← List.map_id m]
          apply List.map_congr_left
          intro kv hkv
          simp only [Function.comp, id]
          rw [(hg kv hkv).2.2 _ (validOrders_below oU hU _)]
        rw [this]
      rw [foldl_insert_of_perm _ m hsorted hp2]
  | hstruct vs ih =>
    intro t hrt hty
    cases t
    case struct fts =>
      obtain ⟨hnd, hrf⟩ := roundTrip_struct fts hrt
      have hrtm := roundTripFields_mem fts hrf
      have hty' : hasTypeFields fts vs = true := by simpa [hasType] using hty
      obtain ⟨hlen, hzip⟩ := hasTypeFields_zip fts vs hty'
      have hex : ∀ p : (FieldInfo × GoType) × GoValue, ∃ b, p ∈ fts.zip vs →
          ((∀ oM, ValidOrders oM → marshal oM p.1.2 p.2 = .ok b) ∧ wfValue b = true ∧
            ∀ oU, ValidOrders oU → ∀ cur, hasType p.1.2 cur = true →
              unmarshal oU b p.1.2 cur = (p.2, .ok)) := by
        intro p
        by_cases hp : p ∈ fts.zip vs
        · have h1 : p.1 ∈ fts := (List.of_mem_zip hp).1
          have h2 : p.2 ∈ vs := (List.of_mem_zip hp).2
          obtain ⟨b, hb⟩ := ih p.2 h2 p.1.2 (hrtm p.1 h1).2 (hzip p hp)
          exact ⟨b, fun _ => hb⟩
        · exact ⟨.BInt 0, fun h => absurd h hp⟩
      choose g hg using hex
      have hEkeys : ((fts.zip vs).map (fun p => (fieldKey p.1.1, g p))).map Prod.fst
          = fts.map (fun p => fieldKey p.1) := by
        rw [List.map_map]
        have : (Prod.fst ∘ fun p : (FieldInfo × GoType) × GoValue => (fieldKey p.1.1, g p))
            = (fun q : FieldInfo × GoType => fieldKey q.1) ∘ Prod.fst := by
          funext p; rfl
        rw [this, ← List.map_map, List.map_fst_zip _ _ (by omega)]
      obtain ⟨hDs, hDp⟩ := foldl_insert_perm ((fts.zip vs).map (fun p => (fieldKey p.1.1, g p)))
        [] List.Pairwise.nil (by
          rw [List.append_nil]; unfold mapKeys; rw [hEkeys]; exact hnd)
      rw [List.append_nil] at hDp
      have hDsorted := (mapSorted_iff _).mpr hDs
      have hmarshal : ∀ oM, ValidOrders oM → marshal oM (.struct fts) (.struct vs)
          = .ok (.BDict (((fts.zip vs).map (fun p => (fieldKey p.1.1, g p))).foldl
              (fun d kv => mapInsert kv.1 kv.2 d) [])) := by
        intro oM hM
        rw [marshal, marshalFields_ok g fts vs (fun p hp => (hg p hp).1) oM 0 [] hM]
      refine ⟨_, hmarshal, ?_, ?_⟩
      · rw [wfValue, Bool.and_eq_true]
        refine ⟨hDsorted, wfEntries_of_mem _ ?_⟩
        intro kb hkb
        have := hDp.mem_iff.mp hkb
        rw [List.mem_map] at this
        obtain ⟨p, hp, rfl⟩ := this
        exact (hg p hp).2.1
      · intro oU hU cur hcur
        cases cur <;> try (simp [hasType] at hcur)
        rename_i cs
        have hcs : hasTypeFields fts cs = true := by simpa [hasType] using hcur
        obtain ⟨hlenc, hzipc⟩ := hasTypeFields_zip fts cs hcs
        rw [unmarshal_dict_struct, unmarshalEntries_eq,
          rangeOver_mapVals (oU [])
            (fun (k : List Nat) (b : BValue) => unmarshal (below oU (.key k)) b)]
        have hpV := rangeOver_perm (oU []) (hU []) _ hDsorted
        have hV : ∀ kb ∈ rangeOver (oU []) (((fts.zip vs).map (fun p => (fieldKey p.1.1, g p))).foldl
              (fun d kv => mapInsert kv.1 kv.2 d) []),
            ∃ (i : Nat) (f : FieldInfo) (t : GoType) (x : GoValue),
              fts[i]? = some (f, t) ∧ vs[i]? = some x ∧ kb.1 = fieldKey f ∧
              hasType t x = true ∧
              ∀ cur, hasType t cur = true →
                (fun (k : List Nat) (b : BValue) => unmarshal (below oU (.key k)) b)
                  kb.1 kb.2 t cur = (x, .ok) := by
          intro kb hkb
          have := hDp.mem_iff.mp (hpV.mem_iff.mp hkb)
          rw [List.mem_map] at this
          obtain ⟨p, hp, rfl⟩ := this
          obtain ⟨i, hi⟩ := List.getElem?_of_mem hp
          have hz := List.getElem?_zip_eq_some.mp hi
          exact ⟨i, p.1.1, p.1.2, p.2, hz.1, hz.2, rfl, hzip p hp,
            (hg p hp).2.2 _ (validOrders_below oU hU _)⟩
        have htypedc : ∀ (i : Nat) f t c, fts[i]? = some (f, t) → cs[i]? = some c →
            hasType t c = true := by
          intro i f t c hf hc
          have : (fts.zip cs)[i]? = some ((f, t), c) :=
            List.getElem?_zip_eq_some.mpr ⟨hf, hc⟩
          exact hzipc _ (List.getElem?_mem this)
        obtain ⟨values', h1, h2, h3, h4⟩ :=
          structLoop_spec (fun (k : List Nat) (b : BValue) => unmarshal (below oU (.key k)) b)
            fts vs hnd hrtm _ hV cs hlenc.symm htypedc
        rw [h1]
        have hvals : values' = vs := by
          apply List.ext_getElem?
          intro i
          by_cases hi : i < fts.length
          · have hfi : fts[i]? = some (fts[i].1, fts[i].2) := List.getElem?_eq_getElem hi
            refine (h4 i _ _ hfi).1 ?_
            have hk : fieldKey fts[i].1 ∈ fts.map (fun p => fieldKey p.1) :=
              List.mem_map.mpr ⟨fts[i], List.getElem_mem _, rfl⟩
            rw [← hEkeys] at hk
            exact ((hpV.trans hDp).map Prod.fst).mem_iff.mpr hk
          · rw [List.getElem?_eq_none (by omega), List.getElem?_eq_none (by omega)]
        rw [hvals]
    all_goals simp [hasType, roundTripShape] at hty hrt
  | hptr o ih =>
    intro t hrt hty
    cases t <;> try (simp [hasType, roundTripShape] at hty hrt)

/-! ## Lemmas: the order of the ranges does not change a successful bind -/

theorem matchingFields_mem (key : List Nat) (fts : List (FieldInfo × GoType)) (off : Nat) :
    ∀ e ∈ matchingFields key fts off,
      ∃ j, e.1 = off + j ∧ fts[j]? = some (e.2.1, e.2.2) ∧ fieldKey e.2.1 = key := by
  induction fts generalizing off with
  | nil => intro e he; simp [matchingFields] at he
  | cons a rest ih =>
    obtain ⟨f, t⟩ := a
    intro e he
    rw [matchingFields] at he
    split at he
    · rename_i hk
      rcases List.mem_cons.mp he with he | he
      · subst he
        exact ⟨0, rfl, by simp, hk⟩
      · obtain ⟨j, h1, h2, h3⟩ := ih (off + 1) e he
        exact ⟨j + 1, by omega, by simpa using h2, h3⟩
    · obtain ⟨j, h1, h2, h3⟩ := ih (off + 1) e he
      exact ⟨j + 1, by omega, by simpa using h2, h3⟩

/-- The field `FieldByNameFunc` finds for a key is a field of the record with that key. -/
theorem findField_some (fts : List (FieldInfo × GoType)) (key : List Nat) (i : Nat)
    (f : FieldInfo) (t : GoType) (h : findField fts key = some (i, f, t)) :
    fts[i]? = some (f, t) ∧ fieldKey f = key := by
  unfold findField at h
  cases hm : matchingFields key fts 0 with
  | nil => rw [hm] at h; simp at h
  | cons e rest =>
    cases rest with
    | nil =>
      rw [hm] at h
      simp only [Option.some.injEq] at h
      obtain ⟨j, h1, h2, h3⟩ := matchingFields_mem key fts 0 e (by rw [hm]; simp)
      rw [h] at h1 h2 h3
      simp only [Nat.zero_add] at h1
      rw [← h1] at h2
      exact ⟨h2, h3⟩
    | cons e' rest' => rw [hm] at h; simp at h

theorem getD_set_ne (l : List GoValue) (i j : Nat) (a d : GoValue) (h : i ≠ j) :
    (l.set i a).getD j d = l.getD j d := by
  rw [List.getD_eq_getElem?_getD, List.getD_eq_getElem?_getD, List.getElem?_set_ne h]

/-- The body of the loop of the struct case either changes nothing and returns `nil`, or
rewrites one field, the one found for the key, from the value that field holds. -/
theorem bindField_local (fts : List (FieldInfo × GoType)) (key : List Nat)
    (bind : GoType → GoValue → GoValue × Ending) :
    (∀ values, bindField fts key bind values = (values, .ok)) ∨
    (∃ (i : Nat) (f : FieldInfo) (t : GoType) (g : GoValue → GoValue × Ending),
      findField fts key = some (i, f, t) ∧
      ∀ values, bindField fts key bind values
        = (values.set i (g (values.getD i (zero t))).1, (g (values.getD i (zero t))).2)) := by
  cases hf : findField fts key with
  | none =>
    left
    intro values
    unfold bindField
    rw [hf]
  | some found =>
    obtain ⟨i, f, t⟩ := found
    cases hexp : f.exported with
    | false =>
      left
      intro values
      unfold bindField
      rw [hf]
      simp [hexp]
    | true =>
      right
      cases t with
      | ptr e =>
        refine ⟨i, f, .ptr e, fun _ => (.ptr (some (bind e (zero e)).1), (bind e (zero e)).2),
          rfl, ?_⟩
        intro values
        unfold bindField
        rw [hf]
        simp [hexp]
      | string =>
        refine ⟨i, f, .string, fun c => bind .string c, rfl, ?_⟩
        intro values; unfold bindField; rw [hf]; simp [hexp]
      | namedString =>
        refine ⟨i, f, .namedString, fun c => bind .namedString c, rfl, ?_⟩
        intro values; unfold bindField; rw [hf]; simp [hexp]
      | int k =>
        refine ⟨i, f, (.int k), fun c => bind (.int k) c, rfl, ?_⟩
        intro values; unfold bindField; rw [hf]; simp [hexp]
      | uint8 =>
        refine ⟨i, f, .uint8, fun c => bind .uint8 c, rfl, ?_⟩
        intro values; unfold bindField; rw [hf]; simp [hexp]
      | other =>
        refine ⟨i, f, .other, fun c => bind .other c, rfl, ?_⟩
        intro values; unfold bindField; rw [hf]; simp [hexp]
      | array n e =>
        refine ⟨i, f, (.array n e), fun c => bind (.array n e) c, rfl, ?_⟩
        intro values; unfold bindField; rw [hf]; simp [hexp]
      | slice e =>
        refine ⟨i, f, (.slice e), fun c => bind (.slice e) c, rfl, ?_⟩
        intro values; unfold bindField; rw [hf]; simp [hexp]
      | map k e =>
        refine ⟨i, f, (.map k e), fun c => bind (.map k e) c, rfl, ?_⟩
        intro values; unfold bindField; rw [hf]; simp [hexp]
      | struct fs =>
        refine ⟨i, f, (.struct fs), fun c => bind (.struct fs) c, rfl, ?_⟩
        intro values; unfold bindField; rw [hf]; simp [hexp]

/-- Two entries with different keys can be bound in either order: when both binds succeed
one way, they succeed the other way with the same fields. -/
theorem bindField_swap (fts : List (FieldInfo × GoType)) (k1 k2 : List Nat)
    (b1 b2 : GoType → GoValue → GoValue × Ending) (hne : k1 ≠ k2)
    (values v1 v2 : List GoValue)
    (h1 : bindField fts k1 b1 values = (v1, .ok))
    (h2 : bindField fts k2 b2 v1 = (v2, .ok)) :
    ∃ v1', bindField fts k2 b2 values = (v1', .ok) ∧ bindField fts k1 b1 v1' = (v2, .ok) := by
  rcases bindField_local fts k1 b1 with hA | ⟨i1, f1, t1, g1, hf1, hA⟩
  · rw [hA] at h1
    simp only [Prod.mk.injEq, and_true] at h1
    subst h1
    exact ⟨v2, h2, hA v2⟩
  · rcases bindField_local fts k2 b2 with hB | ⟨i2, f2, t2, g2, hf2, hB⟩
    · rw [hB] at h2
      simp only [Prod.mk.injEq, and_true] at h2
      subst h2
      exact ⟨values, hB values, h1⟩
    · have hi : i1 ≠ i2 := by
        intro heq
        have e1 := findField_some fts k1 i1 f1 t1 hf1
        have e2 := findField_some fts k2 i2 f2 t2 hf2
        rw [heq, e2.1] at e1
        simp only [Option.some.injEq, Prod.mk.injEq] at e1
        rw [e1.1.1] at e2
        exact hne (e1.2.symm.trans e2.2)
      rw [hA] at h1
      rw [hB] at h2
      simp only [Prod.mk.injEq] at h1 h2
      obtain ⟨h1a, h1b⟩ := h1
      obtain ⟨h2a, h2b⟩ := h2
      rw [← h1a, getD_set_ne _ _ _ _ _ hi] at h2a h2b
      refine ⟨values.set i2 (g2 (values.getD i2 (zero t2))).1, ?_, ?_⟩
      · rw [hB, h2b]
      · rw [hA, getD_set_ne _ _ _ _ _ (Ne.symm hi), h1b, ← h2a]
        rw [List.set_comm _ _ _ (Ne.symm hi)]

theorem structLoop_cons_ok (fts : List (FieldInfo × GoType)) (k : List Nat)
    (b : GoType → GoValue → GoValue × Ending)
    (rest : List (List Nat × (GoType → GoValue → GoValue × Ending)))
    (values r : List GoValue) :
    unmarshalStructLoop fts ((k, b) :: rest) values = (r, .ok) ↔
      ∃ v1, bindField fts k b values = (v1, .ok) ∧ unmarshalStructLoop fts rest v1 = (r, .ok) := by
  rw [unmarshalStructLoop]
  cases hb : bindField fts k b values with
  | mk v1 err =>
    cases err with
    | ok =>
      simp only []
      constructor
      · intro h; exact ⟨v1, rfl, h⟩
      · rintro ⟨v1', h1, h2⟩
        simp only [Prod.mk.injEq, and_true] at h1
        rw [h1]; exact h2
    | error e =>
      simp only []
      constructor
      · intro h; simp at h
      · rintro ⟨v1', h1, _⟩; simp at h1
    | panic =>
      simp only []
      constructor
      · intro h; simp at h
      · rintro ⟨v1', h1, _⟩; simp at h1

/-- A successful loop of the struct case over entries with pairwise distinct keys gives the
same fields in every order of the visit. -/
theorem structLoop_perm (fts : List (FieldInfo × GoType))
    (V1 V2 : List (List Nat × (GoType → GoValue → GoValue × Ending)))
    (hp : V1.Perm V2) :
    (V1.map Prod.fst).Nodup → ∀ values r,
      unmarshalStructLoop fts V1 values = (r, .ok) →
      unmarshalStructLoop fts V2 values = (r, .ok) := by
  induction hp with
  | nil => intro _ values r h; exact h
  | cons x _ ih =>
    obtain ⟨k, b⟩ := x
    intro hnd values r h
    simp only [List.map_cons, List.nodup_cons] at hnd
    rw [structLoop_cons_ok] at h ⊢
    obtain ⟨v1, h1, h2⟩ := h
    exact ⟨v1, h1, ih hnd.2 v1 r h2⟩
  | swap x y l =>
    obtain ⟨k1, b1⟩ := x
    obtain ⟨k2, b2⟩ := y
    intro hnd values r h
    simp only [List.map_cons, List.nodup_cons, List.mem_cons, not_or] at hnd
    rw [structLoop_cons_ok] at h
    obtain ⟨v1, h1, h2⟩ := h
    rw [structLoop_cons_ok] at h2
    obtain ⟨v2, h3, h4⟩ := h2
    obtain ⟨v1', h5, h6⟩ := bindField_swap fts k2 k1 b2 b1 hnd.1.1 values v1 v2 h1 h3
    rw [structLoop_cons_ok]
    refine ⟨v1', h5, ?_⟩
    rw [structLoop_cons_ok]
    exact ⟨v2, h6, h4⟩
  | trans hp1 _ ih1 ih2 =>
    intro hnd values r h
    have hnd2 := (hp1.map Prod.fst).nodup_iff.mp hnd
    exact ih2 hnd2 values r (ih1 hnd values r h)


/-- The body of the loop of the struct case with another binder that succeeds wherever the
first one does, with the same result. -/
theorem bindField_congr (fts : List (FieldInfo × GoType)) (key : List Nat)
    (bA bB : GoType → GoValue → GoValue × Ending)
    (hAB : ∀ t c x, bA t c = (x, .ok) → bB t c = (x, .ok))
    (values v1 : List GoValue) (h : bindField fts key bA values = (v1, .ok)) :
    bindField fts key bB values = (v1, .ok) := by
  unfold bindField at h ⊢
  cases hf : findField fts key with
  | none => rw [hf] at h; exact h
  | some found =>
    obtain ⟨i, f, t⟩ := found
    rw [hf] at h
    simp only [] at h ⊢
    cases hexp : f.exported with
    | false => rw [hexp] at h; exact h
    | true =>
      rw [hexp] at h
      simp only [if_true] at h ⊢
      have key1 : ∀ (e : GoType) (c : GoValue) (w : GoValue → GoValue),
          (values.set i (w (bA e c).1), (bA e c).2) = (v1, Ending.ok) →
          (values.set i (w (bB e c).1), (bB e c).2) = (v1, Ending.ok) := by
        intro e c w hh
        simp only [Prod.mk.injEq] at hh
        have hb : bA e c = ((bA e c).1, .ok) := by
          rw [← hh.2]
        rw [hAB e c _ hb]
        simp only [Prod.mk.injEq, and_true]
        exact hh.1
      cases t with
      | ptr e => exact key1 e (zero e) (fun x => .ptr (some x)) h
      | string => exact key1 _ _ id h
      | namedString => exact key1 _ _ id h
      | int k => exact key1 _ _ id h
      | uint8 => exact key1 _ _ id h
      | other => exact key1 _ _ id h
      | array n e => exact key1 _ _ id h
      | slice e => exact key1 _ _ id h
      | map k e => exact key1 _ _ id h
      | struct fs => exact key1 _ _ id h

theorem structLoop_congr (fts : List (FieldInfo × GoType))
    (uA uB : List Nat → BValue → GoType → GoValue → GoValue × Ending)
    (V : List (List Nat × BValue))
    (hAB : ∀ kb ∈ V, ∀ t c x, uA kb.1 kb.2 t c = (x, .ok) → uB kb.1 kb.2 t c = (x, .ok)) :
    ∀ values r,
      unmarshalStructLoop fts (V.map (fun kb => (kb.1, uA kb.1 kb.2))) values = (r, .ok) →
      unmarshalStructLoop fts (V.map (fun kb => (kb.1, uB kb.1 kb.2))) values = (r, .ok) := by
  induction V with
  | nil => intro values r h; exact h
  | cons e rest ih =>
    obtain ⟨k, b⟩ := e
    intro values r h
    simp only [List.map_cons] at h ⊢
    rw [structLoop_cons_ok] at h ⊢
    obtain ⟨v1, h1, h2⟩ := h
    refine ⟨v1, bindField_congr fts k _ _ (hAB (k, b) (List.mem_cons_self _ _)) values v1 h1, ?_⟩
    exact ih (fun kb hkb => hAB kb (List.mem_cons_of_mem _ hkb)) v1 r h2

/-- Entries whose key finds no field can be dropped from the loop of the struct case. -/
theorem structLoop_filter (fts : List (FieldInfo × GoType)) (keep : List Nat → Bool)
    (V : List (List Nat × (GoType → GoValue → GoValue × Ending)))
    (hkeep : ∀ e ∈ V, keep e.1 = false → findField fts e.1 = none) :
    ∀ values, unmarshalStructLoop fts (V.filter (fun e => keep e.1)) values
      = unmarshalStructLoop fts V values := by
  induction V with
  | nil => intro values; rfl
  | cons e rest ih =>
    obtain ⟨k, b⟩ := e
    intro values
    have ih' := ih (fun e he => hkeep e (List.mem_cons_of_mem _ he))
    cases hk : keep k with
    | true =>
      rw [List.filter_cons_of_pos (by simpa using hk)]
      rw [unmarshalStructLoop, unmarshalStructLoop]
      cases hb : bindField fts k b values with
      | mk v1 err =>
        cases err with
        | ok => exact ih' v1
        | error e => rfl
        | panic => rfl
    | false =>
      rw [List.filter_cons_of_neg (by simpa using hk)]
      have hnone := hkeep (k, b) (List.mem_cons_self _ _) hk
      have hb : bindField fts k b values = (values, .ok) := by
        unfold bindField
        simp only [] at hnone
        rw [hnone]
      rw [ih' values, unmarshalStructLoop, hb]

/-- A successful loop of the map case, into a map with key type `string`, bound every element
and assigned the results. -/
theorem unmarshalMapLoop_inv (u : List Nat → BValue → GoType → GoValue → GoValue × Ending)
    (e : GoType) (V : List (List Nat × BValue)) :
    ∀ (acc mp : List (List Nat × GoValue)),
      unmarshalMapLoop true e (V.map (fun kb => (kb.1, u kb.1 kb.2))) acc = (mp, .ok) →
      (∀ kb ∈ V, (u kb.1 kb.2 e (zero e)).2 = .ok) ∧
      mp = (V.map (fun kb => (kb.1, (u kb.1 kb.2 e (zero e)).1))).foldl
        (fun d kv => mapInsert kv.1 kv.2 d) acc := by
  induction V with
  | nil =>
    intro acc mp h
    simp only [List.map_nil, unmarshalMapLoop, Prod.mk.injEq, and_true] at h
    exact ⟨fun kb hkb => (by cases hkb), h.symm⟩
  | cons a rest ih =>
    obtain ⟨k, b⟩ := a
    intro acc mp h
    simp only [List.map_cons] at h
    rw [unmarshalMapLoop] at h
    cases hr : u k b e (zero e) with
    | mk x err =>
      rw [hr] at h
      cases err with
      | error er => simp at h
      | panic => simp at h
      | ok =>
        simp only [if_true] at h
        obtain ⟨h1, h2⟩ := ih _ _ h
        refine ⟨?_, ?_⟩
        · intro kb hkb
          rcases List.mem_cons.mp hkb with hkb | hkb
          · rw [hkb]; simp only []; rw [hr]
          · exact h1 kb hkb
        · simp only [List.map_cons, List.foldl_cons]
          rw [hr]
          exact h2

/-- The loop of the map case into a map whose key type is a defined string type returns `nil`
only when there is no entry to visit. -/
theorem unmarshalMapLoop_named (e : GoType)
    (V : List (List Nat × (GoType → GoValue → GoValue × Ending)))
    (acc mp : List (List Nat × GoValue))
    (h : unmarshalMapLoop false e V acc = (mp, .ok)) : V = [] ∧ mp = acc := by
  cases V with
  | nil =>
    simp only [unmarshalMapLoop, Prod.mk.injEq, and_true] at h
    exact ⟨rfl, h.symm⟩
  | cons a rest =>
    obtain ⟨k, bind⟩ := a
    rw [unmarshalMapLoop] at h
    cases hr : bind e (zero e) with
    | mk x err =>
      rw [hr] at h
      cases err <;> simp at h

theorem unmarshalSeq_congr (e : GoType) (l : List BValue)
    (hAB : ∀ b ∈ l, ∀ oA oB, ValidOrders oA → ValidOrders oB → ∀ t c x,
      unmarshal oA b t c = (x, .ok) → unmarshal oB b t c = (x, .ok)) :
    ∀ oA oB i, ValidOrders oA → ValidOrders oB →
    ∀ xs, unmarshalSeq oA i l e = (xs, .ok) → unmarshalSeq oB i l e = (xs, .ok) := by
  induction l with
  | nil => intro oA oB i _ _ xs h; rw [unmarshalSeq] at h ⊢; exact h
  | cons b rest ih =>
    intro oA oB i hA hB xs h
    rw [unmarshalSeq] at h ⊢
    cases hr : unmarshal (below oA (.index i)) b e (zero e) with
    | mk x err =>
      rw [hr] at h
      cases err with
      | error er => simp at h
      | panic => simp at h
      | ok =>
        simp only [] at h
        rw [hAB b (List.mem_cons_self _ _) _ _ (validOrders_below oA hA _)
          (validOrders_below oB hB _) e (zero e) x hr]
        simp only []
        cases hs : unmarshalSeq oA (i + 1) rest e with
        | mk ys err2 =>
          rw [hs] at h
          cases err2 with
          | error er => simp at h
          | panic => simp at h
          | ok =>
            rw [ih (fun b' hb' => hAB b' (List.mem_cons_of_mem _ hb')) oA oB (i + 1) hA hB ys hs]
            exact h


theorem rangeOver_keys_nodup {α : Type} (ord : RangeOrder) (hord : ValidOrder ord)
    (m : List (List Nat × α)) (hm : mapSorted m = true) :
    ((rangeOver ord m).map Prod.fst).Nodup := by
  have hp := (rangeOver_perm ord hord m hm).map Prod.fst
  rw [hp.nodup_iff]
  exact sorted_keys_nodup m ((mapSorted_iff m).mp hm)


/-- A bind that succeeds does not depend on the orders in which the runtime ranges over the
dictionaries: with any other orders it succeeds with the same result. -/
theorem unmarshal_order_independent (b : BValue) :
    wfValue b = true → ∀ oA oB, ValidOrders oA → ValidOrders oB → ∀ t cur r,
      unmarshal oA b t cur = (r, .ok) → unmarshal oB b t cur = (r, .ok) := by
  induction b using bvalue_induction with
  | hs s =>
    intro _ oA oB _ _ t cur r h
    cases t <;> first | (simp [unmarshal, kindIsString] at h ⊢; exact h) |
      (simp [unmarshal, kindIsString] at h)
  | hi v =>
    intro _ oA oB _ _ t cur r h
    cases t <;> first | (simp [unmarshal] at h ⊢; exact h) | (simp [unmarshal] at h)
  | hl l ih =>
    intro hwf oA oB hA hB t cur r h
    rw [wfValue] at hwf
    have hmem := wfList_mem l hwf
    cases t
    case slice e =>
      rw [unmarshal] at h
      cases hs : unmarshalSeq oA 0 l e with
      | mk xs err =>
        rw [hs] at h
        cases err with
        | error er => simp at h
        | panic => simp at h
        | ok =>
          simp only [Prod.mk.injEq, and_true] at h
          rw [← h]
          exact unmarshal_list_slice_ok oB l e cur xs
            (unmarshalSeq_congr e l (fun b hb => ih b hb (hmem b hb)) oA oB 0 hA hB xs hs)
    all_goals simp [unmarshal] at h
  | hd m ih =>
    intro hwf oA oB hA hB t cur r h
    rw [wfValue, Bool.and_eq_true] at hwf
    obtain ⟨hsorted, hwfE⟩ := hwf
    have hmem := wfEntries_mem m hwfE
    have hpA := rangeOver_perm (oA []) (hA []) m hsorted
    have hpB := rangeOver_perm (oB []) (hB []) m hsorted
    cases t
    case map k e =>
      cases k
      case string =>
        rw [unmarshal] at h
        simp only [kindIsString, stringAssignable, if_true] at h
        cases hloop : unmarshalMapLoop true e (rangeOver (oA []) (unmarshalEntries oA m)) [] with
        | mk mp err =>
          rw [hloop] at h
          cases err with
          | error er => simp at h
          | panic => simp at h
          | ok =>
            simp only [Prod.mk.injEq, and_true] at h
            rw [← h]
            rw [unmarshalEntries_eq,
              rangeOver_mapVals (oA [])
                (fun (k : List Nat) (b : BValue) => unmarshal (below oA (.key k)) b)] at hloop
            obtain ⟨hall, hmp⟩ := unmarshalMapLoop_inv
              (fun (k : List Nat) (b : BValue) => unmarshal (below oA (.key k)) b) e _ [] mp hloop
            have hkey : ∀ kb ∈ m, unmarshal (below oB (.key kb.1)) kb.2 e (zero e)
                = ((unmarshal (below oA (.key kb.1)) kb.2 e (zero e)).1, .ok) := by
              intro kb hkb
              apply ih kb hkb (hmem kb hkb) _ _ (validOrders_below oA hA _)
                (validOrders_below oB hB _)
              have := hall kb (hpA.mem_iff.mpr hkb)
              rw [← this]
            have hLsorted : mapSorted (m.map (fun kv => (kv.1, (fun (k : List Nat) (b : BValue) =>
                (unmarshal (below oA (.key k)) b e (zero e)).1) kv.1 kv.2))) = true :=
              mapSorted_mapVals (fun (k : List Nat) (b : BValue) =>
                (unmarshal (below oA (.key k)) b e (zero e)).1) m hsorted
            apply unmarshal_dict_map_ok
            rw [unmarshalEntries_eq,
              rangeOver_mapVals (oB [])
                (fun (k : List Nat) (b : BValue) => unmarshal (below oB (.key k)) b)]
            rw [unmarshalMapLoop_ok
              (fun (k : List Nat) (b : BValue) => unmarshal (below oB (.key k)) b) e _ []
              (fun kb hkb => by
                simp only []
                rw [hkey kb (hpB.mem_iff.mp hkb)])]
            rw [hmp]
            congr 1
            have h1 : (rangeOver (oB []) m).map
                (fun kb => (kb.1, (unmarshal (below oB (.key kb.1)) kb.2 e (zero e)).1))
                = (rangeOver (oB []) m).map
                  (fun kb => (kb.1, (unmarshal (below oA (.key kb.1)) kb.2 e (zero e)).1)) := by
              apply List.map_congr_left
              intro kb hkb
              rw [hkey kb (hpB.mem_iff.mp hkb)]
            rw [h1, foldl_insert_of_perm _ _ hLsorted (hpB.map _),
              foldl_insert_of_perm _ _ hLsorted (hpA.map _)]
      case namedString =>
        rw [unmarshal] at h ⊢
        simp only [kindIsString, stringAssignable, if_true] at h ⊢
        cases hloop : unmarshalMapLoop false e (rangeOver (oA []) (unmarshalEntries oA m)) [] with
        | mk mp err =>
          rw [hloop] at h
          cases err with
          | error er => simp at h
          | panic => simp at h
          | ok =>
            simp only [Prod.mk.injEq, and_true] at h
            obtain ⟨hnil, hmp⟩ := unmarshalMapLoop_named e _ [] mp hloop
            rw [unmarshalEntries_eq,
              rangeOver_mapVals (oA [])
                (fun (k : List Nat) (b : BValue) => unmarshal (below oA (.key k)) b)] at hnil
            have hm : m = [] := by
              have h0 := congrArg List.length hnil
              simp only [List.length_map, List.length_nil] at h0
              have := hpA.length_eq
              rw [h0] at this
              exact List.length_eq_zero.mp this.symm
            subst hm
            have hB0 : rangeOver (oB []) (unmarshalEntries oB []) = [] := by
              rw [unmarshalEntries]
              exact List.length_eq_zero.mp (by
                have := (rangeOver_perm (oB []) (hB [])
                  ([] : List (List Nat × (GoType → GoValue → GoValue × Ending))) rfl).length_eq
                simpa using this)
            rw [hB0, unmarshalMapLoop]
            show (GoValue.map [], Ending.ok) = (r, Ending.ok)
            rw [← h, hmp]
      all_goals simp [unmarshal, kindIsString] at h
    case struct fields =>
      cases cur
      case struct values =>
        rw [unmarshal_dict_struct] at h
        cases hloop : unmarshalStructLoop fields (rangeOver (oA []) (unmarshalEntries oA m))
            values with
        | mk r' err =>
          rw [hloop] at h
          simp only [Prod.mk.injEq] at h
          obtain ⟨h1, h2⟩ := h
          subst h2
          rw [← h1]
          rw [unmarshalEntries_eq,
            rangeOver_mapVals (oA [])
              (fun (k : List Nat) (b : BValue) => unmarshal (below oA (.key k)) b)] at hloop
          have hB1 := structLoop_congr fields
            (fun (k : List Nat) (b : BValue) => unmarshal (below oA (.key k)) b)
            (fun (k : List Nat) (b : BValue) => unmarshal (below oB (.key k)) b)
            (rangeOver (oA []) m)
            (fun kb hkb => ih kb (hpA.mem_iff.mp hkb) (hmem kb (hpA.mem_iff.mp hkb)) _ _
              (validOrders_below oA hA _) (validOrders_below oB hB _))
            values r' hloop
          have hperm : ((rangeOver (oA []) m).map
                (fun kb => (kb.1, unmarshal (below oB (.key kb.1)) kb.2))).Perm
              ((rangeOver (oB []) m).map
                (fun kb => (kb.1, unmarshal (below oB (.key kb.1)) kb.2))) :=
            (hpA.trans hpB.symm).map _
          have hnd : (((rangeOver (oA []) m).map
              (fun kb => (kb.1, unmarshal (below oB (.key kb.1)) kb.2))).map Prod.fst).Nodup := by
            rw [List.map_map]
            exact rangeOver_keys_nodup (oA []) (hA []) m hsorted
          have hB2 := structLoop_perm fields _ _ hperm hnd values r' hB1
          rw [unmarshal_dict_struct, unmarshalEntries_eq,
            rangeOver_mapVals (oB [])
              (fun (k : List Nat) (b : BValue) => unmarshal (below oB (.key k)) b), hB2]
      all_goals simp [unmarshal] at h
    all_goals simp [unmarshal, kindIsString] at h

/-- The orders `secondDescending` are orders the runtime can choose. -/
theorem validOrders_secondDescending : ValidOrders secondDescending := by
  intro p
  unfold secondDescending
  split
  · exact validOrder_reverse
  · exact validOrder_id

/-! ## C1: dictionary entries are not emitted in sorted key order -/

/-- C1 (the code at the failing input): when the `range` over the dictionary
`{"spam": "eggs", "cow": "moo"}` visits `spam` first, which the runtime may do, `encode` emits
`d4:spam4:eggs3:cow3:mooe` and not the sorted `d3:cow3:moo4:spam4:eggse`; in the same way
`Marshal` of an `InfoDict` can emit the keys `pieces`, `piece length`, `name`, `length` in
that (descending) order; and one call of `encode` can write two equal dictionaries of a list
in two different orders. -/
theorem C1_encode_dict_follows_range_order :
    ValidOrders (everywhere List.reverse) ∧
    encode (everywhere List.reverse) cowSpam = ascii "d4:spam4:eggs3:cow3:mooe" ∧
    encode (everywhere List.reverse) cowSpam ≠ ascii "d3:cow3:moo4:spam4:eggse" ∧
    Marshal (everywhere id) (everywhere List.reverse) infoDictType infoDictValue
      = .ok (ascii "d6:pieces3:abc12:piece lengthi16e4:name1:f6:lengthi3ee") ∧
    ValidOrders secondDescending ∧
    encode secondDescending cowSpamTwice
      = ascii "ld3:cow3:moo4:spam4:eggsed4:spam4:eggs3:cow3:mooee" :=
  ⟨validOrders_everywhere _ validOrder_reverse, by decide, by decide, rfl,
    validOrders_secondDescending, by decide⟩

/-! ## C2: round trip through `Marshal` and `Unmarshal` -/

/-- C2 (counterexample): `Marshal` accepts a record with an unexported field, an array, a
record with two fields of the same key and a map whose key type is a defined string type, and
`Unmarshal` of the bytes into a zero target of the same type (on every stack with room for
the one nested call of `decode` these bytes need) does not give the value back: the
unexported field stays empty, the array is rejected with a type mismatch, neither field of
the same key is set, and the bind of the map panics in `SetMapIndex`. -/
theorem C2_round_trip_fails :
    (Marshal (everywhere id) (everywhere id) unexportedRecord (.struct [.string (ascii "x")])
        = .ok (ascii "d4:name1:xe") ∧
      (∀ stk : Nat, Unmarshal (stk + 1) (everywhere id) (ascii "d4:name1:xe") unexportedRecord
          (zero unexportedRecord)
        = (.struct [.string []], .ok ())) ∧
      GoValue.struct [.string []] ≠ .struct [.string (ascii "x")]) ∧
    (Marshal (everywhere id) (everywhere id) (.array 2 .string)
          (.seq [.string (ascii "a"), .string (ascii "b")])
        = .ok (ascii "l1:a1:be") ∧
      (∀ stk : Nat, Unmarshal (stk + 1) (everywhere id) (ascii "l1:a1:be") (.array 2 .string)
          (zero (.array 2 .string))
        = (.seq [.string [], .string []], .error .typeMismatch))) ∧
    (Marshal (everywhere id) (everywhere id) sameKeyRecord
          (.struct [.string (ascii "a"), .string (ascii "b")])
        = .ok (ascii "d1:k1:be") ∧
      (∀ stk : Nat, Unmarshal (stk + 1) (everywhere id) (ascii "d1:k1:be") sameKeyRecord
          (zero sameKeyRecord)
        = (.struct [.string [], .string []], .ok ()))) ∧
    (Marshal (everywhere id) (everywhere id) namedKeyMap (.map [(ascii "a", .int 1)])
        = .ok (ascii "d1:ai1ee") ∧
      (∀ stk : Nat, Unmarshal (stk + 1) (everywhere id) (ascii "d1:ai1ee") namedKeyMap
          (zero namedKeyMap)
        = (.map [], .panic))) := by
  refine ⟨⟨rfl, fun _ => rfl, ?_⟩, ⟨rfl, fun _ => rfl⟩, ⟨rfl, fun _ => rfl⟩,
    ⟨rfl, fun _ => rfl⟩⟩
  simp [ascii]

/-- C2 (amended): for every value `v` of a type `t` built from strings, signed integers,
slices, maps whose key type is `string` itself and records whose fields are exported and have
pairwise distinct keys, whatever order the runtime picks at each of the map ranges,
`Marshal` succeeds: `marshal` builds a tree `b` and the output is `encode(b)`; and (the
output being shorter than `2^63` bytes, as every Go slice is) when the stack has room for the
nested calls of `decode` the tree needs, `Unmarshal` of the output into any target of type
`t` succeeds and leaves the target equal to `v`; when it has not, the process ends with a
stack overflow. -/
theorem C2_round_trip (stk : Nat) (oM oE oU : RangeOrders) (hM : ValidOrders oM)
    (hE : ValidOrders oE) (hU : ValidOrders oU) (t : GoType) (v cur : GoValue)
    (hshape : roundTripShape t = true) (hv : hasType t v = true)
    (hcur : hasType t cur = true) :
    ∃ b, marshal oM t v = .ok b ∧ Marshal oM oE t v = .ok (encode oE b) ∧
      ((encode oE b).length < 2 ^ 63 →
        Unmarshal stk oU (encode oE b) t cur
          = if height b ≤ stk then (v, .ok ()) else (cur, .stackOverflow)) := by
  obtain ⟨b, hb1, hb2, hb3⟩ := unmarshal_marshal v t hshape hv
  refine ⟨b, hb1 oM hM, ?_, ?_⟩
  · unfold Marshal
    rw [hb1 oM hM]
  · intro hlen
    unfold Unmarshal
    by_cases hst : height b ≤ stk
    · rw [if_pos hst, Decode_encode stk oE hE b hb2 hst hlen]
      simp only []
      rw [hb3 oU hU cur hcur]
    · rw [if_neg hst, Decode_encode_overflow stk oE hE b hb2 (by omega) hlen]

/-- C2 (witness): the record `Example` of `TestBencode`, with the map ranges of `encode` and
`unmarshal` in descending key order, on a stack with room for two nested calls, which is what
its tree needs. -/
theorem C2_round_trip_witness :
    roundTripShape exampleType = true ∧ hasType exampleType exampleValue = true ∧
    Marshal (everywhere id) (everywhere List.reverse) exampleType exampleValue
      = .ok (ascii ("d4:tagsl9:developer6:golange4:name8:John Doe" ++
          "5:attrsd6:weighti75e6:heighti180ee3:agei30ee")) ∧
    Unmarshal 2 (everywhere List.reverse)
        (ascii ("d4:tagsl9:developer6:golange4:name8:John Doe" ++
          "5:attrsd6:weighti75e6:heighti180ee3:agei30ee")) exampleType (zero exampleType)
      = (exampleValue, .ok ()) ∧
    ∃ b, marshal (everywhere id) exampleType exampleValue = .ok b ∧
      Marshal (everywhere id) (everywhere List.reverse) exampleType exampleValue
        = .ok (encode (everywhere List.reverse) b) ∧
      ((encode (everywhere List.reverse) b).length < 2 ^ 63 →
        Unmarshal 2 (everywhere List.reverse) (encode (everywhere List.reverse) b) exampleType
          (zero exampleType)
          = if height b ≤ 2 then (exampleValue, .ok ())
            else (zero exampleType, .stackOverflow)) :=
  ⟨by decide, by decide, rfl, rfl,
    C2_round_trip 2 (everywhere id) (everywhere List.reverse) (everywhere List.reverse)
      (validOrders_everywhere _ validOrder_id) (validOrders_everywhere _ validOrder_reverse)
      (validOrders_everywhere _ validOrder_reverse) exampleType exampleValue (zero exampleType)
      (by decide) (by decide) (by decide)⟩

/-! ## C3: re-encoding a decoded dictionary -/

/-- C3 (the code at the failing input): `encode` of `{"cow": "moo", "spam": "eggs"}` with the
keys visited in ascending order decodes to the same dictionary (on every stack with room for
the one nested call it needs), and encoding that result with the keys visited in descending order
gives other bytes. -/
theorem C3_reencode_differs :
    (∀ stk : Nat, Decode (stk + 1) (encode (everywhere id) cowSpam) = .ok (cowSpam, 24)) ∧
    ValidOrders (everywhere id) ∧ ValidOrders (everywhere List.reverse) ∧
    encode (everywhere List.reverse) cowSpam ≠ encode (everywhere id) cowSpam :=
  ⟨fun _ => rfl, validOrders_everywhere _ validOrder_id, validOrders_everywhere _ validOrder_reverse,
    by decide⟩

/-! ## C4: string lengths that are negative or overflow -/

/-- C4 (the code at the failing input): on `-1:` and on `9223372036854775807:` the string
case of `decode` passes its bounds check and then slices `data[start:end]` with
`end < start`, which panics (on every stack). -/
theorem C4_decode_panics :
    (∀ stk : Nat, Decode stk (ascii "-1:") = .panic) ∧
    (∀ stk : Nat, Decode stk (ascii "9223372036854775807:") = .panic) :=
  ⟨fun _ => rfl, fun _ => rfl⟩

/-! ## C5: bytes after the first value -/

/-- C5 (counterexample): `Unmarshal` of `i1ei2e` into an `int` returns no error and binds 1;
`Unmarshal` of `4:spamX` into a string returns no error and binds `spam` (on every stack). -/
theorem C5_trailing_bytes_accepted :
    (∀ stk : Nat, Unmarshal stk (everywhere id) (ascii "i1ei2e") (.int .int) (.int 0)
      = (.int 1, .ok ())) ∧
    (∀ stk : Nat, Unmarshal stk (everywhere id) (ascii "4:spamX") .string (.string [])
      = (.string (ascii "spam"), .ok ())) :=
  ⟨fun _ => rfl, fun _ => rfl⟩

/-- C5 (amended): when a buffer `b` decodes to a value, `Unmarshal` of `b` followed by any
further bytes does exactly what `Unmarshal` of `b` does: it binds the first value and
ignores the rest. -/
theorem C5_unmarshal_ignores_trailing_bytes (stk : Nat) (o : RangeOrders) (b rest : List Nat)
    (v : BValue) (p : Nat) (t : GoType) (cur : GoValue) (h : Decode stk b = .ok (v, p)) :
    Unmarshal stk o (b ++ rest) t cur = Unmarshal stk o b t cur := by
  have hext : Decode stk (b ++ rest) = .ok (v, p) := by
    unfold Decode at h ⊢
    have := (decode_mono (2 * b.length + 1)).1 stk b 0 (v, p) h (2 * rest.length) rest
    rw [show 2 * (b ++ rest).length + 1 = 2 * b.length + 1 + 2 * rest.length by
      rw [List.length_append]; omega]
    exact this
  unfold Unmarshal
  rw [hext, h]

/-- C5 (witness): the buffer `i1e` followed by `i2e`. -/
theorem C5_unmarshal_ignores_trailing_bytes_witness :
    Decode 0 (ascii "i1e") = .ok (.BInt 1, 3) ∧
    Unmarshal 0 (everywhere id) (ascii "i1e" ++ ascii "i2e") (.int .int) (.int 0)
      = Unmarshal 0 (everywhere id) (ascii "i1e") (.int .int) (.int 0) :=
  ⟨rfl, C5_unmarshal_ignores_trailing_bytes 0 (everywhere id) (ascii "i1e") (ascii "i2e")
    (.BInt 1) 3 (.int .int) (.int 0) rfl⟩

/-! ## C6, C7, C8: tag options -/

/-- C6 (the code at the failing input): `Marshal` of a record whose field is tagged
`comment,omitempty` and holds `hi` emits the key `comment,omitempty`, the full tag text. -/
theorem C6_marshal_key_is_full_tag :
    Marshal (everywhere id) (everywhere id) commentRecord (.struct [.string (ascii "hi")])
      = .ok (ascii "d17:comment,omitempty2:hie") ∧
    ascii "d17:comment,omitempty2:hie" ≠ ascii "d7:comment2:hie" :=
  ⟨rfl, by decide⟩

/-- C7 (the code at the failing input): `Marshal` of a record whose field is tagged
`name,omitempty` emits an entry for the field when it holds the empty string, and when it
holds `x` the entry is under the key `name,omitempty`, not `name`. -/
theorem C7_marshal_keeps_zero_field :
    Marshal (everywhere id) (everywhere id) nameRecord (.struct [.string []])
      = .ok (ascii "d14:name,omitempty0:e") ∧
    ascii "d14:name,omitempty0:e" ≠ ascii "de" ∧
    Marshal (everywhere id) (everywhere id) nameRecord (.struct [.string (ascii "x")])
      = .ok (ascii "d14:name,omitempty1:xe") ∧
    ascii "d14:name,omitempty1:xe" ≠ ascii "d4:name1:xe" :=
  ⟨rfl, by decide, rfl, by decide⟩

/-- C8 (the code at the failing input): `Unmarshal` of `d7:comment2:hie` into a record whose
field is tagged `comment,omitempty` returns no error and leaves the field empty (on every
stack with room for the one nested call of `decode` the buffer needs). -/
theorem C8_unmarshal_misses_tagged_field :
    ∀ stk : Nat, Unmarshal (stk + 1) (everywhere id) (ascii "d7:comment2:hie") commentRecord
        (.struct [.string []])
      = (.struct [.string []], .ok ()) :=
  fun _ => rfl

/-! ## C9: the lookahead byte -/

/-- C9 (counterexample): `+3:abc` is decoded as the byte string `abc` and `-0:` as the empty
byte string (on every stack). -/
theorem C9_signed_length_accepted :
    (∀ stk : Nat, Decode stk (ascii "+3:abc") = .ok (.BString (ascii "abc"), 6)) ∧
    (∀ stk : Nat, Decode stk (ascii "-0:") = .ok (.BString [], 3)) :=
  ⟨fun _ => rfl, fun _ => rfl⟩

/-- C9 (amended): for every buffer and cursor position whose lookahead byte is not `i`, `l`,
`d`, an ASCII digit, `+` or `-`, `decode` returns an error. -/
theorem C9_decode_rejects_other_lookahead (stk fuel : Nat) (data : List Nat) (pos : Nat)
    (hpos : pos < data.length)
    (h : data.getD pos 0 ≠ 105 ∧ data.getD pos 0 ≠ 108 ∧ data.getD pos 0 ≠ 100 ∧
      ¬ (48 ≤ data.getD pos 0 ∧ data.getD pos 0 ≤ 57) ∧
      data.getD pos 0 ≠ 43 ∧ data.getD pos 0 ≠ 45) :
    ∃ e, decode stk (fuel + 1) data pos = .error e := by
  obtain ⟨h1, h2, h3, h4, h5, h6⟩ := h
  rw [decode_default_case stk fuel data pos hpos h1 h2 h3]
  unfold decodeString
  cases hi : IndexByte (data.drop pos) 58 with
  | none => exact ⟨_, rfl⟩
  | some i =>
    simp only []
    have hdrop : data.drop pos = data.getD pos 0 :: data.drop (pos + 1) := by
      rw [List.getD_eq_getElem _ _ hpos]
      exact List.drop_eq_getElem_cons hpos
    have hA : Atoi (slice data pos (i + pos)) = .error .syntaxErr := by
      unfold Atoi slice
      rw [hdrop]
      cases i with
      | zero => simp [ParseInt]
      | succ j =>
        simp only [Nat.add_sub_cancel, List.take_succ_cons]
        exact parseInt_bad_first _ _ h5 h6 h4
    rw [hA]
    exact ⟨_, rfl⟩

/-- C9 (witness): the buffer `x3:abc` at cursor 0. -/
theorem C9_decode_rejects_other_lookahead_witness :
    ∃ e, decode 0 1 (ascii "x3:abc") 0 = .error e :=
  C9_decode_rejects_other_lookahead 0 0 (ascii "x3:abc") 0 (by decide) (by decide)

/-! ## C10: a failed bind keeps what was bound before the failure -/

/-- C10 (the code at the failing input): binding `{"a": "x", "b": 1}` into a record with two
string fields, the entry `a` visited first, returns a type mismatch and leaves the field `A`
set to `x`; binding `{"p": 1}` into a record with a `*string` field returns a type mismatch
and leaves the field pointing to a newly allocated empty string (on every stack with room for
the one nested call of `decode` the buffers need). -/
theorem C10_failed_bind_keeps_fields :
    (∀ stk : Nat, Unmarshal (stk + 1) (everywhere id) (ascii "d1:a1:x1:bi1ee") abRecord
        (.struct [.string [], .string []])
      = (.struct [.string (ascii "x"), .string []], .error .typeMismatch)) ∧
    (∀ stk : Nat, Unmarshal (stk + 1) (everywhere id) (ascii "d1:pi1ee") ptrRecord
        (.struct [.ptr none])
      = (.struct [.ptr (some (.string []))], .error .typeMismatch)) :=
  ⟨fun _ => rfl, fun _ => rfl⟩

/-! ## C11: truncated strings -/

/-- C11 (the code at the failing input): `4:sp` is rejected with an error, but on
`9223372036854775806:ab`, a length followed by fewer bytes for which `start + length` leaves
the range of `int`, `decode` panics (on every stack). -/
theorem C11_truncated_string_overflow_panics :
    (∀ stk : Nat, Decode stk (ascii "4:sp") = .error .stringLengthExceedsData) ∧
    (∀ stk : Nat, Decode stk (ascii "9223372036854775806:ab") = .panic) :=
  ⟨fun _ => rfl, fun _ => rfl⟩

/-! ## C12: unterminated lists and dictionaries -/

/-- C12 (counterexample): whatever number `stk` of nested calls of `decode` the stack has room
for, the buffer made of `stk + 2` times `l` and `stk + 1` times `e` is an `l` followed by one
complete element (the encoding of a list nested `stk` deep) that ends without the closing
`e`, and `decode` does not return an error on it: the process ends with a stack overflow. So
does `lllleee` on a stack with room for two nested calls. -/
theorem C12_deep_nesting_overflows :
    (∀ stk : Nat,
      List.replicate (stk + 2) 108 ++ List.replicate (stk + 1) 101
        = 108 :: encodeList (everywhere id) 0 [nestedList stk] ∧
      wfList [nestedList stk] = true ∧
      Decode stk (List.replicate (stk + 2) 108 ++ List.replicate (stk + 1) 101)
        = .stackOverflow) ∧
    Decode 2 (ascii "lllleee") = .stackOverflow := by
  refine ⟨fun stk => ⟨?_, ?_, ?_⟩, rfl⟩
  · rw [encodeList, encodeList, encode_nestedList, List.replicate_succ (n := stk + 1)]
    simp
  · rw [wfList, wfList, wfValue_nestedList]; rfl
  · unfold Decode
    exact decode_deep_overflow stk _ _ 0 _ rfl (by
      simp only [List.length_append, List.length_replicate]; omega)

/-- C12 (amended): a buffer made of `l` and the encodings of zero or more elements, or of `d`
and the encodings of zero or more key/value entries, that ends without the closing `e` is
rejected when the stack has room for the nested calls of `decode` the elements (values)
need: `decode` from cursor 0 returns the error "list not terminated", respectively
"dictionary not terminated"; when the stack has no room for them the process ends with a
stack overflow (whatever orders wrote the dictionaries inside the elements, each on its own;
the buffer being shorter than `2^63` bytes). -/
theorem C12_unterminated_rejected (stk : Nat) (o : RangeOrders) (ho : ValidOrders o)
    (l : List BValue) (es : List (RangeOrders × List Nat × BValue))
    (hl : wfList l = true)
    (hes : ∀ e ∈ es, ValidOrders e.1 ∧ wfValue e.2.2 = true)
    (hlenl : (108 :: encodeList o 0 l).length < 2 ^ 63)
    (hlene : (100 :: encodeVisited es).length < 2 ^ 63) :
    Decode stk (108 :: encodeList o 0 l)
      = (if heightList l ≤ stk then .error .listNotTerminated else .stackOverflow) ∧
    Decode stk (100 :: encodeVisited es)
      = (if heightVisited es ≤ stk then .error .dictNotTerminated else .stackOverflow) := by
  constructor
  · unfold Decode
    rw [decode_list_case stk _ (108 :: encodeList o 0 l) 0 (by simp) rfl]
    split
    · rename_i hdl
      exact decodeListLoop_unterminated l (wfList_mem l hl) stk o 0 ho hdl _ 1 [] _ hlenl rfl
        (by simp only [List.length_cons]; omega)
    · rename_i hdl
      exact decodeListLoop_too_deep l (wfList_mem l hl)
        (fun x hx o' ho' stk' data' pos' rest' f' hst' hlen' hd' hf' =>
          decode_encode_overflow x (wfList_mem l hl x hx) o' ho' stk' data' pos' rest' f' hst'
            hlen' hd' hf')
        stk o 0 ho (by omega) _ 1 [] [] _ hlenl (by simp)
        (by simp only [List.length_cons]; omega)
  · unfold Decode
    rw [decode_dict_case stk _ (100 :: encodeVisited es) 0 (by simp) rfl]
    split
    · rename_i hdl
      exact decodeDictLoop_unterminated stk es
        (fun e he => ⟨(hes e he).1, (hes e he).2, by
          have := heightVisited_mem es e he; omega⟩)
        _ 1 [] _ hlene rfl (by simp only [List.length_cons]; omega)
    · rename_i hdl
      exact decodeDictLoop_too_deep es hes
        (fun e he stk' data' pos' rest' f' hst' hlen' hd' hf' =>
          decode_encode_overflow e.2.2 (hes e he).2 e.1 (hes e he).1 stk' data' pos' rest' f'
            hst' hlen' hd' hf')
        stk (heightVisited_exists es stk (by omega)) _ 1 [] [] _ hlene (by simp)
        (by simp only [List.length_cons]; omega)

/-- C12 (witness): the buffer `l`, `d3:cow3:moo4:spam4:eggse`, `d4:spam4:eggs3:cow3:mooe`,
whose two elements are the same dictionary written in two different orders, and the buffer
`d1:ai1e`, on a stack with room for two nested calls and on a stack with room for one. -/
theorem C12_unterminated_rejected_witness :
    (Decode 2 (ascii "ld3:cow3:moo4:spam4:eggsed4:spam4:eggs3:cow3:mooe")
        = .error .listNotTerminated ∧
      Decode 2 (ascii "d1:ai1e") = .error .dictNotTerminated) ∧
    (Decode 1 (ascii "ld3:cow3:moo4:spam4:eggsed4:spam4:eggs3:cow3:mooe")
        = .stackOverflow ∧
      Decode 1 (ascii "d1:ai1e") = .error .dictNotTerminated) :=
  ⟨C12_unterminated_rejected 2 secondDescending validOrders_secondDescending [cowSpam, cowSpam]
      [(everywhere id, ascii "a", .BInt 1)]
      (by decide)
      (fun e he => by
        simp only [List.mem_singleton] at he
        subst he
        exact ⟨validOrders_everywhere _ validOrder_id, rfl⟩)
      (by decide) (by decide),
    C12_unterminated_rejected 1 secondDescending validOrders_secondDescending [cowSpam, cowSpam]
      [(everywhere id, ascii "a", .BInt 1)]
      (by decide)
      (fun e he => by
        simp only [List.mem_singleton] at he
        subst he
        exact ⟨validOrders_everywhere _ validOrder_id, rfl⟩)
      (by decide) (by decide)⟩

/-! ## C13: dictionary keys that are not byte strings -/

/-- C13 (counterexample): whatever number `stk` of nested calls of `decode` the stack has room
for, in the buffer made of `d`, the encoding of a list nested `stk` deep, `i2e` and `e` the
key position holds a well-formed value that is not a byte string, and `decode` does not
return an error on it: the process ends with a stack overflow. So does `dllleeei2ee` on a
stack with room for two nested calls. -/
theorem C13_deep_key_overflows :
    (∀ stk : Nat,
      wfValue (nestedList stk) = true ∧ (∀ s, nestedList stk ≠ .BString s) ∧
      Decode stk (100 :: (encode (everywhere id) (nestedList stk) ++ ascii "i2ee"))
        = .stackOverflow) ∧
    Decode 2 (ascii "dllleeei2ee") = .stackOverflow := by
  refine ⟨fun stk => ⟨wfValue_nestedList stk, ?_, ?_⟩, rfl⟩
  · intro s h
    cases stk <;> simp [nestedList] at h
  · unfold Decode
    refine decode_deep_key_overflow stk _ _ 0 (List.replicate (stk + 1) 101 ++ ascii "i2ee")
      ?_ ?_
    · rw [encode_nestedList, List.drop_zero, List.append_assoc]
    · rw [encode_nestedList]
      simp only [List.length_cons, List.length_append, List.length_replicate]
      omega

/-- C13 (amended): when `decode` is called at a `d` that is followed by the encodings of zero
or more entries and then, at a key position, by the encoding of a value that is not a byte
string (an integer, a list or a dictionary), and the stack has room for the nested calls of
`decode` these values need, it returns the error "invalid dictionary key", whatever follows
in the buffer; when the stack has no room for them the process ends with a stack overflow
(whatever orders wrote the dictionaries inside the values, each on its own). -/
theorem C13_non_string_key_rejected (stk : Nat)
    (es : List (RangeOrders × List Nat × BValue)) (oK : RangeOrders) (k : BValue)
    (rest : List Nat) (data : List Nat) (pos f : Nat)
    (hes : ∀ e ∈ es, ValidOrders e.1 ∧ wfValue e.2.2 = true)
    (hoK : ValidOrders oK) (hk : wfValue k = true)
    (hns : ∀ s, k ≠ .BString s)
    (hlen : data.length < 2 ^ 63)
    (hd : data.drop pos = 100 :: (encodeVisited es ++ (encode oK k ++ rest)))
    (hf : 2 * (data.length - pos) + 1 ≤ f) :
    decode stk f data pos
      = if max (heightVisited es) (height k + 1) ≤ stk then .error .invalidDictionaryKey
        else .stackOverflow := by
  obtain ⟨hpos, hc⟩ := getD_of_drop _ _ _ _ hd
  have hL := length_of_drop data pos _ (by simp) hd
  simp only [List.length_cons, List.length_append] at hL
  obtain ⟨f', rfl⟩ : ∃ f', f = f' + 1 := ⟨f - 1, by omega⟩
  rw [decode_dict_case stk f' data pos hpos hc]
  have hd2 : data.drop (pos + 1) = encodeVisited es ++ (encode oK k ++ rest) := by
    have := drop_add_of_drop data pos [100] _ (by rw [hd]; rfl)
    simpa using this
  split
  · rename_i hroom
    have h1 : heightVisited es ≤ stk := Nat.le_trans (Nat.le_max_left _ _) hroom
    have h2 : height k + 1 ≤ stk := Nat.le_trans (Nat.le_max_right _ _) hroom
    exact decodeDictLoop_bad_key stk es
      (fun e he => ⟨(hes e he).1, (hes e he).2, by
        have := heightVisited_mem es e he; omega⟩)
      oK hoK k hk (by omega) hns data (pos + 1) [] rest f' hlen hd2 (by omega)
  · rename_i hroom
    by_cases h1 : heightVisited es ≤ stk
    · have h2 : stk < height k + 1 := by
        rcases Nat.lt_or_ge stk (height k + 1) with h | h
        · exact h
        · exact absurd (Nat.max_le.mpr ⟨h1, h⟩) hroom
      exact decodeDictLoop_key_too_deep stk es
        (fun e he => ⟨(hes e he).1, (hes e he).2, by
          have := heightVisited_mem es e he; omega⟩)
        oK hoK k hk h2 data (pos + 1) [] rest f' hlen hd2 (by omega)
    · exact decodeDictLoop_too_deep es hes
        (fun e he stk' data' pos' rest' f'' hst' hlen' hd' hf' =>
          decode_encode_overflow e.2.2 (hes e he).2 e.1 (hes e he).1 stk' data' pos' rest' f''
            hst' hlen' hd' hf')
        stk (heightVisited_exists es stk (by omega)) data (pos + 1) [] (encode oK k ++ rest) f'
        hlen hd2 (by omega)

/-- C13 (witness): the buffer `di1ei2ee` at cursor 0, on a stack with room for one nested
call and on a stack with room for none. -/
theorem C13_non_string_key_rejected_witness :
    Decode 1 (ascii "di1ei2ee") = .error .invalidDictionaryKey ∧
    Decode 0 (ascii "di1ei2ee") = .stackOverflow :=
  ⟨C13_non_string_key_rejected 1 [] (everywhere id) (.BInt 1) (ascii "i2ee")
      (ascii "di1ei2ee") 0 17 (fun e he => by cases he)
      (validOrders_everywhere _ validOrder_id) (by decide) (fun s h => by cases h)
      (by decide) (by decide) (by decide),
    C13_non_string_key_rejected 0 [] (everywhere id) (.BInt 1) (ascii "i2ee")
      (ascii "di1ei2ee") 0 17 (fun e he => by cases he)
      (validOrders_everywhere _ validOrder_id) (by decide) (fun s h => by cases h)
      (by decide) (by decide) (by decide)⟩

/-! ## C14: integers and the 64-bit range -/

/-- C14: for every integer `n` and every `rest`, decoding `i`, the decimal digits of `n`, `e`
and `rest` from cursor 0 returns `BInt(n)` with the cursor after the `e` when
`-2^63 <= n <= 2^63 - 1`, and returns the range error of `strconv.ParseInt` otherwise. -/
theorem C14_decode_integer_range (stk : Nat) (n : Int) (rest : List Nat) :
    Decode stk (105 :: (decimalInt n ++ 101 :: rest))
      = if inInt64 n = true then .ok (.BInt n, (decimalInt n).length + 2)
        else .error (.num .rangeErr) := by
  unfold Decode
  have hpos : 0 < (105 :: (decimalInt n ++ 101 :: rest)).length := by simp
  rw [decode_int_case stk _ _ 0 hpos rfl]
  split
  · rename_i h
    rw [decodeInt_spec _ 0 n rest h rfl]
    congr 2
    omega
  · rename_i h
    have h' : inInt64 n = false := by
      cases hb : inInt64 n
      · rfl
      · exact absurd hb h
    exact decodeInt_aux_error _ 0 _ _ rest (parseInt_decimalInt_range n h') (decimalInt_no_e n) rfl

/-! ## C15: encoding without dictionaries -/

/-- C16 (the code at the failing input): binding 300 into an `int8` returns no error and
stores 44; binding 2147483648 into an `int32` stores -2147483648 (on every stack). -/
theorem C16_bind_wraps_integer :
    unmarshal (everywhere id) (.BInt 300) (.int .int8) (.int 0) = (.int 44, .ok) ∧
    (∀ stk : Nat, Unmarshal stk (everywhere id) (ascii "i300e") (.int .int8) (.int 0)
      = (.int 44, .ok ())) ∧
    (∀ stk : Nat, Unmarshal stk (everywhere id) (ascii "i2147483648e") (.int .int32) (.int 0)
      = (.int (-2147483648), .ok ())) :=
  ⟨rfl, fun _ => rfl, fun _ => rfl⟩

/-! ## C17: byte slices -/

/-- C17 (the code at the failing input): `Marshal` of the byte slice `[]byte{1, 2, 3}` is
`15:<[]uint8 Value>`, the text `reflect` prints for a value that is not a string, and not
the three bytes with their length. -/
theorem C17_marshal_byte_slice :
    Marshal (everywhere id) (everywhere id) (.slice .uint8) (.seq [.uint 1, .uint 2, .uint 3])
      = .ok (ascii "15:<[]uint8 Value>") ∧
    ascii "15:<[]uint8 Value>" ≠ ascii "3:" ++ [1, 2, 3] :=
  ⟨rfl, by decide⟩

/-! ## C18: entries whose key finds no field -/

/-- C18: for every dictionary `d` and record target, and whatever order the runtime picks at
each of the map ranges of the two binds, each on its own: if binding `d` without some entries
whose key finds no field of the record succeeds, then binding `d` itself succeeds and leaves
the record with the same fields; the entries whose key matches no field are ignored and
change nothing. -/
theorem C18_unknown_keys_ignored (oA oB : RangeOrders) (hA : ValidOrders oA)
    (hB : ValidOrders oB) (d : List (List Nat × BValue)) (fields : List (FieldInfo × GoType))
    (cur r : GoValue) (keep : List Nat → Bool)
    (hwf : wfValue (.BDict d) = true)
    (hkeep : ∀ kv ∈ d, keep kv.1 = false → findField fields kv.1 = none)
    (h : unmarshal oA (.BDict (d.filter (fun kv => keep kv.1))) (.struct fields) cur
      = (r, .ok)) :
    unmarshal oB (.BDict d) (.struct fields) cur = (r, .ok) := by
  rw [wfValue, Bool.and_eq_true] at hwf
  obtain ⟨hsorted, hwfE⟩ := hwf
  have hmem := wfEntries_mem d hwfE
  have hsorted' : mapSorted (d.filter (fun kv => keep kv.1)) = true := by
    rw [mapSorted_iff] at hsorted ⊢
    exact hsorted.sublist (List.filter_sublist _)
  have hpA := rangeOver_perm (oA []) (hA []) _ hsorted'
  have hpB := rangeOver_perm (oB []) (hB []) d hsorted
  cases cur
  case struct values =>
    rw [unmarshal_dict_struct] at h
    cases hloop : unmarshalStructLoop fields
        (rangeOver (oA []) (unmarshalEntries oA (d.filter (fun kv => keep kv.1)))) values with
    | mk r' err =>
      rw [hloop] at h
      simp only [Prod.mk.injEq] at h
      obtain ⟨h1, h2⟩ := h
      subst h2
      rw [← h1]
      rw [unmarshalEntries_eq,
        rangeOver_mapVals (oA [])
          (fun (k : List Nat) (b : BValue) => unmarshal (below oA (.key k)) b)] at hloop
      -- the same entries, bound with the ranges of the second run
      have hB1 := structLoop_congr fields
        (fun (k : List Nat) (b : BValue) => unmarshal (below oA (.key k)) b)
        (fun (k : List Nat) (b : BValue) => unmarshal (below oB (.key k)) b) _
        (fun kb hkb => unmarshal_order_independent kb.2
          (hmem kb (List.mem_of_mem_filter (hpA.mem_iff.mp hkb))) _ _
          (validOrders_below oA hA _) (validOrders_below oB hB _))
        values r' hloop
      -- visited in the order of the second run
      have hperm : ((rangeOver (oA []) (d.filter (fun kv => keep kv.1))).map
            (fun kb => (kb.1, unmarshal (below oB (.key kb.1)) kb.2))).Perm
          (((rangeOver (oB []) d).filter (fun kv => keep kv.1)).map
            (fun kb => (kb.1, unmarshal (below oB (.key kb.1)) kb.2))) :=
        (hpA.trans (hpB.filter _).symm).map _
      have hnd : (((rangeOver (oA []) (d.filter (fun kv => keep kv.1))).map
          (fun kb => (kb.1, unmarshal (below oB (.key kb.1)) kb.2))).map Prod.fst).Nodup := by
        rw [List.map_map]
        exact rangeOver_keys_nodup (oA []) (hA []) _ hsorted'
      have hB2 := structLoop_perm fields _ _ hperm hnd values r' hB1
      -- together with the entries that find no field
      have hfm : ((rangeOver (oB []) d).filter (fun kv => keep kv.1)).map
            (fun kb => (kb.1, unmarshal (below oB (.key kb.1)) kb.2))
          = ((rangeOver (oB []) d).map
              (fun kb => (kb.1, unmarshal (below oB (.key kb.1)) kb.2))).filter
              (fun e => keep e.1) := by
        rw [List.filter_map]
        rfl
      rw [hfm, structLoop_filter fields keep _ (fun e he => by
        rw [List.mem_map] at he
        obtain ⟨kb, hkb, rfl⟩ := he
        exact hkeep kb (hpB.mem_iff.mp hkb))] at hB2
      rw [unmarshal_dict_struct, unmarshalEntries_eq,
        rangeOver_mapVals (oB [])
          (fun (k : List Nat) (b : BValue) => unmarshal (below oB (.key k)) b), hB2]
  all_goals simp [unmarshal] at h

/-- C18 (witness): the dictionary `{"a": "x", "zz": 1}` bound into a record with the fields
`a` and `b`: without the entry `zz` the bind sets `A` to `x`, and so does the bind of the
whole dictionary. -/
theorem C18_unknown_keys_ignored_witness :
    unmarshal (everywhere List.reverse) (.BDict [(ascii "a", .BString (ascii "x"))])
      abRecord (.struct [.string [], .string []])
      = (.struct [.string (ascii "x"), .string []], .ok) ∧
    unmarshal secondDescending
      (.BDict [(ascii "a", .BString (ascii "x")), (ascii "zz", .BInt 1)])
      abRecord (.struct [.string [], .string []])
      = (.struct [.string (ascii "x"), .string []], .ok) :=
  ⟨rfl, C18_unknown_keys_ignored (everywhere List.reverse) secondDescending
    (validOrders_everywhere _ validOrder_reverse) validOrders_secondDescending
    [(ascii "a", .BString (ascii "x")), (ascii "zz", .BInt 1)] _
    (.struct [.string [], .string []]) _ (fun k => decide (k = ascii "a"))
    (by decide)
    (fun kv hkv hk => by
      simp only [List.mem_cons, List.mem_singleton, List.not_mem_nil, or_false] at hkv
      rcases hkv with rfl | rfl
      · exact absurd hk (by decide)
      · rfl)
    rfl⟩

/-! ## C19: termination and progress of `decode` -/

/-- C19: `decode` terminates on every byte buffer: with recursion fuel `2 * len + 1` the call
from cursor 0 returns a value or an error, panics or exhausts the stack, never for lack of
fuel, and more fuel returns the same; and every call of `decode` that succeeds, at any
cursor, returns with the cursor strictly greater than on entry and at most the buffer
length. -/
theorem C19_decode_terminates_with_progress (stk : Nat) (data : List Nat) :
    Decode stk data ≠ .outOfFuel ∧
    (∀ f, 2 * data.length + 1 ≤ f → decode stk f data 0 = Decode stk data) ∧
    (∀ s f pos v pos', decode s f data pos = .ok (v, pos') →
      pos < pos' ∧ pos' ≤ data.length) := by
  have h1 : Decode stk data ≠ .outOfFuel :=
    (decode_enough_fuel (2 * data.length + 1)).1 stk data 0 (by omega)
  refine ⟨h1, ?_, fun s f pos v pos' h => (decode_progress f).1 s data pos v pos' h⟩
  intro f hf
  obtain ⟨k, rfl⟩ : ∃ k, f = 2 * data.length + 1 + k := ⟨f - (2 * data.length + 1), by omega⟩
  exact (decode_fuel_stable (2 * data.length + 1)).1 stk data 0 h1 k

/-! ## C20: `decode` after `encode` -/

/-- C20 (counterexample): whatever number `stk` of nested calls of `decode` the stack has room
for, decoding the encoding of the list nested `stk + 1` deep (`stk + 2` times `l`, then
`stk + 2` times `e`) does not succeed: the process ends with a stack overflow. So does
decoding the encoding `lllleeee` of `[[[[]]]]` on a stack with room for two nested calls. -/
theorem C20_deep_nesting_overflows :
    (∀ (stk : Nat) (o : RangeOrders) (rest : List Nat),
      wfValue (nestedList (stk + 1)) = true ∧ height (nestedList (stk + 1)) = stk + 1 ∧
      encode o (nestedList (stk + 1))
        = List.replicate (stk + 2) 108 ++ List.replicate (stk + 2) 101 ∧
      Decode stk (encode o (nestedList (stk + 1)) ++ rest) = .stackOverflow) ∧
    encode (everywhere id) (nestedList 3) = ascii "lllleeee" ∧
    Decode 2 (encode (everywhere id) (nestedList 3)) = .stackOverflow := by
  refine ⟨fun stk o rest =>
    ⟨wfValue_nestedList _, height_nestedList _, encode_nestedList _ o, ?_⟩, by decide, rfl⟩
  unfold Decode
  refine decode_deep_overflow stk _ _ 0 (List.replicate (stk + 2) 101 ++ rest) ?_ ?_
  · rw [encode_nestedList, List.drop_zero, List.append_assoc]
  · rw [encode_nestedList]
    simp only [List.length_append, List.length_replicate]
    omega

/-- C20 (amended): for every value tree `t` Go can hold, whatever order the runtime picks at
each of the map ranges of `encode`, and every `rest`: when the stack has room for the nested
calls of `decode` the tree needs, `decode` of `encode(t) ++ rest` from cursor 0 returns `t`
and leaves the cursor at `len(encode(t))`; when it has not, the process ends with a stack
overflow (the buffer being shorter than `2^63` bytes, as every Go slice is). -/
theorem C20_decode_left_inverse (stk : Nat) (o : RangeOrders) (ho : ValidOrders o)
    (t : BValue) (hwf : wfValue t = true) (rest : List Nat)
    (hlen : (encode o t ++ rest).length < 2 ^ 63) :
    Decode stk (encode o t ++ rest)
      = if height t ≤ stk then .ok (t, (encode o t).length) else .stackOverflow := by
  unfold Decode
  split
  · rename_i hst
    have h := decode_encode t hwf o ho stk (encode o t ++ rest) 0 rest
      (2 * (encode o t ++ rest).length + 1) hst hlen (by simp)
      (by rw [List.length_append]; omega)
    rw [h, Nat.zero_add]
  · rename_i hst
    exact decode_encode_overflow t hwf o ho stk (encode o t ++ rest) 0 rest
      (2 * (encode o t ++ rest).length + 1) (by omega) hlen (by simp)
      (by rw [List.length_append]; omega)

/-- C20 (witness): the list of two dictionaries `{"cow": "moo", "spam": "eggs"}`, the first
written with `cow` first and the second with `spam` first, followed by `i1e`, on a stack
with room for two nested calls and on a stack with room for one. -/
theorem C20_decode_left_inverse_witness :
    wfValue cowSpamTwice = true ∧ height cowSpamTwice = 2 ∧
    encode secondDescending cowSpamTwice
      = ascii "ld3:cow3:moo4:spam4:eggsed4:spam4:eggs3:cow3:mooee" ∧
    Decode 2 (ascii "ld3:cow3:moo4:spam4:eggsed4:spam4:eggs3:cow3:mooee" ++ ascii "i1e")
      = .ok (cowSpamTwice, 50) ∧
    Decode 1 (ascii "ld3:cow3:moo4:spam4:eggsed4:spam4:eggs3:cow3:mooee" ++ ascii "i1e")
      = .stackOverflow :=
  ⟨by decide, by decide, by decide,
    C20_decode_left_inverse 2 secondDescending validOrders_secondDescending cowSpamTwice
      (by decide) (ascii "i1e") (by decide),
    C20_decode_left_inverse 1 secondDescending validOrders_secondDescending cowSpamTwice
      (by decide) (ascii "i1e") (by decide)⟩

end Bencode
